import Mathlib

/-!
Verification of the BattleSheep solver core (board model, move generator,
heuristic evaluator, negamax searcher) against its specification.

The definitions below are a shallow embedding of the Rust sources
(src/board.rs and src/lib.rs).  Machine integers are modelled as follows:

* `i32` values (scores, alpha/beta bounds) are modelled as `Int`.  The code
  only ever produces scores bounded by `186 * number_of_cells + 1000015`
  (proved below as `heuristic_evaluate_bound`), so no `i32` operation in the
  modelled paths can wrap for boards satisfying the stated size hypotheses;
  the sentinels `i32::MIN` and `i32::MAX` appear as the `Int` constants
  `intMin` and `intMax`.
* `usize`/`isize` coordinates: the Rust code casts `isize` coordinates to
  `usize` (`r as usize`) before comparing with `num_rows`/`row_length`.
  For every representable `isize` value `r` and every real board
  (`num_rows < 2 ^ 63`), `(r as usize) < num_rows` holds iff
  `0 ≤ r ∧ r < num_rows`, which is how `coords_in_range` is rendered here.
* Rust iterators are materialised as Lean lists in the iteration order of
  the source; the two source loops without a structural bound (the straight
  line walk and the outer-edge walk) are modelled with an explicit fuel
  that dominates their real iteration count.
* `Vec` indexing that the source performs only on in-range indices is
  rendered with `List.getD`/`List.set` (total, and equal to the Rust
  behaviour on every reachable call).
-/

/-- Player of the two-player game (board.rs). -/
inductive Player where
  | Min : Player
  | Max : Player
deriving DecidableEq, Repr

namespace Player

/-- Sign used to fold player-oriented scores into one scalar (board.rs `sign`). -/
def sign : Player → Int
  | .Min => -1
  | .Max => 1

/-- Turn order for two players (board.rs `opposite`). -/
def opposite : Player → Player
  | .Min => .Max
  | .Max => .Min

/-- Modelled from the spec: lib.rs calls `player.direction()`, whose definition is
not among the files under src/; per the spec (section 3, "Player") the direction is
the fixed plus-or-minus-one sign used to fold a per-player-oriented score into one global
scalar, i.e. exactly `sign` of board.rs. -/
def direction (p : Player) : Int := p.sign

/-- Modelled from the spec: lib.rs calls `player.next()`, whose definition is not
among the files under src/; per the spec (section 3, "Player") `next` is the
round-robin turn order, which for the two players is `opposite` of board.rs. -/
def next (p : Player) : Player := p.opposite

theorem sign_opposite (p : Player) : p.opposite.sign = -p.sign := by
  cases p <;> rfl

theorem opposite_ne (p : Player) : p.opposite ≠ p := by
  cases p <;> simp [opposite]

end Player

/-- Tile type tag (board.rs). -/
inductive TileType where
  | NoTile : TileType
  | Empty : TileType
  | Stack : TileType
deriving DecidableEq, Repr

/-- Bitfield struct packing a tile into a single byte (board.rs):
0-31 = Min stack of size 1-32, 32-63 = Max stack of size 1-32,
64-127 = NoTile, 128-255 = Empty. -/
structure Tile where
  val : Nat
deriving DecidableEq, Repr

namespace Tile

def MAX_STACK_SIZE : Nat := 32

/-- Constructor of the bitfield (board.rs `Tile::new`). -/
def new (tile_type : TileType) (player : Player) (stack_size : Nat) : Tile :=
  ⟨stack_size - 1
    + (match player with | .Min => 0 | .Max => 32)
    + (match tile_type with | .Stack => 0 | .NoTile => 64 | .Empty => 128)⟩

def NO_TILE : Tile := new .NoTile .Min 1

def EMPTY : Tile := new .Empty .Min 1

def tile_type (t : Tile) : TileType :=
  if t.val < 64 then .Stack else if t.val < 128 then .NoTile else .Empty

def player (t : Tile) : Player :=
  if t.val < 32 then .Min else .Max

def stack_size (t : Tile) : Nat := t.val % 32 + 1

def is_stack (t : Tile) : Bool := t.val < 64

def is_empty (t : Tile) : Bool := 128 ≤ t.val

def is_board_tile (t : Tile) : Bool := t.is_stack || t.is_empty

theorem stack_size_le (t : Tile) : t.stack_size ≤ 32 := by
  have := Nat.mod_lt t.val (show (0 : Nat) < 32 by omega)
  unfold stack_size; omega

theorem stack_size_pos (t : Tile) : 1 ≤ t.stack_size := by
  unfold stack_size; omega

theorem new_stack_is_stack (p : Player) (s : Nat) (hs : 1 ≤ s) (hs2 : s ≤ 32) :
    (new .Stack p s).is_stack = true := by
  cases p <;> simp only [new, is_stack, decide_eq_true_eq] <;> omega

end Tile

/-- Coordinate offsets of the 6 hex neighbors, in clockwise order (board.rs). -/
def DIRECTION_OFFSETS : List (Int × Int) :=
  [(0, 1), (1, 1), (1, 0), (0, -1), (-1, -1), (-1, 0)]

/-- Vector addition of coordinates (board.rs `add_offset`). -/
def add_offset (c off : Int × Int) : Int × Int := (c.1 + off.1, c.2 + off.2)

/-- Growable hex board: tiles in row-major order plus the row stride (board.rs). -/
structure Board where
  tiles : List Tile
  row_length : Nat
deriving DecidableEq, Repr

namespace Board

def num_rows (b : Board) : Nat := b.tiles.length / b.row_length

/-- Flattening of (row, column) coordinates into the buffer index
(board.rs `coords_to_index`; the `as usize` casts are total on the in-range
coordinates this is applied to). -/
def coords_to_index (b : Board) (c : Int × Int) : Nat :=
  b.row_length * c.1.toNat + c.2.toNat

/-- Inverse of the flattening (board.rs `index_to_coords`). -/
def index_to_coords (b : Board) (index : Nat) : Int × Int :=
  ((index / b.row_length : Nat), (index % b.row_length : Nat))

/-- Bounds check (board.rs `coords_in_range`): the source casts the signed
coordinates to `usize` and compares; on representable coordinates this is
equivalent to the two-sided comparison written here. -/
def coords_in_range (b : Board) (c : Int × Int) : Bool :=
  decide (0 ≤ c.1 ∧ c.1 < (b.num_rows : Int) ∧ 0 ≤ c.2 ∧ c.2 < (b.row_length : Int))

/-- Total indexing (board.rs `Index for Board`): every out-of-range coordinate
reads as `NO_TILE`. -/
def index (b : Board) (c : Int × Int) : Tile :=
  if b.coords_in_range c then b.tiles.getD (b.coords_to_index c) Tile.NO_TILE
  else Tile.NO_TILE

/-- Destructive single-cell write (board.rs `IndexMut for Board`; the source
only ever writes at in-range coordinates). -/
def setTile (b : Board) (c : Int × Int) (t : Tile) : Board :=
  ⟨b.tiles.set (b.coords_to_index c) t, b.row_length⟩

/-- Row-major iteration over all tiles with their coordinates
(board.rs `iter_row_major`). -/
def iter_row_major (b : Board) : List ((Int × Int) × Tile) :=
  b.tiles.enum.map (fun it => (b.index_to_coords it.1, it.2))

/-- The 6 neighbors of a coordinate in clockwise order (board.rs `iter_neighbors`). -/
def iter_neighbors (b : Board) (c : Int × Int) : List ((Int × Int) × Tile) :=
  DIRECTION_OFFSETS.map (fun off => (add_offset c off, b.index (add_offset c off)))

/-- One step of the straight-line walk, with fuel (board.rs
`iter_empty_straight_line` is an unbounded `iter::successors`; a line visits
pairwise-distinct cells that must all be empty, hence in range, so
`tiles.length + 1` steps of fuel strictly dominate its iteration count). -/
def lineWalk (b : Board) (dir : Int × Int) : (Int × Int) → Nat → List (Int × Int)
  | _, 0 => []
  | c, fuel + 1 =>
    let n := add_offset c dir
    if (b.index n).is_empty then n :: lineWalk b dir n fuel else []

/-- Run of empty cells reachable from (and excluding) a start coordinate in one
direction (board.rs `iter_empty_straight_line`). -/
def iter_empty_straight_line (b : Board) (start dir : Int × Int) : List (Int × Int) :=
  lineWalk b dir start (b.tiles.length + 1)

/-- Farthest empty cell reachable in each direction, skipping directions with no
reachable empty cell (board.rs `iter_empty_straight_line_ends`). -/
def iter_empty_straight_line_ends (b : Board) (start : Int × Int) : List (Int × Int) :=
  DIRECTION_OFFSETS.filterMap (fun dir => (b.iter_empty_straight_line start dir).getLast?)

/-- One step of the outer-edge walk (board.rs `iter_empty_outer_edge` loop body):
scan the neighbors of the current cell clockwise starting just past the previous
cell and take the first board tile, falling back to the start. -/
def findNextEdge (b : Board) (prev cur start : Int × Int) (startTile : Tile) :
    (Int × Int) × Tile :=
  let nbrs := b.iter_neighbors cur
  ((((nbrs ++ nbrs).dropWhile (fun nt => decide (nt.1 ≠ prev))).drop 1).find?
      (fun nt => nt.2.is_board_tile)).getD (start, startTile)

/-- Fueled outer-edge walk (board.rs `iter_empty_outer_edge` loop; the Rust loop
runs until the walk closes, which the fuel in `iter_empty_outer_edge`
dominates for every board the game produces). -/
def edgeWalk (b : Board) (start : Int × Int) (startTile : Tile) :
    (Int × Int) → (Int × Int) → Nat → List (Int × Int)
  | _, _, 0 => []
  | prev, cur, fuel + 1 =>
    let nt := findNextEdge b prev cur start startTile
    (if nt.2.is_empty then [nt.1] else [])
      ++ (if nt.1 = start then [] else edgeWalk b start startTile cur nt.1 fuel)

/-- All empty cells adjacent to the outer edge of the board, in walk order
(board.rs `iter_empty_outer_edge`; the source panics on a board without any
board tile, rendered here as the empty list). -/
def iter_empty_outer_edge (b : Board) : List (Int × Int) :=
  match (b.iter_row_major).find? (fun ct => ct.2.is_board_tile) with
  | none => []
  | some (sc, st) =>
    edgeWalk b sc st (add_offset sc (0, -1)) sc ((b.tiles.length + 4) * (b.tiles.length + 4) * 8)

/-- Regular moves: split an owned stack of size above one and slide the split
part to a straight-line end (board.rs `possible_regular_moves`). -/
def possible_regular_moves (b : Board) (player : Player) : List Board :=
  ((b.iter_row_major).filter
      (fun ct => ct.2.is_stack && decide (ct.2.player = player) && decide (1 < ct.2.stack_size))).flatMap
    (fun oc =>
      (b.iter_empty_straight_line_ends oc.1).flatMap
        (fun target =>
          (List.range' 1 (oc.2.stack_size - 1)).map
            (fun split =>
              (b.setTile target (Tile.new .Stack player split)).setTile oc.1
                (Tile.new .Stack player (oc.2.stack_size - split)))))

/-- Starting moves: place a fresh stack of 16 on an empty outer-edge cell
(board.rs `possible_starting_moves`). -/
def possible_starting_moves (b : Board) (player : Player) : List Board :=
  (b.iter_empty_outer_edge).map (fun c => b.setTile c (Tile.new .Stack player 16))

/-- All legal successor boards for a player (board.rs `possible_moves`). -/
def possible_moves (b : Board) (player : Player) : List Board :=
  if (b.iter_row_major).any (fun ct => ct.2.is_stack && decide (ct.2.player = player)) then
    b.possible_regular_moves player
  else
    b.possible_starting_moves player

/-- Number of directions of a cell not leading to an empty neighbor
(board.rs `heuristic_evaluate`, the `blocked_directions` accumulator). -/
def blocked_directions (b : Board) (c : Int × Int) : Int :=
  6 - ((b.iter_neighbors c).countP (fun nt => nt.2.is_empty) : Int)

/-- Whether a player has no splittable unblocked stack (board.rs
`heuristic_evaluate`, the `min_all_blocked` / `max_all_blocked` flags). -/
def all_blocked (b : Board) (p : Player) : Bool :=
  (b.iter_row_major).all
    (fun ct => !(ct.2.is_stack && decide (ct.2.player = p)
        && decide (1 < ct.2.stack_size) && decide (blocked_directions b ct.1 < 6)))

/-- Stack count of a player (board.rs `heuristic_evaluate`, the
`min_stacks` / `max_stacks` accumulators). -/
def num_stacks (b : Board) (p : Player) : Nat :=
  (b.iter_row_major).countP (fun ct => ct.2.is_stack && decide (ct.2.player = p))

/-- Sizes of a player's stacks in row-major order. -/
def stack_sizes (b : Board) (p : Player) : List Int :=
  ((b.iter_row_major).filter (fun ct => ct.2.is_stack && decide (ct.2.player = p))).map
    (fun ct => (ct.2.stack_size : Int))

/-- Largest owned stack size (board.rs `heuristic_evaluate`, the
`.._largest_stack` accumulators, folded from 0). -/
def largest_stack (b : Board) (p : Player) : Int :=
  (b.stack_sizes p).foldl max 0

/-- Smallest owned stack size (board.rs `heuristic_evaluate`, the
`.._smallest_stack` accumulators, folded from `i32::MAX`). -/
def smallest_stack (b : Board) (p : Player) : Int :=
  (b.stack_sizes p).foldl min 2147483647

/-- Sum of the per-stack blocked scores, signed against the owner
(board.rs `heuristic_evaluate`, the contributions to `value` in the loop). -/
def blocked_sum (b : Board) : Int :=
  ((b.iter_row_major).map
      (fun ct =>
        if ct.2.is_stack then
          -(ct.2.player.sign) * ((ct.2.stack_size : Int) - 1) * blocked_directions b ct.1
        else 0)).sum

/-- Score of a board before the endgame overrides: blocked scores plus the
evenness bonus (board.rs `heuristic_evaluate`, `value` right after the loop;
`i32` division truncates toward zero, i.e. `Int.tdiv`). -/
def incremental_value (b : Board) : Int :=
  blocked_sum b
    + Int.tdiv (largest_stack b .Min - smallest_stack b .Min) 2
    - Int.tdiv (largest_stack b .Max - smallest_stack b .Max) 2

/-- One inner step of the flood fill: push the unvisited same-owner stack
neighbors of a popped cell (board.rs `largest_connected_field_holder`,
the `for (neighbor_coords, neighbor) in ...` loop). -/
def dfsStep (b : Board) (p : Player) (c : Int × Int)
    (visited : List Bool) (stack : List (Int × Int)) : List Bool × List (Int × Int) :=
  (b.iter_neighbors c).foldl
    (fun vs nt =>
      if nt.2.is_stack && decide (nt.2.player = p)
          && !(vs.1.getD (b.coords_to_index nt.1) false) then
        (vs.1.set (b.coords_to_index nt.1) true, nt.1 :: vs.2)
      else vs)
    (visited, stack)

/-- Fueled DFS loop of the flood fill (board.rs
`largest_connected_field_holder`, the `while let Some(coords)` loop; every
push first marks its cell visited, so the loop pops at most
`tiles.length + 1` cells and the fuel used below dominates it). -/
def dfsLoop (b : Board) (p : Player) :
    Nat → List (Int × Int) → List Bool → Nat → Nat × List Bool
  | 0, _, visited, fsize => (fsize, visited)
  | _ + 1, [], visited, fsize => (fsize, visited)
  | fuel + 1, c :: rest, visited, fsize =>
    let s := dfsStep b p c visited rest
    dfsLoop b p fuel s.2 s.1 (fsize + 1)

/-- Outer loop of the flood fill over all cells in row-major order
(board.rs `largest_connected_field_holder`), returning the largest Min field
and largest Max field. -/
def fieldsLoop (b : Board) :
    List ((Int × Int) × Tile) → List Bool → Nat → Nat → Nat × Nat
  | [], _, minF, maxF => (minF, maxF)
  | ct :: rest, visited, minF, maxF =>
    if ct.2.is_stack && !(visited.getD (b.coords_to_index ct.1) false) then
      let p := ct.2.player
      let r := dfsLoop b p (b.tiles.length + 1) [ct.1]
        (visited.set (b.coords_to_index ct.1) true) 0
      match p with
      | .Min => fieldsLoop b rest r.2 (max minF r.1) maxF
      | .Max => fieldsLoop b rest r.2 minF (max maxF r.1)
    else fieldsLoop b rest visited minF maxF

/-- Which player holds the strictly largest 6-connected same-owner field
(board.rs `largest_connected_field_holder`). -/
def largest_connected_field_holder (b : Board) : Option Player :=
  let r := fieldsLoop b (b.iter_row_major) (List.replicate b.tiles.length false) 0 0
  if r.1 > r.2 then some .Min
  else if r.2 > r.1 then some .Max
  else none

/-- Board evaluation (board.rs `heuristic_evaluate`): incremental
blocked/evenness score, overridden by endgame values when a player is fully
blocked. -/
def heuristic_evaluate (b : Board) : Int :=
  let value := incremental_value b
  if all_blocked b .Min && all_blocked b .Max then
    if num_stacks b .Max > num_stacks b .Min then 1000000
    else if num_stacks b .Min > num_stacks b .Max then -1000000
    else
      match largest_connected_field_holder b with
      | some .Max => 1000000
      | some .Min => -1000000
      | none => 0
  else if all_blocked b .Min then
    if num_stacks b .Max ≥ num_stacks b .Min then 1000000
    else
      match largest_connected_field_holder b with
      | some .Max => 1000000
      | _ => value
  else if all_blocked b .Max then
    if num_stacks b .Min ≥ num_stacks b .Max then -1000000
    else
      match largest_connected_field_holder b with
      | some .Min => -1000000
      | _ => value
  else value

end Board

/-! Searcher (lib.rs): negamax with alpha-beta pruning and move ordering.
The parallel top level of `choose_move` is modelled by its mutex-serialised
schedule: the first (best-sorted) move is evaluated first, then the remaining
moves in order, each reading the current shared alpha bound. -/

/-- Sentinel `i32::MIN`, the initial running maximum of the search loops. -/
def intMin : Int := -2147483648

/-- Sentinel `i32::MAX`. -/
def intMax : Int := 2147483647

/-- Move ordering (lib.rs `sort_iter_by_cached_key` applied to
`-player.direction() * heuristic_evaluate`): a stable sort by that key. -/
def sort_moves (p : Player) (moves : List Board) : List Board :=
  moves.mergeSort (fun m1 m2 =>
    decide (-p.direction * m1.heuristic_evaluate ≤ -p.direction * m2.heuristic_evaluate))

/-- Loop body of `minimax_evaluate` (lib.rs): fold the moves, negating the
child evaluation `f`, raising alpha on improvement and cutting off at beta.
The state is (running maximum, visited count, alpha). -/
def abLoop (f : Board → Int → Int × Nat) (beta : Int) :
    List Board → Int → Nat → Int → Int × Nat
  | [], maxv, vis, _ => (maxv, vis)
  | m :: ms, maxv, vis, a =>
    let r := f m a
    let value := -r.1
    if value > maxv then
      if value ≥ beta then (value, vis + r.2)
      else abLoop f beta ms value (vis + r.2) (max a value)
    else abLoop f beta ms maxv (vis + r.2) a

/-- Board evaluation by heuristic or pruned minimax (lib.rs `evaluate`). -/
def evaluate (player : Player) (board : Board) (heuristic_depth : Nat) (alpha beta : Int) :
    Int × Nat :=
  match heuristic_depth with
  | 0 => (player.direction * board.heuristic_evaluate, 1)
  | d + 1 =>
    let moves :=
      if d = 0 then board.possible_moves player
      else sort_moves player (board.possible_moves player)
    let r := abLoop (fun m a => evaluate player.next m d (-beta) (-a)) beta moves intMin 0 alpha
    if r.1 = intMin then (player.direction * board.heuristic_evaluate, 1) else r

/-- Evaluation of an iterator of moves (lib.rs `minimax_evaluate`): the
fold of `abLoop` started from `i32::MIN` with the given window. -/
def minimax_evaluate (player : Player) (moves : List Board) (heuristic_depth : Nat)
    (alpha beta : Int) : Int × Nat :=
  abLoop (fun m a => evaluate player.next m (heuristic_depth - 1) (-beta) (-a))
    beta moves intMin 0 alpha

theorem evaluate_succ_eq (player : Player) (board : Board) (d : Nat) (alpha beta : Int) :
    evaluate player board (d + 1) alpha beta =
      (let moves :=
        if d = 0 then board.possible_moves player
        else sort_moves player (board.possible_moves player)
      let r := minimax_evaluate player moves (d + 1) alpha beta
      if r.1 = intMin then (player.direction * board.heuristic_evaluate, 1) else r) := by
  rfl

/-- Loop body of `choose_move` (lib.rs): like `abLoop` but remembering which
move produced the best value, with no beta cutoff (the parallel top level
evaluates every dispatched move), alpha raised via the shared atomic maximum.
The state is ((chosen move, running maximum, visited count), alpha). -/
def chooseLoop (f : Board → Int → Int × Nat) :
    List Board → Option Board × Int × Nat → Int → Option Board × Int × Nat
  | [], st, _ => st
  | m :: ms, st, a =>
    let r := f m a
    let value := -r.1
    if value > st.2.1 then chooseLoop f ms (some m, value, st.2.2 + r.2) (max a value)
    else chooseLoop f ms (st.1, st.2.1, st.2.2 + r.2) a

/-- Top-level move choice (lib.rs `choose_move`), in its mutex-serialised
schedule: returns the chosen next board, its value and the visited count. -/
def choose_move (player : Player) (board : Board) (heuristic_depth : Nat) (alpha beta : Int) :
    Option Board × Int × Nat :=
  let moves := sort_moves player (board.possible_moves player)
  let st := chooseLoop (fun m a => evaluate player.next m (heuristic_depth - 1) (-beta) (-a))
    moves (none, intMin, 0) alpha
  if st.2.1 = intMin then (none, player.direction * board.heuristic_evaluate, 1) else st

/-- Exhaustive unpruned negamax over the same move generator and the same leaf
evaluation as `evaluate`, the reference point of the alpha-beta equivalence
claim: maximum over all successors of the negated child value, falling back to
the leaf evaluation at depth zero or when no successor exists. -/
def negamax (p : Player) (b : Board) : Nat → Int
  | 0 => p.direction * b.heuristic_evaluate
  | d + 1 =>
    match b.possible_moves p with
    | [] => p.direction * b.heuristic_evaluate
    | m :: ms => (ms.map (fun m2 => -(negamax p.next m2 d))).foldl max (-(negamax p.next m d))
termination_by d => d

/-! Concrete boards used by the witnesses and counterexamples below. -/

/-- Board with one Min stack of 1, one Max stack of 2 and one empty cell. -/
def bWitness : Board :=
  ⟨[Tile.new .Stack .Min 1, Tile.new .Stack .Max 2, Tile.EMPTY], 3⟩

/-- Board with a Max stack of 2, two empty cells and a Min stack of 2 in a row. -/
def bAsym : Board :=
  ⟨[Tile.new .Stack .Max 2, Tile.EMPTY, Tile.EMPTY, Tile.new .Stack .Min 2], 4⟩

/-- Board with a Max stack of 2 next to an empty cell and no Min stack. -/
def bOneSided : Board :=
  ⟨[Tile.new .Stack .Max 2, Tile.EMPTY], 2⟩

/-! Basic facts about the board model. -/

namespace Board

theorem coords_to_index_lt (b : Board) (r q : Int)
    (hr : 0 ≤ r) (hr2 : r < (b.num_rows : Int)) (hq : 0 ≤ q) (hq2 : q < (b.row_length : Int)) :
    b.coords_to_index (r, q) < b.tiles.length := by
  have hrt : r.toNat + 1 ≤ b.num_rows := by omega
  have hqt : q.toNat < b.row_length := by omega
  have key : b.row_length * (r.toNat + 1) ≤ b.row_length * b.num_rows :=
    Nat.mul_le_mul_left _ hrt
  have h3 : b.row_length * b.num_rows ≤ b.tiles.length := by
    rw [mul_comm]
    unfold num_rows
    exact Nat.div_mul_le_self _ _
  unfold coords_to_index
  rw [Nat.mul_succ] at key
  simp only
  omega

theorem mem_num_stacks_zero (b : Board) (p : Player) (h : b.num_stacks p = 0) :
    ∀ ct ∈ b.iter_row_major, ¬(ct.2.is_stack = true ∧ ct.2.player = p) := by
  intro ct hct hcon
  have := List.countP_eq_zero.mp h ct hct
  simp only [Bool.and_eq_true, decide_eq_true_eq] at this
  exact this ⟨hcon.1, hcon.2⟩

theorem all_blocked_of_no_stacks (b : Board) (p : Player) (h : b.num_stacks p = 0) :
    b.all_blocked p = true := by
  unfold all_blocked
  rw [List.all_eq_true]
  intro ct hct
  have hns : (ct.2.is_stack && decide (ct.2.player = p)) = false := by
    have := List.countP_eq_zero.mp h ct hct
    simpa using this
  simp only [hns, Bool.false_and, Bool.not_false]

end Board

/-- C7: Board indexing is a total function.  For every signed coordinate pair,
including negative coordinates and coordinates past the stored rectangle,
indexing returns the stored buffer tile when the coordinates are inside the
rectangle of `num_rows` by `row_length` cells and `NO_TILE` otherwise; the
in-range buffer access is always within bounds, so it can never fail. -/
theorem index_is_total_function (b : Board) (r q : Int) (_hL : 0 < b.row_length) :
    (b.coords_in_range (r, q) = true →
        b.coords_to_index (r, q) < b.tiles.length ∧
          b.index (r, q) = b.tiles.getD (b.coords_to_index (r, q)) Tile.NO_TILE) ∧
      (b.coords_in_range (r, q) = false → b.index (r, q) = Tile.NO_TILE) ∧
      (b.coords_in_range (r, q) = true ↔
        0 ≤ r ∧ r < (b.num_rows : Int) ∧ 0 ≤ q ∧ q < (b.row_length : Int)) := by
  refine ⟨fun hin => ?_, fun hout => ?_, ?_⟩
  · have hc : 0 ≤ r ∧ r < (b.num_rows : Int) ∧ 0 ≤ q ∧ q < (b.row_length : Int) := by
      simpa [Board.coords_in_range] using hin
    refine ⟨Board.coords_to_index_lt b r q hc.1 hc.2.1 hc.2.2.1 hc.2.2.2, ?_⟩
    simp [Board.index, hin]
  · simp [Board.index, hout]
  · simp [Board.coords_in_range]

/-- Closed instance of `index_is_total_function` at a concrete board and
coordinate pair. -/
theorem index_is_total_function_witness :
    (bWitness.coords_in_range (0, 1) = true →
        bWitness.coords_to_index (0, 1) < bWitness.tiles.length ∧
          bWitness.index (0, 1) = bWitness.tiles.getD (bWitness.coords_to_index (0, 1)) Tile.NO_TILE) ∧
      (bWitness.coords_in_range (0, 1) = false → bWitness.index (0, 1) = Tile.NO_TILE) ∧
      (bWitness.coords_in_range (0, 1) = true ↔
        0 ≤ (0 : Int) ∧ (0 : Int) < (bWitness.num_rows : Int) ∧ 0 ≤ (1 : Int) ∧
          (1 : Int) < (bWitness.row_length : Int)) :=
  index_is_total_function bWitness 0 1 (by decide)

/-- C2: on a board where every player is fully blocked (no stack of that player
has size above one together with an empty neighbor), the evaluator returns
exactly the terminal resolution: the win value of the player with strictly more
stacks, and on an equal stack count the win value of the holder of the strictly
largest connected same-owner field (0 when the largest fields tie).  No
incremental blocked/evenness score is returned for such a board. -/
theorem terminal_eval_of_all_blocked (b : Board)
    (hmin : b.all_blocked .Min = true) (hmax : b.all_blocked .Max = true) :
    b.heuristic_evaluate =
      if b.num_stacks .Max > b.num_stacks .Min then 1000000
      else if b.num_stacks .Min > b.num_stacks .Max then -1000000
      else
        match b.largest_connected_field_holder with
        | some .Max => 1000000
        | some .Min => -1000000
        | none => 0 := by
  unfold Board.heuristic_evaluate
  rw [hmin, hmax]
  rfl

/-- Board with one Min stack of 1 and one Max stack of 1: every player is fully
blocked, the stack counts tie and the largest fields tie, so the terminal value
is the draw value 0. -/
def bBlocked : Board := ⟨[Tile.new .Stack .Min 1, Tile.new .Stack .Max 1], 2⟩

/-- Closed instance of `terminal_eval_of_all_blocked` on a concrete fully
blocked board. -/
theorem terminal_eval_of_all_blocked_witness :
    (bBlocked.all_blocked .Min = true ∧ bBlocked.all_blocked .Max = true) ∧
      bBlocked.heuristic_evaluate = 0 :=
  ⟨⟨by decide, by decide⟩,
    (terminal_eval_of_all_blocked bBlocked (by decide) (by decide)).trans (by decide)⟩

/-- C10: on a board where exactly one player owns no stack at all while the
other owns at least one, the evaluator returns exactly the stack-owning
player's terminal win value: a stackless player counts as fully blocked, so
during the placement phase the evaluator already reports a decided game
rather than an incremental score. -/
theorem stackless_player_terminal (b : Board) (p : Player)
    (hnone : b.num_stacks p.opposite = 0) (hsome : 0 < b.num_stacks p) :
    b.heuristic_evaluate = p.sign * 1000000 := by
  have hb := Board.all_blocked_of_no_stacks b p.opposite hnone
  cases p with
  | Max =>
    simp only [Player.opposite] at hb hnone
    have hgt : b.num_stacks .Min < b.num_stacks .Max := by omega
    have hge : b.num_stacks .Min ≤ b.num_stacks .Max := le_of_lt hgt
    by_cases hM : b.all_blocked .Max = true
    · simp [Board.heuristic_evaluate, hb, hM, gt_iff_lt, hgt, Player.sign]
    · rw [Bool.not_eq_true] at hM
      simp [Board.heuristic_evaluate, hb, hM, ge_iff_le, hge, Player.sign]
  | Min =>
    simp only [Player.opposite] at hb hnone
    have hgt : b.num_stacks .Max < b.num_stacks .Min := by omega
    have hge : b.num_stacks .Max ≤ b.num_stacks .Min := le_of_lt hgt
    by_cases hM : b.all_blocked .Min = true
    · simp [Board.heuristic_evaluate, hb, hM, gt_iff_lt, hgt, Nat.lt_asymm hgt, Player.sign]
    · rw [Bool.not_eq_true] at hM
      simp [Board.heuristic_evaluate, hb, hM, ge_iff_le, hge, Player.sign]

/-- Closed instance of `stackless_player_terminal` on a concrete board where
only Max owns a stack. -/
theorem stackless_player_terminal_witness :
    (bOneSided.num_stacks Player.Max.opposite = 0 ∧ 0 < bOneSided.num_stacks .Max) ∧
      bOneSided.heuristic_evaluate = 1000000 :=
  ⟨⟨by decide, by decide⟩,
    (stackless_player_terminal bOneSided .Max (by decide) (by decide)).trans (by decide)⟩

/-- C3 as stated fails on the code: on the concrete board with a Max stack of
2 next to an empty cell and no Min stack, some player (Max) is not fully
blocked, but the evaluator returns the one-sided endgame override 1000000,
not the incremental score of that board. -/
theorem incremental_only_counterexample :
    bOneSided.all_blocked .Max = false ∧
      bOneSided.heuristic_evaluate = 1000000 ∧
      bOneSided.incremental_value = -1073741828 ∧
      bOneSided.heuristic_evaluate ≠ bOneSided.incremental_value :=
  ⟨by decide, by decide, by decide, by decide⟩

/-- C3 (amended): on every board where NEITHER player is fully blocked, the
evaluator returns exactly the incremental score: the sum over all stacks of
(size - 1) * (6 - number of empty neighbors) signed against the owner, plus
the evenness term (largest - smallest owned stack size) / 2 signed against
the owner; the endgame overrides apply only when at least one player is
fully blocked. -/
theorem incremental_eval_of_no_player_blocked (b : Board)
    (hmin : b.all_blocked .Min = false) (hmax : b.all_blocked .Max = false) :
    b.heuristic_evaluate =
      Board.blocked_sum b
        + Int.tdiv (Board.largest_stack b .Min - Board.smallest_stack b .Min) 2
        - Int.tdiv (Board.largest_stack b .Max - Board.smallest_stack b .Max) 2 := by
  unfold Board.heuristic_evaluate
  rw [hmin, hmax]
  rfl

/-- Closed instance of `incremental_eval_of_no_player_blocked` on a concrete
board where both players can still move. -/
theorem incremental_eval_of_no_player_blocked_witness :
    (bAsym.all_blocked .Min = false ∧ bAsym.all_blocked .Max = false) ∧
      bAsym.heuristic_evaluate = 0 :=
  ⟨⟨by decide, by decide⟩,
    (incremental_eval_of_no_player_blocked bAsym (by decide) (by decide)).trans (by decide)⟩

/-! Frame lemmas for single-cell writes and the row-major iteration. -/

namespace Board

theorem setTile_row_length (b : Board) (c : Int × Int) (t : Tile) :
    (b.setTile c t).row_length = b.row_length := rfl

theorem setTile_tiles_length (b : Board) (c : Int × Int) (t : Tile) :
    (b.setTile c t).tiles.length = b.tiles.length := by
  simp [setTile]

theorem setTile_num_rows (b : Board) (c : Int × Int) (t : Tile) :
    (b.setTile c t).num_rows = b.num_rows := by
  simp [num_rows, setTile]

theorem setTile_coords_in_range (b : Board) (c c2 : Int × Int) (t : Tile) :
    (b.setTile c t).coords_in_range c2 = b.coords_in_range c2 := by
  simp [coords_in_range, setTile_num_rows, setTile_row_length]

theorem setTile_coords_to_index (b : Board) (c c2 : Int × Int) (t : Tile) :
    (b.setTile c t).coords_to_index c2 = b.coords_to_index c2 := rfl

theorem coords_in_range_iff (b : Board) (c : Int × Int) :
    b.coords_in_range c = true ↔
      0 ≤ c.1 ∧ c.1 < (b.num_rows : Int) ∧ 0 ≤ c.2 ∧ c.2 < (b.row_length : Int) := by
  simp [coords_in_range]

theorem coords_to_index_lt_of_in_range (b : Board) (c : Int × Int)
    (h : b.coords_in_range c = true) : b.coords_to_index c < b.tiles.length := by
  rw [coords_in_range_iff] at h
  exact coords_to_index_lt b c.1 c.2 h.1 h.2.1 h.2.2.1 h.2.2.2

theorem coords_to_index_inj (b : Board) (c c2 : Int × Int)
    (h : b.coords_in_range c = true) (h2 : b.coords_in_range c2 = true)
    (hne : c ≠ c2) : b.coords_to_index c ≠ b.coords_to_index c2 := by
  rw [coords_in_range_iff] at h h2
  intro heq
  apply hne
  have hL : 0 < b.row_length := by omega
  have hq1 : c.2.toNat < b.row_length := by omega
  have hq2 : c2.2.toNat < b.row_length := by omega
  unfold coords_to_index at heq
  have hdiv := congrArg (· / b.row_length) heq
  have hmod := congrArg (· % b.row_length) heq
  simp only [Nat.mul_add_div hL, Nat.div_eq_of_lt hq1, Nat.div_eq_of_lt hq2,
    Nat.mul_add_mod, Nat.mod_eq_of_lt hq1, Nat.mod_eq_of_lt hq2, Nat.add_zero] at hdiv hmod
  have e1 : c.1 = c2.1 := by omega
  have e2 : c.2 = c2.2 := by omega
  exact Prod.ext e1 e2

theorem index_setTile_self (b : Board) (c : Int × Int) (t : Tile)
    (h : b.coords_in_range c = true) : (b.setTile c t).index c = t := by
  have h' : (b.setTile c t).coords_in_range c = true := by
    rw [setTile_coords_in_range]; exact h
  have hlt : b.coords_to_index c < b.tiles.length := coords_to_index_lt_of_in_range b c h
  rw [index, if_pos h']
  show (b.tiles.set (b.coords_to_index c) t).getD (b.coords_to_index c) Tile.NO_TILE = t
  rw [List.getD_eq_getElem?_getD, List.getElem?_set_self hlt]
  rfl

theorem index_setTile_ne (b : Board) (c c2 : Int × Int) (t : Tile)
    (hc : b.coords_in_range c = true) (hne : c2 ≠ c) :
    (b.setTile c t).index c2 = b.index c2 := by
  have hrange := setTile_coords_in_range b c c2 t
  by_cases h2 : b.coords_in_range c2 = true
  · have hij : b.coords_to_index c ≠ b.coords_to_index c2 :=
      coords_to_index_inj b c c2 hc h2 (Ne.symm hne)
    rw [index, index, if_pos (hrange.trans h2), if_pos h2]
    show (b.tiles.set (b.coords_to_index c) t).getD (b.coords_to_index c2) Tile.NO_TILE = _
    rw [List.getD_eq_getElem?_getD, List.getD_eq_getElem?_getD, List.getElem?_set_ne hij]
  · rw [Bool.not_eq_true] at h2
    rw [index, index, if_neg (by simp [hrange, h2]), if_neg (by simp [h2])]

theorem mem_iter_row_major_iff (b : Board) (ct : (Int × Int) × Tile) :
    ct ∈ b.iter_row_major ↔
      ∃ i, b.tiles[i]? = some ct.2 ∧ ct.1 = b.index_to_coords i := by
  unfold iter_row_major
  rw [List.mem_map]
  constructor
  · rintro ⟨it, hmem, rfl⟩
    exact ⟨it.1, (List.mem_enum_iff_getElem?).mp hmem, rfl⟩
  · rintro ⟨i, hget, hco⟩
    refine ⟨(i, ct.2), (List.mem_enum_iff_getElem?).mpr hget, ?_⟩
    obtain ⟨c, t⟩ := ct
    simp only at hco
    simp [hco]

theorem index_of_mem_iter_row_major (b : Board) (c : Int × Int) (t : Tile)
    (hL : 0 < b.row_length) (hdvd : b.row_length ∣ b.tiles.length)
    (h : (c, t) ∈ b.iter_row_major) :
    b.coords_in_range c = true ∧ b.index c = t := by
  rw [mem_iter_row_major_iff] at h
  obtain ⟨i, hget, hco⟩ := h
  simp only at hget hco
  have hi : i < b.tiles.length := by
    by_contra hge
    rw [List.getElem?_eq_none (by omega)] at hget
    cases hget
  obtain ⟨nr, hnr⟩ := hdvd
  have hnumr : b.num_rows = nr := by
    unfold num_rows
    rw [hnr, Nat.mul_div_cancel_left nr hL]
  have hdivlt : i / b.row_length < nr := by
    rw [Nat.div_lt_iff_lt_mul hL]
    have hcomm : b.row_length * nr = nr * b.row_length := Nat.mul_comm _ _
    omega
  have hin : b.coords_in_range c = true := by
    rw [hco, coords_in_range_iff]
    unfold index_to_coords
    dsimp only
    refine ⟨by positivity, ?_, by positivity, ?_⟩
    · rw [hnumr]; exact_mod_cast hdivlt
    · exact_mod_cast Nat.mod_lt i hL
  refine ⟨hin, ?_⟩
  rw [index, if_pos hin, hco]
  show b.tiles.getD (b.coords_to_index (b.index_to_coords i)) Tile.NO_TILE = t
  have hrt : b.coords_to_index (b.index_to_coords i) = i := by
    unfold coords_to_index index_to_coords
    simp only [Int.toNat_ofNat]
    exact Nat.div_add_mod i b.row_length
  rw [hrt, List.getD_eq_getElem?_getD, hget]
  rfl

end Board

/-! Tile reconstruction lemmas. -/

namespace Tile

theorem new_stack_player (p : Player) (s : Nat) (h1 : 1 ≤ s) (h2 : s ≤ 32) :
    (new .Stack p s).player = p := by
  cases p <;> simp only [new, player] <;> split <;> first | rfl | omega

theorem new_stack_size (p : Player) (s : Nat) (h1 : 1 ≤ s) (h2 : s ≤ 32) :
    (new .Stack p s).stack_size = s := by
  cases p <;> simp only [new, stack_size]
  · omega
  · have : s - 1 + 32 + 0 = (s - 1) + 1 * 32 := by omega
    rw [this, Nat.add_mul_mod_self_right]
    omega

theorem eq_new_of_is_stack (t : Tile) (h : t.is_stack = true) :
    t = new .Stack t.player t.stack_size := by
  simp only [is_stack, decide_eq_true_eq] at h
  obtain ⟨v⟩ := t
  simp only at h
  by_cases h32 : v < 32
  · have hp : Tile.player ⟨v⟩ = .Min := by simp [Tile.player, h32]
    rw [hp]
    show Tile.mk v = ⟨v % 32 + 1 - 1 + 0 + 0⟩
    congr 1
    omega
  · have hp : Tile.player ⟨v⟩ = .Max := by simp [Tile.player, h32]
    rw [hp]
    show Tile.mk v = ⟨v % 32 + 1 - 1 + 32 + 0⟩
    congr 1
    omega

theorem not_is_stack_of_is_empty (t : Tile) (h : t.is_empty = true) :
    t.is_stack = false := by
  simp only [is_empty, decide_eq_true_eq] at h
  simp only [is_stack, decide_eq_false_iff_not]
  omega

theorem is_board_tile_of_is_empty (t : Tile) (h : t.is_empty = true) :
    t.is_board_tile = true := by
  simp [is_board_tile, h]

end Tile

namespace Board

theorem coords_in_range_of_board_tile (b : Board) (c : Int × Int)
    (h : (b.index c).is_board_tile = true) : b.coords_in_range c = true := by
  by_contra hc
  rw [Bool.not_eq_true] at hc
  rw [index, if_neg (by simp [hc])] at h
  exact absurd h (by decide)

theorem lineWalk_all_empty (b : Board) (dir : Int × Int) :
    ∀ fuel c c2, c2 ∈ lineWalk b dir c fuel → (b.index c2).is_empty = true := by
  intro fuel
  induction fuel with
  | zero => intro c c2 h; simp [lineWalk] at h
  | succ n ih =>
    intro c c2 h
    simp only [lineWalk] at h
    by_cases he : (b.index (add_offset c dir)).is_empty = true
    · rw [if_pos he] at h
      rcases List.mem_cons.mp h with rfl | hmem
      · exact he
      · exact ih _ _ hmem
    · rw [if_neg he] at h
      cases h

theorem ends_empty (b : Board) (start c : Int × Int)
    (h : c ∈ b.iter_empty_straight_line_ends start) : (b.index c).is_empty = true := by
  unfold iter_empty_straight_line_ends at h
  rw [List.mem_filterMap] at h
  obtain ⟨dir, _, hlast⟩ := h
  exact lineWalk_all_empty b dir _ _ _ (List.mem_of_mem_getLast? hlast)

theorem getD_find?_spec {A : Type} (l : List A) (p : A → Bool) (d : A) (P : A → Prop)
    (hmem : ∀ x ∈ l, P x) (hd : P d) : P ((l.find? p).getD d) := by
  cases hf : l.find? p with
  | none => simpa using hd
  | some x => simpa using hmem x (List.mem_of_find?_eq_some hf)

theorem findNextEdge_index (b : Board) (prev cur start : Int × Int) (st : Tile)
    (hst : b.index start = st) :
    (findNextEdge b prev cur start st).2 = b.index (findNextEdge b prev cur start st).1 := by
  have key : ∀ nt ∈ ((((b.iter_neighbors cur) ++ (b.iter_neighbors cur)).dropWhile
      (fun nt => decide (nt.1 ≠ prev))).drop 1), nt.2 = b.index nt.1 := by
    intro nt hmem
    have hsub : ((((b.iter_neighbors cur) ++ (b.iter_neighbors cur)).dropWhile
        (fun nt => decide (nt.1 ≠ prev))).drop 1).Sublist
          ((b.iter_neighbors cur) ++ (b.iter_neighbors cur)) :=
      (List.drop_sublist _ _).trans (List.dropWhile_sublist _)
    have hmem2 := List.Sublist.mem hmem hsub
    have hmem3 : nt ∈ b.iter_neighbors cur := by
      rcases List.mem_append.mp hmem2 with h | h <;> exact h
    unfold iter_neighbors at hmem3
    rw [List.mem_map] at hmem3
    obtain ⟨off, _, rfl⟩ := hmem3
    rfl
  show (fun nt : (Int × Int) × Tile => nt.2 = b.index nt.1) (findNextEdge b prev cur start st)
  unfold findNextEdge
  exact getD_find?_spec _ _ _ (fun nt : (Int × Int) × Tile => nt.2 = b.index nt.1) key hst.symm

theorem edgeWalk_all_empty (b : Board) (start : Int × Int) (st : Tile)
    (hst : b.index start = st) :
    ∀ fuel prev cur c, c ∈ edgeWalk b start st prev cur fuel →
      (b.index c).is_empty = true := by
  intro fuel
  induction fuel with
  | zero => intro prev cur c h; simp [edgeWalk] at h
  | succ n ih =>
    intro prev cur c h
    simp only [edgeWalk] at h
    rcases List.mem_append.mp h with h1 | h1
    · by_cases he : (findNextEdge b prev cur start st).2.is_empty = true
      · rw [if_pos he] at h1
        rcases List.mem_cons.mp h1 with rfl | h2
        · rw [← findNextEdge_index b prev cur start st hst]
          exact he
        · cases h2
      · rw [if_neg he] at h1
        cases h1
    · by_cases hs : (findNextEdge b prev cur start st).1 = start
      · rw [if_pos hs] at h1
        cases h1
      · rw [if_neg hs] at h1
        exact ih _ _ _ h1

theorem outer_edge_empty (b : Board) (c : Int × Int)
    (hL : 0 < b.row_length) (hdvd : b.row_length ∣ b.tiles.length)
    (h : c ∈ b.iter_empty_outer_edge) : (b.index c).is_empty = true := by
  unfold iter_empty_outer_edge at h
  cases hf : (b.iter_row_major).find? (fun ct => ct.2.is_board_tile) with
  | none => rw [hf] at h; cases h
  | some scst =>
    obtain ⟨sc, st⟩ := scst
    rw [hf] at h
    have hmem := List.mem_of_find?_eq_some hf
    have hidx := index_of_mem_iter_row_major b sc st hL hdvd hmem
    exact edgeWalk_all_empty b sc st hidx.2 _ _ _ c h

end Board

/-! Sheep conservation and the move-generator frame property. -/

namespace Board

/-- Weight of one tile in a player's total sheep count. -/
def stackWeight (p : Player) (t : Tile) : Int :=
  if t.is_stack && decide (t.player = p) then (t.stack_size : Int) else 0

/-- Total number of sheep a player owns on the board. -/
def sheep_count (b : Board) (p : Player) : Int :=
  (b.tiles.map (stackWeight p)).sum

theorem sum_map_set (l : List Tile) (i : Nat) (a : Tile) (f : Tile → Int)
    (hi : i < l.length) :
    ((l.set i a).map f).sum = (l.map f).sum - f (l.getD i Tile.NO_TILE) + f a := by
  rw [List.map_set, List.sum_set]
  have hlen : i < (l.map f).length := by simpa using hi
  rw [if_pos hlen]
  have h1 : ((l.map f).take i).sum + ((l.map f).drop i).sum = (l.map f).sum :=
    List.sum_take_add_sum_drop _ _
  rw [List.drop_eq_getElem_cons hlen, List.sum_cons] at h1
  have h2 : (l.map f)[i] = f (l.getD i Tile.NO_TILE) := by
    rw [List.getElem_map, List.getD_eq_getElem?_getD, List.getElem?_eq_getElem hi]
    rfl
  rw [h2] at h1
  omega

theorem sheep_count_setTile (b : Board) (c : Int × Int) (t : Tile) (p : Player)
    (h : b.coords_in_range c = true) :
    sheep_count (b.setTile c t) p =
      sheep_count b p - stackWeight p (b.index c) + stackWeight p t := by
  have hlt := coords_to_index_lt_of_in_range b c h
  unfold sheep_count setTile
  simp only
  rw [sum_map_set _ _ _ _ hlt]
  rw [index, if_pos h]

theorem stackWeight_of_empty (p : Player) (t : Tile) (h : t.is_empty = true) :
    stackWeight p t = 0 := by
  unfold stackWeight
  rw [Tile.not_is_stack_of_is_empty t h]
  rfl

theorem stackWeight_new_stack (p : Player) (s : Nat) (h1 : 1 ≤ s) (h2 : s ≤ 32) :
    stackWeight p (Tile.new .Stack p s) = (s : Int) := by
  unfold stackWeight
  rw [Tile.new_stack_is_stack p s h1 h2, Tile.new_stack_player p s h1 h2,
    Tile.new_stack_size p s h1 h2]
  simp

theorem mem_possible_regular_moves_iff (b : Board) (p : Player) (m : Board) :
    m ∈ b.possible_regular_moves p ↔
      ∃ oc t, (oc, t) ∈ b.iter_row_major ∧ t.is_stack = true ∧ t.player = p ∧
        1 < t.stack_size ∧
        ∃ tc ∈ b.iter_empty_straight_line_ends oc, ∃ k, 1 ≤ k ∧ k < t.stack_size ∧
          m = (b.setTile tc (Tile.new .Stack p k)).setTile oc
                (Tile.new .Stack p (t.stack_size - k)) := by
  unfold possible_regular_moves
  rw [List.mem_flatMap]
  constructor
  · rintro ⟨ct, hmem, hin⟩
    rw [List.mem_filter] at hmem
    obtain ⟨hmem, hpred⟩ := hmem
    simp only [Bool.and_eq_true, decide_eq_true_eq] at hpred
    rw [List.mem_flatMap] at hin
    obtain ⟨tc, htc, hin⟩ := hin
    rw [List.mem_map] at hin
    obtain ⟨k, hk, rfl⟩ := hin
    rw [List.mem_range'_1] at hk
    exact ⟨ct.1, ct.2, hmem, hpred.1.1, hpred.1.2, hpred.2, tc, htc, k, hk.1, by omega, rfl⟩
  · rintro ⟨oc, t, hmem, hs, hp, hsz, tc, htc, k, hk1, hk2, rfl⟩
    refine ⟨(oc, t), ?_, ?_⟩
    · rw [List.mem_filter]
      exact ⟨hmem, by simp [hs, hp, hsz]⟩
    · rw [List.mem_flatMap]
      refine ⟨tc, htc, ?_⟩
      rw [List.mem_map]
      refine ⟨k, ?_, rfl⟩
      rw [List.mem_range'_1]
      show 1 ≤ k ∧ k < 1 + (t.stack_size - 1)
      omega

theorem possible_moves_dispatch (b : Board) (p : Player) :
    b.possible_moves p =
      if 0 < b.num_stacks p then b.possible_regular_moves p
      else b.possible_starting_moves p := by
  unfold possible_moves
  by_cases h : (b.iter_row_major).any (fun ct => ct.2.is_stack && decide (ct.2.player = p)) = true
  · rw [if_pos h, if_pos]
    exact List.countP_pos_iff.mpr (List.any_eq_true.mp h)
  · rw [if_neg h, if_neg]
    intro hpos
    exact h (List.any_eq_true.mpr (List.countP_pos_iff.mp hpos))

theorem mem_possible_moves_lengths (b : Board) (p : Player) (m : Board)
    (hm : m ∈ b.possible_moves p) :
    m.row_length = b.row_length ∧ m.tiles.length = b.tiles.length := by
  rw [possible_moves_dispatch] at hm
  by_cases h : 0 < b.num_stacks p
  · rw [if_pos h] at hm
    rw [mem_possible_regular_moves_iff] at hm
    obtain ⟨oc, t, _, _, _, _, tc, _, k, _, _, rfl⟩ := hm
    exact ⟨rfl, by simp [setTile]⟩
  · rw [if_neg h] at hm
    unfold possible_starting_moves at hm
    rw [List.mem_map] at hm
    obtain ⟨c, _, rfl⟩ := hm
    exact ⟨rfl, by simp [setTile]⟩

end Board

/-- C4: every board yielded by the move generator differs from the input board
in exactly the cells touched by one move.  When the player owns a stack, a
regular move rewrites exactly two cells: an origin stack of that player with
size above one is reduced by the split amount, and a straight-line-end
destination cell that was empty in the input now holds the split stack of the
same player, with the split in the open range and the player's total sheep
count conserved.  When the player owns no stack, a starting move rewrites
exactly one cell: an empty outer-edge cell now holding a fresh stack of the
fixed size 16.  All other cells read unchanged. -/
theorem possible_moves_frame (b : Board) (p : Player) (m : Board)
    (hL : 0 < b.row_length) (hdvd : b.row_length ∣ b.tiles.length)
    (hm : m ∈ b.possible_moves p) :
    if 0 < b.num_stacks p then
      ∃ oc tc s k,
        b.coords_in_range oc = true ∧ b.coords_in_range tc = true ∧ oc ≠ tc ∧
        b.index oc = Tile.new .Stack p s ∧ 1 < s ∧ s ≤ 32 ∧
        (b.index tc).is_empty = true ∧ tc ∈ b.iter_empty_straight_line_ends oc ∧
        1 ≤ k ∧ k < s ∧
        m.index oc = Tile.new .Stack p (s - k) ∧
        m.index tc = Tile.new .Stack p k ∧
        (∀ c, c ≠ oc → c ≠ tc → m.index c = b.index c) ∧
        m.sheep_count p = b.sheep_count p
    else
      ∃ c, c ∈ b.iter_empty_outer_edge ∧ (b.index c).is_empty = true ∧
        m.index c = Tile.new .Stack p 16 ∧
        ∀ c2, c2 ≠ c → m.index c2 = b.index c2 := by
  rw [Board.possible_moves_dispatch] at hm
  by_cases hd : 0 < b.num_stacks p
  · rw [if_pos hd] at hm ⊢
    rw [Board.mem_possible_regular_moves_iff] at hm
    obtain ⟨oc, t, hmem, hs, hp, hsz, tc, htc, k, hk1, hk2, rfl⟩ := hm
    obtain ⟨hocr, hoci⟩ := Board.index_of_mem_iter_row_major b oc t hL hdvd hmem
    have htce : (b.index tc).is_empty = true := Board.ends_empty b oc tc htc
    have htcr : b.coords_in_range tc = true :=
      Board.coords_in_range_of_board_tile b tc (Tile.is_board_tile_of_is_empty _ htce)
    have hne : oc ≠ tc := by
      intro he
      rw [← he, hoci] at htce
      have := Tile.not_is_stack_of_is_empty t htce
      rw [hs] at this
      cases this
    have hsle := Tile.stack_size_le t
    have hocr1 : (b.setTile tc (Tile.new .Stack p k)).coords_in_range oc = true := by
      rw [Board.setTile_coords_in_range]; exact hocr
    have hb1oc : (b.setTile tc (Tile.new .Stack p k)).index oc = t := by
      rw [Board.index_setTile_ne b tc oc _ htcr hne]
      exact hoci
    have hsheep : ((b.setTile tc (Tile.new .Stack p k)).setTile oc
        (Tile.new .Stack p (t.stack_size - k))).sheep_count p = b.sheep_count p := by
      have h1 := Board.sheep_count_setTile b tc (Tile.new .Stack p k) p htcr
      have h2 := Board.sheep_count_setTile (b.setTile tc (Tile.new .Stack p k)) oc
        (Tile.new .Stack p (t.stack_size - k)) p hocr1
      rw [hb1oc, h1, Board.stackWeight_of_empty p _ htce] at h2
      have wk := Board.stackWeight_new_stack p k hk1 (by omega)
      have wsk := Board.stackWeight_new_stack p (t.stack_size - k) (by omega) (by omega)
      have wt : Board.stackWeight p t = (t.stack_size : Int) := by
        simp [Board.stackWeight, hs, hp]
      rw [wk, wsk, wt] at h2
      rw [h2]
      have hcast : ((t.stack_size - k : Nat) : Int) = (t.stack_size : Int) - (k : Int) := by
        omega
      rw [hcast]
      ring
    refine ⟨oc, tc, t.stack_size, k, hocr, htcr, hne, ?_, hsz, hsle, htce, htc, hk1, hk2,
      ?_, ?_, ?_, hsheep⟩
    · rw [hoci]
      have := Tile.eq_new_of_is_stack t hs
      rw [hp] at this
      exact this
    · exact Board.index_setTile_self _ oc _ hocr1
    · rw [Board.index_setTile_ne _ oc tc _ hocr1 (Ne.symm hne)]
      exact Board.index_setTile_self b tc _ htcr
    · intro c hco hct
      rw [Board.index_setTile_ne _ oc c _ hocr1 hco]
      exact Board.index_setTile_ne b tc c _ htcr hct
  · rw [if_neg hd] at hm ⊢
    unfold Board.possible_starting_moves at hm
    rw [List.mem_map] at hm
    obtain ⟨c, hc, rfl⟩ := hm
    have hce := Board.outer_edge_empty b c hL hdvd hc
    have hcr := Board.coords_in_range_of_board_tile b c (Tile.is_board_tile_of_is_empty _ hce)
    exact ⟨c, hc, hce, Board.index_setTile_self b c _ hcr,
      fun c2 hc2 => Board.index_setTile_ne b c c2 _ hcr hc2⟩

/-- Board obtained from `bAsym` by the unique Max move: the Max stack of 2
splits one sheep to the far straight-line end. -/
def mAsymMove : Board :=
  ⟨[Tile.new .Stack .Max 1, Tile.EMPTY, Tile.new .Stack .Max 1, Tile.new .Stack .Min 2], 4⟩

/-- Closed instance of `possible_moves_frame` on a concrete board and move. -/
theorem possible_moves_frame_witness :
    (0 < bAsym.row_length ∧ bAsym.row_length ∣ bAsym.tiles.length ∧
        mAsymMove ∈ bAsym.possible_moves .Max) ∧
      (if 0 < bAsym.num_stacks .Max then
        ∃ oc tc s k,
          bAsym.coords_in_range oc = true ∧ bAsym.coords_in_range tc = true ∧ oc ≠ tc ∧
          bAsym.index oc = Tile.new .Stack .Max s ∧ 1 < s ∧ s ≤ 32 ∧
          (bAsym.index tc).is_empty = true ∧ tc ∈ bAsym.iter_empty_straight_line_ends oc ∧
          1 ≤ k ∧ k < s ∧
          mAsymMove.index oc = Tile.new .Stack .Max (s - k) ∧
          mAsymMove.index tc = Tile.new .Stack .Max k ∧
          (∀ c, c ≠ oc → c ≠ tc → mAsymMove.index c = bAsym.index c) ∧
          mAsymMove.sheep_count .Max = bAsym.sheep_count .Max
      else
        ∃ c, c ∈ bAsym.iter_empty_outer_edge ∧ (bAsym.index c).is_empty = true ∧
          mAsymMove.index c = Tile.new .Stack .Max 16 ∧
          ∀ c2, c2 ≠ c → mAsymMove.index c2 = bAsym.index c2) :=
  ⟨⟨by decide, by decide, by decide⟩,
    possible_moves_frame bAsym .Max mAsymMove (by decide) (by decide) (by decide)⟩

/-- C9 as stated fails at positive depth: on a concrete board with the full
window, the value returned for the opposite player with negated and swapped
bounds is not the negation of the value returned for the player (the two
players search different move sets from the same board). -/
theorem negamax_symmetry_counterexample :
    (evaluate Player.Max.next bAsym 1 (-intMax) (-(intMin + 1))).1 = 1000000 ∧
      -((evaluate .Max bAsym 1 (intMin + 1) intMax).1) = -1000000 ∧
      (evaluate Player.Max.next bAsym 1 (-intMax) (-(intMin + 1))).1 ≠
        -((evaluate .Max bAsym 1 (intMin + 1) intMax).1) := by
  refine ⟨by decide, by decide, by decide⟩

/-- C9 (amended): at depth 0, for a fixed board, swapping which player is to
move and negating and swapping the bounds negates the returned value; at
positive depth the identity fails because the two players generate different
moves from the same board. -/
theorem negamax_symmetry_depth_zero (p : Player) (b : Board) (alpha beta : Int) :
    (evaluate p.next b 0 (-beta) (-alpha)).1 = -((evaluate p b 0 alpha beta).1) := by
  cases p <;>
    simp [evaluate, Player.next, Player.opposite, Player.direction, Player.sign]

/-! Fold lemmas for running maxima and minima. -/

theorem le_foldl_max (l : List Int) (init : Int) : init ≤ l.foldl max init := by
  induction l generalizing init with
  | nil => simp
  | cons x xs ih => exact le_trans (le_max_left _ _) (ih (max init x))

theorem mem_le_foldl_max (l : List Int) (init x : Int) (h : x ∈ l) :
    x ≤ l.foldl max init := by
  induction l generalizing init with
  | nil => cases h
  | cons y ys ih =>
    rcases List.mem_cons.mp h with rfl | h2
    · exact le_trans (le_max_right _ _) (le_foldl_max ys (max init x))
    · exact ih (max init y) h2

theorem foldl_max_le_iff (l : List Int) (init C : Int) :
    l.foldl max init ≤ C ↔ init ≤ C ∧ ∀ x ∈ l, x ≤ C := by
  induction l generalizing init with
  | nil => simp
  | cons x xs ih =>
    simp only [List.foldl_cons]
    rw [ih]
    constructor
    · rintro ⟨h1, h2⟩
      refine ⟨le_trans (le_max_left _ _) h1, fun y hy => ?_⟩
      rcases List.mem_cons.mp hy with rfl | hy2
      · exact le_trans (le_max_right _ _) h1
      · exact h2 y hy2
    · rintro ⟨h1, h2⟩
      exact ⟨max_le h1 (h2 x (List.mem_cons_self x xs)),
        fun y hy => h2 y (List.mem_cons_of_mem x hy)⟩

theorem foldl_max_cases (l : List Int) (init : Int) :
    l.foldl max init = init ∨ l.foldl max init ∈ l := by
  induction l generalizing init with
  | nil => exact Or.inl rfl
  | cons x xs ih =>
    simp only [List.foldl_cons]
    rcases ih (max init x) with h | h
    · rcases max_cases init x with ⟨he, _⟩ | ⟨he, _⟩
      · exact Or.inl (h.trans he)
      · exact Or.inr (by rw [h, he]; exact List.mem_cons_self x xs)
    · exact Or.inr (List.mem_cons_of_mem x h)

theorem foldl_max_perm (l1 l2 : List Int) (h : l1.Perm l2) (init : Int) :
    l1.foldl max init = l2.foldl max init := by
  induction h generalizing init with
  | nil => rfl
  | cons x _ ih => simp only [List.foldl_cons]; exact ih (max init x)
  | swap x y l =>
    simp only [List.foldl_cons]
    rw [show init ⊔ y ⊔ x = init ⊔ x ⊔ y by rw [max_assoc, max_assoc, max_comm y x]]
  | trans _ _ ih1 ih2 => exact (ih1 init).trans (ih2 init)

theorem foldl_min_le (l : List Int) (init : Int) : l.foldl min init ≤ init := by
  induction l generalizing init with
  | nil => simp
  | cons x xs ih => exact le_trans (ih (min init x)) (min_le_left _ _)

theorem foldl_min_le_mem (l : List Int) (init x : Int) (h : x ∈ l) :
    l.foldl min init ≤ x := by
  induction l generalizing init with
  | nil => cases h
  | cons y ys ih =>
    rcases List.mem_cons.mp h with rfl | h2
    · exact le_trans (foldl_min_le ys (min init x)) (min_le_right _ _)
    · exact ih (min init y) h2

theorem le_foldl_min_iff (l : List Int) (init C : Int) :
    C ≤ l.foldl min init ↔ C ≤ init ∧ ∀ x ∈ l, C ≤ x := by
  induction l generalizing init with
  | nil => simp
  | cons x xs ih =>
    simp only [List.foldl_cons]
    rw [ih]
    constructor
    · rintro ⟨h1, h2⟩
      refine ⟨le_trans h1 (min_le_left _ _), fun y hy => ?_⟩
      rcases List.mem_cons.mp hy with rfl | hy2
      · exact le_trans h1 (min_le_right _ _)
      · exact h2 y hy2
    · rintro ⟨h1, h2⟩
      exact ⟨le_min h1 (h2 x (List.mem_cons_self x xs)),
        fun y hy => h2 y (List.mem_cons_of_mem x hy)⟩

/-! Bounds on the heuristic evaluation. -/

theorem abs_sum_le (l : List Int) (C : Int) (h : ∀ x ∈ l, |x| ≤ C) :
    |l.sum| ≤ C * l.length := by
  induction l with
  | nil => simp
  | cons x xs ih =>
    have h1 := h x (List.mem_cons_self x xs)
    have h2 := ih (fun y hy => h y (List.mem_cons_of_mem x hy))
    have h3 : |x + xs.sum| ≤ C + C * (xs.length : Int) := by
      refine le_trans (abs_add _ _) ?_
      omega
    have h4 : C + C * (xs.length : Int) = C * ((xs.length : Int) + 1) := by ring
    have h5 : (((x :: xs).length : Nat) : Int) = (xs.length : Int) + 1 := by
      simp
    rw [List.sum_cons, h5, ← h4]
    exact h3

namespace Board

theorem blocked_directions_bounds (b : Board) (c : Int × Int) :
    0 ≤ blocked_directions b c ∧ blocked_directions b c ≤ 6 := by
  unfold blocked_directions
  have h2 : (b.iter_neighbors c).countP
        (fun nt : (Int × Int) × Tile => nt.2.is_empty) ≤ (b.iter_neighbors c).length :=
    List.countP_le_length _
  have h3 : (b.iter_neighbors c).length = 6 := by
    simp [iter_neighbors, DIRECTION_OFFSETS]
  rw [h3] at h2
  omega

theorem iter_row_major_length (b : Board) : b.iter_row_major.length = b.tiles.length := by
  simp [iter_row_major]

theorem blocked_sum_bound (b : Board) : |blocked_sum b| ≤ 186 * b.tiles.length := by
  unfold blocked_sum
  have key := abs_sum_le ((b.iter_row_major).map
      (fun ct =>
        if ct.2.is_stack then
          -(ct.2.player.sign) * ((ct.2.stack_size : Int) - 1) * blocked_directions b ct.1
        else 0)) 186 ?_
  · rw [List.length_map, iter_row_major_length] at key
    exact key
  · intro x hx
    rw [List.mem_map] at hx
    obtain ⟨ct, _, rfl⟩ := hx
    by_cases hst : ct.2.is_stack = true
    · rw [if_pos hst]
      have hbd := blocked_directions_bounds b ct.1
      have hp := Tile.stack_size_pos ct.2
      have hl := Tile.stack_size_le ct.2
      have hs1 : (0:Int) ≤ (ct.2.stack_size : Int) - 1 := by omega
      have hs2 : (ct.2.stack_size : Int) - 1 ≤ 31 := by omega
      have hprod : |((ct.2.stack_size : Int) - 1) * blocked_directions b ct.1| ≤ 186 := by
        rw [abs_of_nonneg (mul_nonneg hs1 hbd.1)]
        calc ((ct.2.stack_size : Int) - 1) * blocked_directions b ct.1 ≤ 31 * 6 :=
          mul_le_mul hs2 hbd.2 hbd.1 (by omega)
          _ = 186 := by norm_num
      rw [mul_assoc, abs_mul]
      have hsign : |(-(ct.2.player.sign))| = 1 := by cases ct.2.player <;> decide
      rw [hsign, one_mul]
      exact hprod
    · rw [if_neg hst]
      simp

theorem stack_sizes_length (b : Board) (p : Player) :
    (b.stack_sizes p).length = b.num_stacks p := by
  unfold stack_sizes num_stacks
  rw [List.length_map, ← List.countP_eq_length_filter]

theorem mem_stack_sizes_bounds (b : Board) (p : Player) :
    ∀ x ∈ b.stack_sizes p, 1 ≤ x ∧ x ≤ 32 := by
  intro x hx
  unfold stack_sizes at hx
  rw [List.mem_map] at hx
  obtain ⟨ct, _, rfl⟩ := hx
  have h1 := Tile.stack_size_pos ct.2
  have h2 := Tile.stack_size_le ct.2
  omega

theorem stack_bounds_of_pos (b : Board) (p : Player) (h : 0 < b.num_stacks p) :
    1 ≤ b.smallest_stack p ∧ b.smallest_stack p ≤ b.largest_stack p ∧
      b.largest_stack p ≤ 32 := by
  have hne : b.stack_sizes p ≠ [] := by
    intro he
    rw [← stack_sizes_length, he] at h
    simp at h
  obtain ⟨x, hx⟩ := List.exists_mem_of_ne_nil _ hne
  have hb := mem_stack_sizes_bounds b p
  refine ⟨?_, ?_, ?_⟩
  · unfold smallest_stack
    rw [le_foldl_min_iff]
    exact ⟨by norm_num, fun y hy => (hb y hy).1⟩
  · calc b.smallest_stack p ≤ x := foldl_min_le_mem _ _ x hx
      _ ≤ b.largest_stack p := mem_le_foldl_max _ _ x hx
  · unfold largest_stack
    rw [foldl_max_le_iff]
    exact ⟨by norm_num, fun y hy => (hb y hy).2⟩

theorem incremental_value_bound (b : Board)
    (hmin : 0 < b.num_stacks .Min) (hmax : 0 < b.num_stacks .Max) :
    |incremental_value b| ≤ 186 * b.tiles.length + 30 := by
  have hbs := blocked_sum_bound b
  have h1 := stack_bounds_of_pos b .Min hmin
  have h2 := stack_bounds_of_pos b .Max hmax
  have e1 : 0 ≤ Int.tdiv (largest_stack b .Min - smallest_stack b .Min) 2 ∧
      Int.tdiv (largest_stack b .Min - smallest_stack b .Min) 2 ≤ 15 := by
    rw [Int.tdiv_eq_ediv (by omega) (by omega)]
    omega
  have e2 : 0 ≤ Int.tdiv (largest_stack b .Max - smallest_stack b .Max) 2 ∧
      Int.tdiv (largest_stack b .Max - smallest_stack b .Max) 2 ≤ 15 := by
    rw [Int.tdiv_eq_ediv (by omega) (by omega)]
    omega
  unfold incremental_value
  rw [abs_le] at hbs ⊢
  constructor <;> omega

theorem num_stacks_pos_of_not_all_blocked (b : Board) (p : Player)
    (h : b.all_blocked p = false) : 0 < b.num_stacks p := by
  by_contra hc
  have h0 : b.num_stacks p = 0 := by omega
  rw [all_blocked_of_no_stacks b p h0] at h
  cases h

theorem one_sided_min_blocked_eval (b : Board) (hA : b.all_blocked .Min = true)
    (hB : b.all_blocked .Max = false) :
    b.heuristic_evaluate =
      if b.num_stacks .Max ≥ b.num_stacks .Min then 1000000
      else
        match b.largest_connected_field_holder with
        | some .Max => 1000000
        | _ => incremental_value b := by
  unfold heuristic_evaluate
  rw [hA, hB]
  rfl

theorem one_sided_max_blocked_eval (b : Board) (hA : b.all_blocked .Min = false)
    (hB : b.all_blocked .Max = true) :
    b.heuristic_evaluate =
      if b.num_stacks .Min ≥ b.num_stacks .Max then -1000000
      else
        match b.largest_connected_field_holder with
        | some .Min => -1000000
        | _ => incremental_value b := by
  unfold heuristic_evaluate
  rw [hA, hB]
  rfl

theorem heuristic_evaluate_bound (b : Board) :
    |b.heuristic_evaluate| ≤ 186 * b.tiles.length + 1000015 := by
  have hlen : (0:Int) ≤ 186 * b.tiles.length := by positivity
  have hval : ∀ v : Int, v = 1000000 ∨ v = -1000000 ∨ v = 0 →
      |v| ≤ 186 * b.tiles.length + 1000015 := by
    rintro v (rfl | rfl | rfl) <;> rw [abs_le] <;> constructor <;> omega
  have hinc : 0 < b.num_stacks .Min → 0 < b.num_stacks .Max →
      |incremental_value b| ≤ 186 * b.tiles.length + 1000015 := by
    intro h1 h2
    have := incremental_value_bound b h1 h2
    rw [abs_le] at *
    omega
  by_cases hA : b.all_blocked .Min = true
  · by_cases hB : b.all_blocked .Max = true
    · rw [terminal_eval_of_all_blocked b hA hB]
      split
      · exact hval _ (Or.inl rfl)
      · split
        · exact hval _ (Or.inr (Or.inl rfl))
        · split
          · exact hval _ (Or.inl rfl)
          · exact hval _ (Or.inr (Or.inl rfl))
          · exact hval _ (Or.inr (Or.inr rfl))
    · rw [Bool.not_eq_true] at hB
      have hBpos := num_stacks_pos_of_not_all_blocked b .Max hB
      rw [one_sided_min_blocked_eval b hA hB]
      split
      · exact hval _ (Or.inl rfl)
      · rename_i hge
        split
        · exact hval _ (Or.inl rfl)
        · exact hinc (by omega) hBpos
  · rw [Bool.not_eq_true] at hA
    have hApos := num_stacks_pos_of_not_all_blocked b .Min hA
    by_cases hB : b.all_blocked .Max = true
    · rw [one_sided_max_blocked_eval b hA hB]
      split
      · exact hval _ (Or.inr (Or.inl rfl))
      · rename_i hge
        split
        · exact hval _ (Or.inr (Or.inl rfl))
        · exact hinc hApos (by omega)
    · rw [Bool.not_eq_true] at hB
      have hBpos := num_stacks_pos_of_not_all_blocked b .Max hB
      have heq := incremental_eval_of_no_player_blocked b hA hB
      rw [heq]
      show |incremental_value b| ≤ _
      exact hinc hApos hBpos

end Board

/-! Bounds on the searcher values. -/

theorem direction_abs (p : Player) : |p.direction| = 1 := by
  cases p <;> decide

theorem sort_moves_perm (p : Player) (l : List Board) : (sort_moves p l).Perm l :=
  List.mergeSort_perm l _

theorem mem_sort_moves (p : Player) (l : List Board) (m : Board)
    (h : m ∈ sort_moves p l) : m ∈ l :=
  (sort_moves_perm p l).mem_iff.mp h

theorem negamax_bound : ∀ (d : Nat) (p : Player) (b : Board),
    |negamax p b d| ≤ 186 * b.tiles.length + 1000015 := by
  intro d
  induction d with
  | zero =>
    intro p b
    simp only [negamax]
    rw [abs_mul, direction_abs, one_mul]
    exact Board.heuristic_evaluate_bound b
  | succ d ih =>
    intro p b
    cases hms : b.possible_moves p with
    | nil =>
      simp only [negamax, hms]
      rw [abs_mul, direction_abs, one_mul]
      exact Board.heuristic_evaluate_bound b
    | cons m ms =>
      simp only [negamax, hms]
      have hmem : m ∈ b.possible_moves p := by
        rw [hms]; exact List.mem_cons_self m ms
      have hlen := Board.mem_possible_moves_lengths b p m hmem
      have hm := ih p.next m
      rw [hlen.2] at hm
      rw [abs_le] at hm ⊢
      constructor
      · refine le_trans ?_ (le_foldl_max _ _)
        omega
      · rw [foldl_max_le_iff]
        refine ⟨by omega, ?_⟩
        intro x hx
        rw [List.mem_map] at hx
        obtain ⟨m2, hm2, rfl⟩ := hx
        have hmm : m2 ∈ b.possible_moves p := by
          rw [hms]; exact List.mem_cons_of_mem m hm2
        have hlen2 := Board.mem_possible_moves_lengths b p m2 hmm
        have h2 := ih p.next m2
        rw [hlen2.2] at h2
        rw [abs_le] at h2
        omega

theorem abLoop_ge_init (f : Board → Int → Int × Nat) (beta : Int) :
    ∀ (ms : List Board) (maxv : Int) (vis : Nat) (a : Int),
      maxv ≤ (abLoop f beta ms maxv vis a).1 := by
  intro ms
  induction ms with
  | nil => intro maxv vis a; exact le_refl _
  | cons m ms ih =>
    intro maxv vis a
    simp only [abLoop]
    split
    · rename_i hgt
      split
      · exact le_of_lt hgt
      · exact le_trans (le_of_lt hgt) (ih _ _ _)
    · exact ih _ _ _

theorem abLoop_result (f : Board → Int → Int × Nat) (beta : Int) :
    ∀ (ms : List Board) (maxv : Int) (vis : Nat) (a : Int),
      (abLoop f beta ms maxv vis a).1 = maxv ∨
        ∃ m a2, m ∈ ms ∧ (abLoop f beta ms maxv vis a).1 = -(f m a2).1 := by
  intro ms
  induction ms with
  | nil => intro maxv vis a; exact Or.inl rfl
  | cons m ms ih =>
    intro maxv vis a
    simp only [abLoop]
    split
    · split
      · exact Or.inr ⟨m, a, List.mem_cons_self m ms, rfl⟩
      · rcases ih (-(f m a).1) (vis + (f m a).2) (max a (-(f m a).1)) with h | ⟨m2, a2, hm2, h⟩
        · exact Or.inr ⟨m, a, List.mem_cons_self m ms, h⟩
        · exact Or.inr ⟨m2, a2, List.mem_cons_of_mem m hm2, h⟩
    · rcases ih maxv (vis + (f m a).2) a with h | ⟨m2, a2, hm2, h⟩
      · exact Or.inl h
      · exact Or.inr ⟨m2, a2, List.mem_cons_of_mem m hm2, h⟩

theorem abLoop_cons_gt_intMin (f : Board → Int → Int × Nat) (beta : Int)
    (m : Board) (ms : List Board) (vis : Nat) (a : Int)
    (hb : intMin < -(f m a).1) :
    intMin < (abLoop f beta (m :: ms) intMin vis a).1 := by
  simp only [abLoop]
  rw [if_pos hb]
  split
  · exact hb
  · exact lt_of_lt_of_le hb (abLoop_ge_init _ _ _ _ _ _)

theorem eval_bound : ∀ (d : Nat) (p : Player) (b : Board) (alpha beta : Int),
    |(evaluate p b d alpha beta).1| ≤ 186 * b.tiles.length + 1000015 := by
  intro d
  induction d with
  | zero =>
    intro p b alpha beta
    show |p.direction * b.heuristic_evaluate| ≤ _
    rw [abs_mul, direction_abs, one_mul]
    exact Board.heuristic_evaluate_bound b
  | succ d ih =>
    intro p b alpha beta
    simp only [evaluate]
    have main : ∀ msS : List Board, (∀ m ∈ msS, m ∈ b.possible_moves p) →
        |(if (abLoop (fun m a => evaluate p.next m d (-beta) (-a)) beta msS intMin 0 alpha).1
              = intMin then
            (p.direction * b.heuristic_evaluate, 1)
          else abLoop (fun m a => evaluate p.next m d (-beta) (-a)) beta msS intMin 0 alpha).1| ≤
          186 * b.tiles.length + 1000015 := by
      intro msS hsub
      split
      · rw [abs_mul, direction_abs, one_mul]
        exact Board.heuristic_evaluate_bound b
      · rename_i hne
        rcases abLoop_result _ beta msS intMin 0 alpha with h | ⟨m, a2, hm, h⟩
        · exact absurd h hne
        · rw [h, abs_neg]
          have hmem := hsub m hm
          have hlen := Board.mem_possible_moves_lengths b p m hmem
          have h2 := ih p.next m (-beta) (-a2)
          rw [hlen.2] at h2
          exact h2
    split
    · exact main _ (fun m hm => hm)
    · exact main _ (fun m hm => mem_sort_moves p _ m hm)

theorem foldl_max_mono_init (l : List Int) (i1 i2 : Int) (h : i1 ≤ i2) :
    l.foldl max i1 ≤ l.foldl max i2 := by
  induction l generalizing i1 i2 with
  | nil => exact h
  | cons x xs ih => exact ih _ _ (max_le_max h (le_refl x))

/-- Fail-soft guarantees of the pruning fold: with a child evaluator `f` whose
results relate to the true child values `g` in the fail-soft way on every
subwindow, the fold's result `v` is a lower bound of the true maximum `N` when
it fails high, an upper bound when it stays below beta, and exact inside the
window. -/
theorem abLoop_spec (f : Board → Int → Int × Nat) (g : Board → Int) (beta : Int) :
    ∀ (ms : List Board) (maxv : Int) (vis : Nat) (a : Int),
      a < beta →
      (∀ m ∈ ms, ∀ a2 : Int, a2 < beta →
        ((f m a2).1 ≤ -beta → g m ≤ (f m a2).1) ∧
        (-a2 ≤ (f m a2).1 → (f m a2).1 ≤ g m) ∧
        (-beta < (f m a2).1 → (f m a2).1 < -a2 → (f m a2).1 = g m)) →
      (beta ≤ (abLoop f beta ms maxv vis a).1 →
          (abLoop f beta ms maxv vis a).1 ≤ (ms.map (fun m => -(g m))).foldl max maxv) ∧
      ((abLoop f beta ms maxv vis a).1 < beta →
          (ms.map (fun m => -(g m))).foldl max maxv ≤ (abLoop f beta ms maxv vis a).1) ∧
      (a < (abLoop f beta ms maxv vis a).1 → (abLoop f beta ms maxv vis a).1 < beta →
          (abLoop f beta ms maxv vis a).1 ≤ (ms.map (fun m => -(g m))).foldl max maxv) := by
  intro ms
  induction ms with
  | nil =>
    intro maxv vis a ha hf
    exact ⟨fun _ => le_refl _, fun _ => le_refl _, fun _ _ => le_refl _⟩
  | cons m ms ih =>
    intro maxv vis a ha hf
    have hfm := hf m (List.mem_cons_self m ms) a ha
    simp only [abLoop, List.map_cons, List.foldl_cons]
    by_cases hgt : -(f m a).1 > maxv
    · rw [if_pos hgt]
      by_cases hcut : -(f m a).1 ≥ beta
      · rw [if_pos hcut]
        have hwG : -(f m a).1 ≤ -(g m) := by
          have hA := hfm.1 (by omega)
          omega
        have hGN : -(g m) ≤ (ms.map (fun m => -(g m))).foldl max (max maxv (-(g m))) :=
          le_trans (le_max_right _ _) (le_foldl_max _ _)
        exact ⟨fun _ => le_trans hwG hGN, fun h => absurd h (by omega),
          fun _ h2 => absurd h2 (by omega)⟩
      · rw [if_neg hcut]
        push_neg at hcut
        have ihr := ih (-(f m a).1) (vis + (f m a).2) (max a (-(f m a).1))
          (max_lt ha hcut) (fun m2 hm2 => hf m2 (List.mem_cons_of_mem m hm2))
        obtain ⟨iL2, iL3, iL4⟩ := ihr
        have hL1 : -(f m a).1 ≤
            (abLoop f beta ms (-(f m a).1) (vis + (f m a).2) (max a (-(f m a).1))).1 :=
          abLoop_ge_init f beta ms _ _ _
        refine ⟨?_, ?_, ?_⟩
        · intro hβ
          have hvN := iL2 hβ
          rcases foldl_max_cases (ms.map fun m => -(g m)) (-(f m a).1) with hc | hc
          · exfalso
            rw [hc] at hvN
            omega
          · have hmem := mem_le_foldl_max (ms.map fun m => -(g m)) (max maxv (-(g m))) _ hc
            omega
        · intro hβ'
          rw [foldl_max_le_iff]
          have hrest := iL3 hβ'
          rw [foldl_max_le_iff] at hrest
          refine ⟨?_, hrest.2⟩
          rw [max_le_iff]
          refine ⟨by omega, ?_⟩
          by_cases hwa : -(f m a).1 ≤ a
          · have hB := hfm.2.1 (by omega)
            omega
          · push_neg at hwa
            have hC := hfm.2.2 (by omega) (by omega)
            omega
        · intro hav hβ'
          by_cases hvw : (abLoop f beta ms (-(f m a).1) (vis + (f m a).2)
              (max a (-(f m a).1))).1 = -(f m a).1
          · have hC := hfm.2.2 (by omega) (by omega)
            have hGN : -(g m) ≤ (ms.map fun m => -(g m)).foldl max (max maxv (-(g m))) :=
              le_trans (le_max_right _ _) (le_foldl_max _ _)
            omega
          · have hwv : -(f m a).1 < (abLoop f beta ms (-(f m a).1) (vis + (f m a).2)
                (max a (-(f m a).1))).1 := lt_of_le_of_ne hL1 (Ne.symm hvw)
            have hv4 := iL4 (max_lt hav hwv) hβ'
            rcases foldl_max_cases (ms.map fun m => -(g m)) (-(f m a).1) with hc | hc
            · exfalso
              rw [hc] at hv4
              omega
            · have hmem := mem_le_foldl_max (ms.map fun m => -(g m)) (max maxv (-(g m))) _ hc
              omega
    · rw [if_neg hgt]
      push_neg at hgt
      have ihr := ih maxv (vis + (f m a).2) a ha
        (fun m2 hm2 => hf m2 (List.mem_cons_of_mem m hm2))
      obtain ⟨iL2, iL3, iL4⟩ := ihr
      have hL1 : maxv ≤ (abLoop f beta ms maxv (vis + (f m a).2) a).1 :=
        abLoop_ge_init f beta ms _ _ _
      have hmono : (ms.map fun m => -(g m)).foldl max maxv ≤
          (ms.map fun m => -(g m)).foldl max (max maxv (-(g m))) :=
        foldl_max_mono_init _ _ _ (le_max_left _ _)
      refine ⟨?_, ?_, ?_⟩
      · intro hβ
        have := iL2 hβ
        omega
      · intro hβ'
        rw [foldl_max_le_iff]
        have hrest := iL3 hβ'
        rw [foldl_max_le_iff] at hrest
        refine ⟨?_, hrest.2⟩
        rw [max_le_iff]
        refine ⟨hL1, ?_⟩
        by_cases hwa : -(f m a).1 ≤ a
        · have hB := hfm.2.1 (by omega)
          omega
        · push_neg at hwa
          have hC := hfm.2.2 (by omega) (by omega)
          omega
      · intro hav hβ'
        have := iL4 hav hβ'
        omega

/-- Fail-soft correctness of the pruning search relative to unpruned negamax:
below the window the result upper-bounds nothing and lower-bounds are exact in
the fail-soft sense, and inside the open window the result equals negamax. -/
theorem evaluate_spec : ∀ (d : Nat) (p : Player) (b : Board) (alpha beta : Int),
    b.tiles.length ≤ 10000000 → alpha < beta →
    ((evaluate p b d alpha beta).1 ≤ alpha →
        negamax p b d ≤ (evaluate p b d alpha beta).1) ∧
    (beta ≤ (evaluate p b d alpha beta).1 →
        (evaluate p b d alpha beta).1 ≤ negamax p b d) ∧
    (alpha < (evaluate p b d alpha beta).1 → (evaluate p b d alpha beta).1 < beta →
        (evaluate p b d alpha beta).1 = negamax p b d) := by
  intro d
  induction d with
  | zero =>
    intro p b alpha beta hlen hab
    have he : (evaluate p b 0 alpha beta).1 = negamax p b 0 := by
      simp only [evaluate, negamax]
    rw [he]
    exact ⟨fun _ => le_refl _, fun _ => le_refl _, fun _ _ => rfl⟩
  | succ d ih =>
    intro p b alpha beta hlen hab
    have hperm : (if d = 0 then b.possible_moves p
        else sort_moves p (b.possible_moves p)).Perm (b.possible_moves p) := by
      by_cases hd0 : d = 0
      · rw [if_pos hd0]
      · rw [if_neg hd0]
        exact sort_moves_perm p _
    have hsub : ∀ m ∈ (if d = 0 then b.possible_moves p
        else sort_moves p (b.possible_moves p)), m ∈ b.possible_moves p :=
      fun m hm => hperm.mem_iff.mp hm
    have heval : evaluate p b (d + 1) alpha beta =
        (if (abLoop (fun m a => evaluate p.next m d (-beta) (-a)) beta
            (if d = 0 then b.possible_moves p else sort_moves p (b.possible_moves p))
            intMin 0 alpha).1 = intMin
         then (p.direction * b.heuristic_evaluate, 1)
         else abLoop (fun m a => evaluate p.next m d (-beta) (-a)) beta
            (if d = 0 then b.possible_moves p else sort_moves p (b.possible_moves p))
            intMin 0 alpha) := by
      simp only [evaluate]
    cases hn : b.possible_moves p with
    | nil =>
      have hSnil : (if d = 0 then b.possible_moves p
          else sort_moves p (b.possible_moves p)) = [] := by
        have h2 : (if d = 0 then b.possible_moves p
            else sort_moves p (b.possible_moves p)).Perm [] := by
          rw [← hn]
          exact hperm
        exact h2.eq_nil
      have hres : evaluate p b (d + 1) alpha beta =
          (p.direction * b.heuristic_evaluate, 1) := by
        rw [heval, hSnil]
        simp [abLoop]
      have hneg : negamax p b (d + 1) = p.direction * b.heuristic_evaluate := by
        simp only [negamax, hn]
      rw [hres, hneg]
      exact ⟨fun _ => le_refl _, fun _ => le_refl _, fun _ _ => rfl⟩
    | cons m0 rest0 =>
      obtain ⟨mS, restS, hSe⟩ : ∃ mS restS, (if d = 0 then b.possible_moves p
          else sort_moves p (b.possible_moves p)) = mS :: restS := by
        cases hSc : (if d = 0 then b.possible_moves p
            else sort_moves p (b.possible_moves p)) with
        | nil =>
          exfalso
          have hL := hperm.length_eq
          rw [hSc, hn] at hL
          simp at hL
        | cons x xs => exact ⟨x, xs, rfl⟩
      have hfirst : intMin < -((evaluate p.next mS d (-beta) (-alpha)).1) := by
        have hmem : mS ∈ b.possible_moves p := hsub mS (by
          rw [hSe]
          exact List.mem_cons_self _ _)
        have hlenm := Board.mem_possible_moves_lengths b p mS hmem
        have hb := eval_bound d p.next mS (-beta) (-alpha)
        rw [hlenm.2] at hb
        rw [abs_le] at hb
        unfold intMin
        omega
      have hgtmin : intMin < (abLoop (fun m a => evaluate p.next m d (-beta) (-a)) beta
          (if d = 0 then b.possible_moves p else sort_moves p (b.possible_moves p))
          intMin 0 alpha).1 := by
        rw [hSe]
        exact abLoop_cons_gt_intMin _ _ _ _ _ _ hfirst
      have hres : (evaluate p b (d + 1) alpha beta).1 =
          (abLoop (fun m a => evaluate p.next m d (-beta) (-a)) beta
            (if d = 0 then b.possible_moves p else sort_moves p (b.possible_moves p))
            intMin 0 alpha).1 := by
        rw [heval, if_neg (by omega)]
      have hf : ∀ m ∈ (if d = 0 then b.possible_moves p
          else sort_moves p (b.possible_moves p)), ∀ a2 : Int, a2 < beta →
          ((evaluate p.next m d (-beta) (-a2)).1 ≤ -beta →
            negamax p.next m d ≤ (evaluate p.next m d (-beta) (-a2)).1) ∧
          (-a2 ≤ (evaluate p.next m d (-beta) (-a2)).1 →
            (evaluate p.next m d (-beta) (-a2)).1 ≤ negamax p.next m d) ∧
          (-beta < (evaluate p.next m d (-beta) (-a2)).1 →
            (evaluate p.next m d (-beta) (-a2)).1 < -a2 →
            (evaluate p.next m d (-beta) (-a2)).1 = negamax p.next m d) := by
        intro m hm a2 ha2
        have hmem : m ∈ b.possible_moves p := hsub m hm
        have hlenm := Board.mem_possible_moves_lengths b p m hmem
        exact ih p.next m (-beta) (-a2) (by omega) (by omega)
      have hspec := abLoop_spec (fun m a => evaluate p.next m d (-beta) (-a))
        (fun m => negamax p.next m d) beta
        (if d = 0 then b.possible_moves p else sort_moves p (b.possible_moves p))
        intMin 0 alpha hab hf
      obtain ⟨L2, L3, L4⟩ := hspec
      have hp2 : ((if d = 0 then b.possible_moves p
          else sort_moves p (b.possible_moves p)).map
            (fun m => -(negamax p.next m d))).Perm
          ((m0 :: rest0).map (fun m => -(negamax p.next m d))) := by
        rw [← hn]
        exact hperm.map _
      have hN : ((if d = 0 then b.possible_moves p
          else sort_moves p (b.possible_moves p)).map
            (fun m => -(negamax p.next m d))).foldl max intMin =
          negamax p b (d + 1) := by
        rw [foldl_max_perm _ _ hp2 intMin]
        have hneg : negamax p b (d + 1) =
            (rest0.map (fun m2 => -(negamax p.next m2 d))).foldl max
              (-(negamax p.next m0 d)) := by
          simp only [negamax, hn]
        rw [hneg]
        simp only [List.map_cons, List.foldl_cons]
        congr 1
        rw [max_eq_right]
        have hmem : m0 ∈ b.possible_moves p := by
          rw [hn]
          exact List.mem_cons_self _ _
        have hlenm := Board.mem_possible_moves_lengths b p m0 hmem
        have hb := negamax_bound d p.next m0
        rw [hlenm.2] at hb
        rw [abs_le] at hb
        unfold intMin
        omega
      rw [hres]
      rw [hN] at L2 L3 L4
      refine ⟨?_, ?_, ?_⟩
      · intro hva
        exact L3 (by omega)
      · intro hvb
        exact L2 hvb
      · intro hv1 hv2
        exact le_antisymm (L4 hv1 hv2) (L3 hv2)

/-- C1: alpha-beta equivalence.  With the full window (alpha at one above
`i32::MIN`, beta at `i32::MAX`) the value component of the pruning searcher
equals the value of the exhaustive unpruned negamax of the same depth over the
same move generator and the same leaf evaluation; pruning changes only the
node count, never the returned value. -/
theorem alpha_beta_full_window_eq (p : Player) (b : Board) (d : Nat)
    (hlen : b.tiles.length ≤ 10000000) :
    (evaluate p b d (intMin + 1) intMax).1 = negamax p b d := by
  have hab : intMin + 1 < intMax := by unfold intMin intMax; omega
  have hspec := evaluate_spec d p b (intMin + 1) intMax hlen hab
  have hb := eval_bound d p b (intMin + 1) intMax
  rw [abs_le] at hb
  refine hspec.2.2 ?_ ?_ <;> (unfold intMin intMax at *; omega)

/-- Closed instance of `alpha_beta_full_window_eq` on a concrete board. -/
theorem alpha_beta_full_window_eq_witness :
    bWitness.tiles.length ≤ 10000000 ∧
      (evaluate .Max bWitness 1 (intMin + 1) intMax).1 = negamax .Max bWitness 1 :=
  ⟨by decide, alpha_beta_full_window_eq .Max bWitness 1 (by decide)⟩

/-! The top-level move choice and the terminal-state signal. -/

theorem chooseLoop_maxv_ge (f : Board → Int → Int × Nat) :
    ∀ (ms : List Board) (st : Option Board × Int × Nat) (a : Int),
      st.2.1 ≤ (chooseLoop f ms st a).2.1 := by
  intro ms
  induction ms with
  | nil => intro st a; exact le_refl _
  | cons m ms ih =>
    intro st a
    simp only [chooseLoop]
    split
    · rename_i hgt
      exact le_trans (le_of_lt hgt) (ih _ _)
    · exact ih _ _

theorem chooseLoop_chosen (f : Board → Int → Int × Nat) :
    ∀ (ms : List Board) (st : Option Board × Int × Nat) (a : Int),
      (chooseLoop f ms st a).1 = st.1 ∨ ∃ m ∈ ms, (chooseLoop f ms st a).1 = some m := by
  intro ms
  induction ms with
  | nil => intro st a; exact Or.inl rfl
  | cons m ms ih =>
    intro st a
    simp only [chooseLoop]
    split
    · rcases ih (some m, -(f m a).1, st.2.2 + (f m a).2) (max a (-(f m a).1)) with h | ⟨m2, hm2, h⟩
      · exact Or.inr ⟨m, List.mem_cons_self m ms, h⟩
      · exact Or.inr ⟨m2, List.mem_cons_of_mem m hm2, h⟩
    · rcases ih (st.1, st.2.1, st.2.2 + (f m a).2) a with h | ⟨m2, hm2, h⟩
      · exact Or.inl h
      · exact Or.inr ⟨m2, List.mem_cons_of_mem m hm2, h⟩

theorem chooseLoop_cons_result (f : Board → Int → Int × Nat) (mS : Board)
    (restS : List Board) (a : Int) (hb : intMin < -(f mS a).1) :
    intMin < (chooseLoop f (mS :: restS) (none, intMin, 0) a).2.1 ∧
      ((chooseLoop f (mS :: restS) (none, intMin, 0) a).1 = some mS ∨
        ∃ m ∈ restS, (chooseLoop f (mS :: restS) (none, intMin, 0) a).1 = some m) := by
  simp only [chooseLoop]
  rw [if_pos hb]
  constructor
  · exact lt_of_lt_of_le hb (chooseLoop_maxv_ge f restS _ _)
  · rcases chooseLoop_chosen f restS (some mS, -(f mS a).1, 0 + (f mS a).2)
        (max a (-(f mS a).1)) with h | ⟨m2, hm2, h⟩
    · exact Or.inl h
    · exact Or.inr ⟨m2, hm2, h⟩

/-- C5: the top-level move choice signals a terminal state, not an error: it
returns a `none` chosen move exactly when the move generator yields no board,
in which case the returned value is the player's direction times the heuristic
evaluation of the board with node count 1; when at least one move exists the
chosen move is one of the generated successor boards. -/
theorem choose_move_terminal_signal (p : Player) (b : Board) (d : Nat) (alpha beta : Int)
    (_hd : 0 < d) (hlen : b.tiles.length ≤ 10000000) :
    ((choose_move p b d alpha beta).1 = none ↔ b.possible_moves p = []) ∧
    (b.possible_moves p = [] →
      choose_move p b d alpha beta = (none, p.direction * b.heuristic_evaluate, 1)) ∧
    (b.possible_moves p ≠ [] →
      ∃ m ∈ b.possible_moves p, (choose_move p b d alpha beta).1 = some m) := by
  cases hn : b.possible_moves p with
  | nil =>
    have hs : sort_moves p (b.possible_moves p) = [] := by
      rw [hn]
      exact (sort_moves_perm p []).eq_nil
    have hres : choose_move p b d alpha beta =
        (none, p.direction * b.heuristic_evaluate, 1) := by
      simp only [choose_move, hs]
      rfl
    rw [hres]
    exact ⟨by simp [hn], fun _ => rfl, fun hne => absurd rfl hne⟩
  | cons m0 rest0 =>
    obtain ⟨mS, restS, hSe⟩ : ∃ mS restS,
        sort_moves p (b.possible_moves p) = mS :: restS := by
      cases hSc : sort_moves p (b.possible_moves p) with
      | nil =>
        exfalso
        have hL := (sort_moves_perm p (b.possible_moves p)).length_eq
        rw [hSc, hn] at hL
        simp at hL
      | cons x xs => exact ⟨x, xs, rfl⟩
    have hmemS : mS ∈ b.possible_moves p :=
      mem_sort_moves p _ mS (by rw [hSe]; exact List.mem_cons_self _ _)
    have hlenm := Board.mem_possible_moves_lengths b p mS hmemS
    have hbnd := eval_bound (d - 1) p.next mS (-beta) (-alpha)
    rw [hlenm.2] at hbnd
    rw [abs_le] at hbnd
    have hcons := chooseLoop_cons_result
      (fun m a => evaluate p.next m (d - 1) (-beta) (-a)) mS restS alpha
      (by
        show intMin < -((evaluate p.next mS (d - 1) (-beta) (-alpha)).1)
        unfold intMin at *
        omega)
    rw [← hSe] at hcons
    have hres : choose_move p b d alpha beta =
        chooseLoop (fun m a => evaluate p.next m (d - 1) (-beta) (-a))
          (sort_moves p (b.possible_moves p)) (none, intMin, 0) alpha := by
      simp only [choose_move]
      rw [if_neg]
      omega
    rw [hres]
    rcases hcons.2 with hch | ⟨m2, hm2, hch⟩
    · refine ⟨?_, ?_, fun _ => ⟨mS, hn ▸ hmemS, hch⟩⟩
      · rw [hch]
        simp
      · intro he
        exact absurd he (by simp)
    · have hm2' : m2 ∈ b.possible_moves p :=
        mem_sort_moves p _ m2 (by rw [hSe]; exact List.mem_cons_of_mem _ hm2)
      refine ⟨?_, ?_, fun _ => ⟨m2, hn ▸ hm2', hch⟩⟩
      · rw [hch]
        simp
      · intro he
        exact absurd he (by simp)

/-- Closed instance of `choose_move_terminal_signal` on a concrete board with
one legal move. -/
theorem choose_move_terminal_signal_witness :
    (0 < 2 ∧ bAsym.tiles.length ≤ 10000000) ∧
      (((choose_move .Max bAsym 2 (intMin + 1) intMax).1 = none ↔
          bAsym.possible_moves .Max = []) ∧
        (bAsym.possible_moves .Max = [] →
          choose_move .Max bAsym 2 (intMin + 1) intMax =
            (none, Player.direction .Max * bAsym.heuristic_evaluate, 1)) ∧
        (bAsym.possible_moves .Max ≠ [] →
          ∃ m ∈ bAsym.possible_moves .Max,
            (choose_move .Max bAsym 2 (intMin + 1) intMax).1 = some m)) :=
  ⟨⟨by decide, by decide⟩,
    choose_move_terminal_signal .Max bAsym 2 (intMin + 1) intMax (by decide) (by decide)⟩

/-! Board extension (board.rs `extend_to_contain`). -/

namespace Board

/-- Row extension (board.rs `extend_to_contain`, first half): append a row of
`NO_TILE` when the row coordinate is one past the end, prepend one when it is
-1, together with the resulting row offset. -/
def extendRows (b : Board) (r : Int) : Board × Int :=
  if r = (b.num_rows : Int) then
    (⟨b.tiles ++ List.replicate b.row_length Tile.NO_TILE, b.row_length⟩, 0)
  else if r = -1 then
    (⟨List.replicate b.row_length Tile.NO_TILE ++ b.tiles, b.row_length⟩, 1)
  else (b, 0)

/-- Column insertion loop (board.rs `extend_to_contain`, add a column after):
one `Vec::insert` of `NO_TILE` at position i * new_row_length +
(new_row_length - 1) for every row index i, on the evolving buffer. -/
def insertColAfter (tiles : List Tile) (L1 : Nat) (num_rows : Nat) : List Tile :=
  (List.range num_rows).foldl
    (fun acc i => acc.insertIdx (i * L1 + (L1 - 1)) Tile.NO_TILE) tiles

/-- Column insertion loop (board.rs `extend_to_contain`, add a column before):
one `Vec::insert` of `NO_TILE` at position i * new_row_length for every row
index i, on the evolving buffer. -/
def insertColBefore (tiles : List Tile) (L1 : Nat) (num_rows : Nat) : List Tile :=
  (List.range num_rows).foldl (fun acc i => acc.insertIdx (i * L1) Tile.NO_TILE) tiles

/-- Column extension (board.rs `extend_to_contain`, second half). -/
def extendCols (b : Board) (q : Int) : Board × Int :=
  if q = (b.row_length : Int) then
    (⟨insertColAfter b.tiles (b.row_length + 1) b.num_rows, b.row_length + 1⟩, 0)
  else if q = -1 then
    (⟨insertColBefore b.tiles (b.row_length + 1) b.num_rows, b.row_length + 1⟩, 1)
  else (b, 0)

/-- Board extension by one towards the given coordinates (board.rs
`extend_to_contain`), returning the extended board together with the offset by
which all remembered coordinates must shift. -/
def extend_to_contain (b : Board) (c : Int × Int) : Board × (Int × Int) :=
  let rres := extendRows b c.1
  let cres := extendCols rres.1 c.2
  (cres.1, (rres.2, cres.2))

/-- Reference shape of the column-appended buffer: every row gains one
`NO_TILE` at its end. -/
def rowsAppendNT (L : Nat) : Nat → List Tile → List Tile
  | 0, ts => ts
  | n + 1, ts => (ts.take L ++ [Tile.NO_TILE]) ++ rowsAppendNT L n (ts.drop L)

/-- Reference shape of the column-prepended buffer: every row gains one
`NO_TILE` at its start. -/
def rowsPrependNT (L : Nat) : Nat → List Tile → List Tile
  | 0, ts => ts
  | n + 1, ts => (Tile.NO_TILE :: ts.take L) ++ rowsPrependNT L n (ts.drop L)

theorem insertIdx_shift (xs ys : List Tile) (i : Nat) (a : Tile) :
    (xs ++ ys).insertIdx (xs.length + i) a = xs ++ ys.insertIdx i a := by
  induction xs with
  | nil => simp
  | cons x xs ih =>
    have h : (x :: xs).length + i = (xs.length + i) + 1 := by
      simp only [List.length_cons]
      omega
    rw [h]
    simp only [List.cons_append, List.insertIdx_succ_cons]
    rw [ih]

theorem insertIdx_take_drop (ys : List Tile) (i : Nat) (a : Tile) (h : i ≤ ys.length) :
    ys.insertIdx i a = ys.take i ++ a :: ys.drop i := by
  induction i generalizing ys with
  | zero => simp [List.insertIdx_zero]
  | succ n ih =>
    cases ys with
    | nil => simp at h
    | cons y ys =>
      simp only [List.insertIdx_succ_cons, List.take_succ_cons, List.drop_succ_cons,
        List.cons_append]
      rw [ih ys (by simpa using h)]

theorem insertColAfter_go (L : Nat) :
    ∀ (n k : Nat) (pre ts : List Tile), pre.length = k * (L + 1) → n * L ≤ ts.length →
      (List.range' k n).foldl
          (fun acc i => acc.insertIdx (i * (L + 1) + L) Tile.NO_TILE) (pre ++ ts) =
        pre ++ rowsAppendNT L n ts := by
  intro n
  induction n with
  | zero =>
    intro k pre ts _ _
    simp [rowsAppendNT]
  | succ n ih =>
    intro k pre ts hpre hts
    rw [List.range'_succ]
    simp only [List.foldl_cons]
    have hL' : L ≤ ts.length := by
      have h1 : 1 * L ≤ (n + 1) * L := Nat.mul_le_mul_right _ (by omega)
      omega
    rw [show k * (L + 1) + L = pre.length + L from by omega]
    rw [insertIdx_shift pre ts L Tile.NO_TILE]
    rw [insertIdx_take_drop ts L Tile.NO_TILE hL']
    have hassoc : pre ++ (ts.take L ++ Tile.NO_TILE :: ts.drop L) =
        (pre ++ (ts.take L ++ [Tile.NO_TILE])) ++ ts.drop L := by
      simp [List.append_assoc]
    rw [hassoc]
    have hlen2 : (pre ++ (ts.take L ++ [Tile.NO_TILE])).length = (k + 1) * (L + 1) := by
      simp only [List.length_append, List.length_take, List.length_cons, List.length_nil,
        min_eq_left hL', hpre]
      ring_nf
    have hlen3 : n * L ≤ (ts.drop L).length := by
      rw [List.length_drop]
      have h2 : (n + 1) * L = n * L + L := by ring
      omega
    rw [ih (k + 1) (pre ++ (ts.take L ++ [Tile.NO_TILE])) (ts.drop L) hlen2 hlen3]
    simp [rowsAppendNT, List.append_assoc]

theorem insertColBefore_go (L : Nat) :
    ∀ (n k : Nat) (pre ts : List Tile), pre.length = k * (L + 1) → n * L ≤ ts.length →
      (List.range' k n).foldl
          (fun acc i => acc.insertIdx (i * (L + 1)) Tile.NO_TILE) (pre ++ ts) =
        pre ++ rowsPrependNT L n ts := by
  intro n
  induction n with
  | zero =>
    intro k pre ts _ _
    simp [rowsPrependNT]
  | succ n ih =>
    intro k pre ts hpre hts
    rw [List.range'_succ]
    simp only [List.foldl_cons]
    have hL' : L ≤ ts.length := by
      have h1 : 1 * L ≤ (n + 1) * L := Nat.mul_le_mul_right _ (by omega)
      omega
    rw [show k * (L + 1) = pre.length + 0 from by omega]
    rw [insertIdx_shift pre ts 0 Tile.NO_TILE]
    rw [List.insertIdx_zero]
    have hassoc : pre ++ Tile.NO_TILE :: ts =
        (pre ++ (Tile.NO_TILE :: ts.take L)) ++ ts.drop L := by
      conv_lhs => rw [← List.take_append_drop L ts]
      simp [List.append_assoc]
    rw [hassoc]
    have hlen2 : (pre ++ (Tile.NO_TILE :: ts.take L)).length = (k + 1) * (L + 1) := by
      simp only [List.length_append, List.length_cons, List.length_take,
        min_eq_left hL', hpre]
      ring_nf
    have hlen3 : n * L ≤ (ts.drop L).length := by
      rw [List.length_drop]
      have h2 : (n + 1) * L = n * L + L := by ring
      omega
    rw [ih (k + 1) (pre ++ (Tile.NO_TILE :: ts.take L)) (ts.drop L) hlen2 hlen3]
    simp [rowsPrependNT, List.append_assoc]

end Board

namespace Board

theorem rowsAppendNT_length (L : Nat) :
    ∀ (n : Nat) (ts : List Tile), n * L ≤ ts.length →
      (rowsAppendNT L n ts).length = ts.length + n := by
  intro n
  induction n with
  | zero => intro ts _; rfl
  | succ n ih =>
    intro ts hts
    have hL' : L ≤ ts.length := by
      have h1 : 1 * L ≤ (n + 1) * L := Nat.mul_le_mul_right _ (by omega)
      omega
    have hrec : n * L ≤ (ts.drop L).length := by
      rw [List.length_drop]
      have h2 : (n + 1) * L = n * L + L := by ring
      omega
    simp only [rowsAppendNT, List.length_append, List.length_take, List.length_cons,
      List.length_nil, min_eq_left hL', ih (ts.drop L) hrec, List.length_drop]
    omega

theorem rowsPrependNT_length (L : Nat) :
    ∀ (n : Nat) (ts : List Tile), n * L ≤ ts.length →
      (rowsPrependNT L n ts).length = ts.length + n := by
  intro n
  induction n with
  | zero => intro ts _; rfl
  | succ n ih =>
    intro ts hts
    have hL' : L ≤ ts.length := by
      have h1 : 1 * L ≤ (n + 1) * L := Nat.mul_le_mul_right _ (by omega)
      omega
    have hrec : n * L ≤ (ts.drop L).length := by
      rw [List.length_drop]
      have h2 : (n + 1) * L = n * L + L := by ring
      omega
    simp only [rowsPrependNT, List.length_append, List.length_take, List.length_cons,
      min_eq_left hL', ih (ts.drop L) hrec, List.length_drop]
    omega

theorem rowsAppendNT_getD (L : Nat) :
    ∀ (n : Nat) (ts : List Tile), n * L ≤ ts.length →
      ∀ r q : Nat, r < n → q < L →
        (rowsAppendNT L n ts).getD (r * (L + 1) + q) Tile.NO_TILE =
          ts.getD (r * L + q) Tile.NO_TILE := by
  intro n
  induction n with
  | zero => intro ts _ r q hr _; omega
  | succ n ih =>
    intro ts hts r q hr hq
    have hL' : L ≤ ts.length := by
      have h1 : 1 * L ≤ (n + 1) * L := Nat.mul_le_mul_right _ (by omega)
      omega
    have hrec : n * L ≤ (ts.drop L).length := by
      rw [List.length_drop]
      have h2 : (n + 1) * L = n * L + L := by ring
      omega
    cases r with
    | zero =>
      simp only [rowsAppendNT, Nat.zero_mul, Nat.zero_add]
      rw [List.getD_append _ _ _ _ (by
        simp only [List.length_append, List.length_take, List.length_cons, List.length_nil,
          min_eq_left hL']
        omega)]
      rw [List.getD_append _ _ _ _ (by
        simp only [List.length_take, min_eq_left hL']
        omega)]
      rw [List.getD_eq_getElem?_getD, List.getD_eq_getElem?_getD,
        List.getElem?_take_of_lt hq]
    | succ r =>
      simp only [rowsAppendNT]
      have hpre : (ts.take L ++ [Tile.NO_TILE]).length = L + 1 := by
        simp [min_eq_left hL']
      rw [List.getD_append_right _ _ _ _ (by
        rw [hpre]
        have : (r + 1) * (L + 1) = r * (L + 1) + (L + 1) := by ring
        omega)]
      rw [hpre]
      rw [show (r + 1) * (L + 1) + q - (L + 1) = r * (L + 1) + q from by
        have : (r + 1) * (L + 1) = r * (L + 1) + (L + 1) := by ring
        omega]
      rw [ih (ts.drop L) hrec r q (by omega) hq]
      rw [List.getD_eq_getElem?_getD, List.getD_eq_getElem?_getD, List.getElem?_drop]
      rw [show L + (r * L + q) = (r + 1) * L + q from by ring]

theorem rowsAppendNT_getD_new (L : Nat) :
    ∀ (n : Nat) (ts : List Tile), n * L ≤ ts.length →
      ∀ r : Nat, r < n →
        (rowsAppendNT L n ts).getD (r * (L + 1) + L) Tile.NO_TILE = Tile.NO_TILE := by
  intro n
  induction n with
  | zero => intro ts _ r hr; omega
  | succ n ih =>
    intro ts hts r hr
    have hL' : L ≤ ts.length := by
      have h1 : 1 * L ≤ (n + 1) * L := Nat.mul_le_mul_right _ (by omega)
      omega
    have hrec : n * L ≤ (ts.drop L).length := by
      rw [List.length_drop]
      have h2 : (n + 1) * L = n * L + L := by ring
      omega
    cases r with
    | zero =>
      simp only [rowsAppendNT, Nat.zero_mul, Nat.zero_add]
      rw [List.getD_append _ _ _ _ (by
        simp only [List.length_append, List.length_take, List.length_cons, List.length_nil,
          min_eq_left hL']
        omega)]
      rw [List.getD_append_right _ _ _ _ (by
        simp only [List.length_take, min_eq_left hL']
        omega)]
      simp [min_eq_left hL']
    | succ r =>
      simp only [rowsAppendNT]
      have hpre : (ts.take L ++ [Tile.NO_TILE]).length = L + 1 := by
        simp [min_eq_left hL']
      rw [List.getD_append_right _ _ _ _ (by
        rw [hpre]
        have : (r + 1) * (L + 1) = r * (L + 1) + (L + 1) := by ring
        omega)]
      rw [hpre]
      rw [show (r + 1) * (L + 1) + L - (L + 1) = r * (L + 1) + L from by
        have : (r + 1) * (L + 1) = r * (L + 1) + (L + 1) := by ring
        omega]
      exact ih (ts.drop L) hrec r (by omega)

theorem rowsPrependNT_getD (L : Nat) :
    ∀ (n : Nat) (ts : List Tile), n * L ≤ ts.length →
      ∀ r q : Nat, r < n → q < L →
        (rowsPrependNT L n ts).getD (r * (L + 1) + (q + 1)) Tile.NO_TILE =
          ts.getD (r * L + q) Tile.NO_TILE := by
  intro n
  induction n with
  | zero => intro ts _ r q hr _; omega
  | succ n ih =>
    intro ts hts r q hr hq
    have hL' : L ≤ ts.length := by
      have h1 : 1 * L ≤ (n + 1) * L := Nat.mul_le_mul_right _ (by omega)
      omega
    have hrec : n * L ≤ (ts.drop L).length := by
      rw [List.length_drop]
      have h2 : (n + 1) * L = n * L + L := by ring
      omega
    cases r with
    | zero =>
      simp only [rowsPrependNT, Nat.zero_mul, Nat.zero_add]
      rw [List.getD_append _ _ _ _ (by
        simp only [List.length_cons, List.length_take, min_eq_left hL']
        omega)]
      show (Tile.NO_TILE :: ts.take L).getD (q + 1) Tile.NO_TILE = _
      rw [List.getD_cons_succ]
      rw [List.getD_eq_getElem?_getD, List.getD_eq_getElem?_getD,
        List.getElem?_take_of_lt hq]
    | succ r =>
      simp only [rowsPrependNT]
      have hpre : (Tile.NO_TILE :: ts.take L).length = L + 1 := by
        simp [min_eq_left hL']
      rw [List.getD_append_right _ _ _ _ (by
        rw [hpre]
        have : (r + 1) * (L + 1) = r * (L + 1) + (L + 1) := by ring
        omega)]
      rw [hpre]
      rw [show (r + 1) * (L + 1) + (q + 1) - (L + 1) = r * (L + 1) + (q + 1) from by
        have : (r + 1) * (L + 1) = r * (L + 1) + (L + 1) := by ring
        omega]
      rw [ih (ts.drop L) hrec r q (by omega) hq]
      rw [List.getD_eq_getElem?_getD, List.getD_eq_getElem?_getD, List.getElem?_drop]
      rw [show L + (r * L + q) = (r + 1) * L + q from by ring]

theorem getD_replicate_self (n i : Nat) (a : Tile) :
    (List.replicate n a).getD i a = a := by
  rw [List.getD_eq_getElem?_getD, List.getElem?_replicate]
  split
  · rfl
  · rfl

theorem rowsPrependNT_getD_new (L : Nat) :
    ∀ (n : Nat) (ts : List Tile), n * L ≤ ts.length →
      ∀ r : Nat, r < n →
        (rowsPrependNT L n ts).getD (r * (L + 1)) Tile.NO_TILE = Tile.NO_TILE := by
  intro n
  induction n with
  | zero => intro ts _ r hr; omega
  | succ n ih =>
    intro ts hts r hr
    have hL' : L ≤ ts.length := by
      have h1 : 1 * L ≤ (n + 1) * L := Nat.mul_le_mul_right _ (by omega)
      omega
    have hrec : n * L ≤ (ts.drop L).length := by
      rw [List.length_drop]
      have h2 : (n + 1) * L = n * L + L := by ring
      omega
    cases r with
    | zero =>
      simp only [rowsPrependNT, Nat.zero_mul]
      rw [List.getD_append _ _ _ _ (by
        simp only [List.length_cons, List.length_take, min_eq_left hL']
        omega)]
      exact List.getD_cons_zero
    | succ r =>
      simp only [rowsPrependNT]
      have hpre : (Tile.NO_TILE :: ts.take L).length = L + 1 := by
        simp [min_eq_left hL']
      rw [List.getD_append_right _ _ _ _ (by
        rw [hpre]
        have h3 : (r + 1) * (L + 1) = r * (L + 1) + (L + 1) := by ring
        omega)]
      rw [hpre]
      rw [show (r + 1) * (L + 1) - (L + 1) = r * (L + 1) from by
        have h3 : (r + 1) * (L + 1) = r * (L + 1) + (L + 1) := by ring
        omega]
      exact ih (ts.drop L) hrec r (by omega)

end Board

namespace Board

theorem extendRows_spec (b : Board) (r : Int) (hL : 0 < b.row_length)
    (hdvd : b.row_length ∣ b.tiles.length)
    (hr : r = -1 ∨ (0 ≤ r ∧ r < (b.num_rows : Int)) ∨ r = (b.num_rows : Int)) :
    (extendRows b r).1.row_length = b.row_length ∧
    b.row_length ∣ (extendRows b r).1.tiles.length ∧
    (extendRows b r).1.num_rows =
      (if r = -1 ∨ r = (b.num_rows : Int) then b.num_rows + 1 else b.num_rows) ∧
    (extendRows b r).2 = (if r = -1 then 1 else 0) ∧
    (∀ c : Int × Int, b.coords_in_range c = true →
      (extendRows b r).1.coords_in_range (c.1 + (extendRows b r).2, c.2) = true ∧
        (extendRows b r).1.index (c.1 + (extendRows b r).2, c.2) = b.index c) ∧
    (0 ≤ r + (extendRows b r).2 ∧
      r + (extendRows b r).2 < ((extendRows b r).1.num_rows : Int)) := by
  obtain ⟨k, hk⟩ := hdvd
  have hnum : b.num_rows = k := by
    unfold num_rows
    rw [hk, Nat.mul_div_cancel_left k hL]
  rcases hr with hr | hr | hr
  · have hne : ¬(r = (b.num_rows : Int)) := by
      rw [hr, hnum]
      intro h
      omega
    have hre : extendRows b r =
        (⟨List.replicate b.row_length Tile.NO_TILE ++ b.tiles, b.row_length⟩, 1) := by
      unfold extendRows
      rw [if_neg hne, if_pos hr]
    rw [hre]
    have hnum' : (⟨List.replicate b.row_length Tile.NO_TILE ++ b.tiles,
        b.row_length⟩ : Board).num_rows = k + 1 := by
      show (List.replicate b.row_length Tile.NO_TILE ++ b.tiles).length / b.row_length = k + 1
      rw [List.length_append, List.length_replicate, hk,
        show b.row_length + b.row_length * k = b.row_length * (k + 1) from by ring,
        Nat.mul_div_cancel_left _ hL]
    refine ⟨rfl, ?_, ?_, ?_, ?_, ?_⟩
    · show b.row_length ∣ (List.replicate b.row_length Tile.NO_TILE ++ b.tiles).length
      rw [List.length_append, List.length_replicate, hk]
      exact ⟨k + 1, by ring⟩
    · rw [if_pos (Or.inl hr), hnum', hnum]
    · rw [if_pos hr]
    · intro c hc
      rw [coords_in_range_iff] at hc
      obtain ⟨h1, h2, h3, h4⟩ := hc
      have hrng : (⟨List.replicate b.row_length Tile.NO_TILE ++ b.tiles,
          b.row_length⟩ : Board).coords_in_range (c.1 + 1, c.2) = true := by
        rw [coords_in_range_iff, hnum']
        refine ⟨by omega, ?_, h3, h4⟩
        rw [hnum] at h2
        push_cast
        omega
      refine ⟨hrng, ?_⟩
      rw [index, if_pos hrng, index, if_pos (by rw [coords_in_range_iff]; exact ⟨h1, h2, h3, h4⟩)]
      show (List.replicate b.row_length Tile.NO_TILE ++ b.tiles).getD
          (b.row_length * (c.1 + 1).toNat + c.2.toNat) Tile.NO_TILE = _
      have ht : (c.1 + 1).toNat = c.1.toNat + 1 := by omega
      rw [ht]
      rw [List.getD_append_right _ _ _ _ (by
        rw [List.length_replicate]
        have : b.row_length * (c.1.toNat + 1) = b.row_length * c.1.toNat + b.row_length := by
          ring
        omega)]
      rw [List.length_replicate]
      have hpos : b.row_length * (c.1.toNat + 1) + c.2.toNat - b.row_length =
          b.coords_to_index c := by
        unfold coords_to_index
        have hmulsucc : b.row_length * (c.1.toNat + 1) =
            b.row_length * c.1.toNat + b.row_length := by ring
        omega
      rw [hpos]
    · rw [hr, hnum']
      constructor
      · omega
      · push_cast
        omega
  · have hne1 : ¬(r = (b.num_rows : Int)) := by omega
    have hne2 : ¬(r = -1) := by omega
    have hre : extendRows b r = (b, 0) := by
      unfold extendRows
      rw [if_neg hne1, if_neg hne2]
    rw [hre]
    refine ⟨rfl, ⟨k, hk⟩, ?_, ?_, ?_, ?_⟩
    · rw [if_neg (by
        intro h
        rcases h with h | h
        · exact hne2 h
        · exact hne1 h)]
    · rw [if_neg hne2]
    · intro c hc
      rw [add_zero]
      exact ⟨hc, rfl⟩
    · rw [add_zero]
      exact ⟨hr.1, hr.2⟩
  · have hre : extendRows b r =
        (⟨b.tiles ++ List.replicate b.row_length Tile.NO_TILE, b.row_length⟩, 0) := by
      unfold extendRows
      rw [if_pos hr]
    rw [hre]
    have hnum' : (⟨b.tiles ++ List.replicate b.row_length Tile.NO_TILE,
        b.row_length⟩ : Board).num_rows = k + 1 := by
      show (b.tiles ++ List.replicate b.row_length Tile.NO_TILE).length / b.row_length = k + 1
      rw [List.length_append, List.length_replicate, hk,
        show b.row_length * k + b.row_length = b.row_length * (k + 1) from by ring,
        Nat.mul_div_cancel_left _ hL]
    have hne2 : ¬(r = -1) := by
      rw [hr]
      intro h
      omega
    refine ⟨rfl, ?_, ?_, ?_, ?_, ?_⟩
    · show b.row_length ∣ (b.tiles ++ List.replicate b.row_length Tile.NO_TILE).length
      rw [List.length_append, List.length_replicate, hk]
      exact ⟨k + 1, by ring⟩
    · rw [if_pos (Or.inr hr), hnum', hnum]
    · rw [if_neg hne2]
    · intro c hc
      rw [coords_in_range_iff] at hc
      obtain ⟨h1, h2, h3, h4⟩ := hc
      have hrng : (⟨b.tiles ++ List.replicate b.row_length Tile.NO_TILE,
          b.row_length⟩ : Board).coords_in_range (c.1 + 0, c.2) = true := by
        rw [coords_in_range_iff, hnum']
        refine ⟨by omega, ?_, h3, h4⟩
        rw [hnum] at h2
        push_cast
        omega
      refine ⟨hrng, ?_⟩
      rw [index, if_pos hrng, index, if_pos (by rw [coords_in_range_iff]; exact ⟨h1, h2, h3, h4⟩)]
      show (b.tiles ++ List.replicate b.row_length Tile.NO_TILE).getD
          (b.row_length * (c.1 + 0).toNat + c.2.toNat) Tile.NO_TILE = _
      rw [add_zero]
      have hlt : b.row_length * c.1.toNat + c.2.toNat < b.tiles.length := by
        have hh := coords_to_index_lt b c.1 c.2 h1 h2 h3 h4
        unfold coords_to_index at hh
        exact hh
      rw [List.getD_append _ _ _ _ hlt]
      rfl
    · rw [hr, hnum', add_zero]
      constructor
      · positivity
      · push_cast
        rw [hnum]
        omega

end Board

namespace Board

theorem insertColAfter_eq (b : Board) (k : Nat) (_hL : 0 < b.row_length)
    (hk : b.tiles.length = b.row_length * k) (hnum : b.num_rows = k) :
    insertColAfter b.tiles (b.row_length + 1) b.num_rows =
      rowsAppendNT b.row_length k b.tiles := by
  unfold insertColAfter
  rw [hnum, List.range_eq_range']
  have hstep : (fun (acc : List Tile) (i : Nat) =>
      acc.insertIdx (i * (b.row_length + 1) + (b.row_length + 1 - 1)) Tile.NO_TILE) =
      (fun (acc : List Tile) (i : Nat) =>
        acc.insertIdx (i * (b.row_length + 1) + b.row_length) Tile.NO_TILE) := by
    funext acc i
    rw [Nat.add_sub_cancel]
  rw [hstep]
  have := insertColAfter_go b.row_length k 0 [] b.tiles (by simp) (by
    rw [hk, Nat.mul_comm])
  simpa using this

theorem insertColBefore_eq (b : Board) (k : Nat) (_hL : 0 < b.row_length)
    (hk : b.tiles.length = b.row_length * k) (hnum : b.num_rows = k) :
    insertColBefore b.tiles (b.row_length + 1) b.num_rows =
      rowsPrependNT b.row_length k b.tiles := by
  unfold insertColBefore
  rw [hnum, List.range_eq_range']
  have := insertColBefore_go b.row_length k 0 [] b.tiles (by simp) (by
    rw [hk, Nat.mul_comm])
  simpa using this

theorem extendCols_spec (b : Board) (q : Int) (hL : 0 < b.row_length)
    (hdvd : b.row_length ∣ b.tiles.length)
    (hq : q = -1 ∨ (0 ≤ q ∧ q < (b.row_length : Int)) ∨ q = (b.row_length : Int)) :
    (extendCols b q).1.num_rows = b.num_rows ∧
    (extendCols b q).1.row_length =
      (if q = -1 ∨ q = (b.row_length : Int) then b.row_length + 1 else b.row_length) ∧
    (extendCols b q).2 = (if q = -1 then 1 else 0) ∧
    (∀ c : Int × Int, b.coords_in_range c = true →
      (extendCols b q).1.coords_in_range (c.1, c.2 + (extendCols b q).2) = true ∧
        (extendCols b q).1.index (c.1, c.2 + (extendCols b q).2) = b.index c) ∧
    (0 ≤ q + (extendCols b q).2 ∧
      q + (extendCols b q).2 < ((extendCols b q).1.row_length : Int)) := by
  obtain ⟨k, hk⟩ := hdvd
  have hnum : b.num_rows = k := by
    unfold num_rows
    rw [hk, Nat.mul_div_cancel_left k hL]
  have hkL : k * b.row_length ≤ b.tiles.length := by
    rw [hk, Nat.mul_comm]
  rcases hq with hq | hq | hq
  · have hne : ¬(q = (b.row_length : Int)) := by
      rw [hq]
      intro h
      omega
    have hre : extendCols b q =
        (⟨insertColBefore b.tiles (b.row_length + 1) b.num_rows, b.row_length + 1⟩, 1) := by
      unfold extendCols
      rw [if_neg hne, if_pos hq]
    rw [hre]
    simp only
    rw [insertColBefore_eq b k hL hk hnum]
    have hlen' : (rowsPrependNT b.row_length k b.tiles).length = b.tiles.length + k :=
      rowsPrependNT_length b.row_length k b.tiles hkL
    have hnum' : (⟨rowsPrependNT b.row_length k b.tiles,
        b.row_length + 1⟩ : Board).num_rows = k := by
      show (rowsPrependNT b.row_length k b.tiles).length / (b.row_length + 1) = k
      rw [hlen', hk, show b.row_length * k + k = (b.row_length + 1) * k from by ring,
        Nat.mul_div_cancel_left k (by omega)]
    refine ⟨by rw [hnum', hnum], by rw [if_pos (Or.inl hq)], by rw [if_pos hq], ?_, ?_⟩
    · intro c hc
      rw [coords_in_range_iff] at hc
      obtain ⟨h1, h2, h3, h4⟩ := hc
      have hrng : (⟨rowsPrependNT b.row_length k b.tiles,
          b.row_length + 1⟩ : Board).coords_in_range (c.1, c.2 + 1) = true := by
        rw [coords_in_range_iff, hnum']
        rw [hnum] at h2
        refine ⟨h1, h2, by omega, ?_⟩
        push_cast
        omega
      refine ⟨hrng, ?_⟩
      rw [index, if_pos hrng, index,
        if_pos (by rw [coords_in_range_iff]; exact ⟨h1, h2, h3, h4⟩)]
      show (rowsPrependNT b.row_length k b.tiles).getD
          ((b.row_length + 1) * c.1.toNat + (c.2 + 1).toNat) Tile.NO_TILE = _
      have ht : (c.2 + 1).toNat = c.2.toNat + 1 := by omega
      rw [ht]
      rw [show (b.row_length + 1) * c.1.toNat + (c.2.toNat + 1) =
          c.1.toNat * (b.row_length + 1) + (c.2.toNat + 1) from by ring]
      rw [rowsPrependNT_getD b.row_length k b.tiles hkL c.1.toNat c.2.toNat
        (by rw [hnum] at h2; omega) (by omega)]
      show _ = b.tiles.getD (b.row_length * c.1.toNat + c.2.toNat) Tile.NO_TILE
      rw [show c.1.toNat * b.row_length + c.2.toNat =
          b.row_length * c.1.toNat + c.2.toNat from by ring]
    · rw [hq]
      constructor
      · omega
      · show (0 : Int) < ((b.row_length + 1 : Nat) : Int)
        push_cast
        omega
  · have hne1 : ¬(q = (b.row_length : Int)) := by omega
    have hne2 : ¬(q = -1) := by omega
    have hre : extendCols b q = (b, 0) := by
      unfold extendCols
      rw [if_neg hne1, if_neg hne2]
    rw [hre]
    refine ⟨rfl, ?_, ?_, ?_, ?_⟩
    · rw [if_neg (by
        intro h
        rcases h with h | h
        · exact hne2 h
        · exact hne1 h)]
    · rw [if_neg hne2]
    · intro c hc
      rw [add_zero]
      exact ⟨hc, rfl⟩
    · rw [add_zero]
      exact ⟨hq.1, hq.2⟩
  · have hre : extendCols b q =
        (⟨insertColAfter b.tiles (b.row_length + 1) b.num_rows, b.row_length + 1⟩, 0) := by
      unfold extendCols
      rw [if_pos hq]
    rw [hre]
    simp only
    rw [insertColAfter_eq b k hL hk hnum]
    have hlen' : (rowsAppendNT b.row_length k b.tiles).length = b.tiles.length + k :=
      rowsAppendNT_length b.row_length k b.tiles hkL
    have hnum' : (⟨rowsAppendNT b.row_length k b.tiles,
        b.row_length + 1⟩ : Board).num_rows = k := by
      show (rowsAppendNT b.row_length k b.tiles).length / (b.row_length + 1) = k
      rw [hlen', hk, show b.row_length * k + k = (b.row_length + 1) * k from by ring,
        Nat.mul_div_cancel_left k (by omega)]
    have hne2 : ¬(q = -1) := by
      rw [hq]
      intro h
      omega
    refine ⟨by rw [hnum', hnum], by rw [if_pos (Or.inr hq)], by rw [if_neg hne2], ?_, ?_⟩
    · intro c hc
      rw [coords_in_range_iff] at hc
      obtain ⟨h1, h2, h3, h4⟩ := hc
      have hrng : (⟨rowsAppendNT b.row_length k b.tiles,
          b.row_length + 1⟩ : Board).coords_in_range (c.1, c.2 + 0) = true := by
        rw [coords_in_range_iff, hnum']
        rw [hnum] at h2
        refine ⟨h1, h2, by omega, ?_⟩
        push_cast
        omega
      refine ⟨hrng, ?_⟩
      rw [index, if_pos hrng, index,
        if_pos (by rw [coords_in_range_iff]; exact ⟨h1, h2, h3, h4⟩)]
      show (rowsAppendNT b.row_length k b.tiles).getD
          ((b.row_length + 1) * (c.1).toNat + (c.2 + 0).toNat) Tile.NO_TILE = _
      rw [show (c.2 + 0).toNat = c.2.toNat from by omega]
      rw [show (b.row_length + 1) * c.1.toNat + c.2.toNat =
          c.1.toNat * (b.row_length + 1) + c.2.toNat from by ring]
      rw [rowsAppendNT_getD b.row_length k b.tiles hkL c.1.toNat c.2.toNat
        (by rw [hnum] at h2; omega) (by omega)]
      show _ = b.tiles.getD (b.row_length * c.1.toNat + c.2.toNat) Tile.NO_TILE
      rw [show c.1.toNat * b.row_length + c.2.toNat =
          b.row_length * c.1.toNat + c.2.toNat from by ring]
    · rw [hq, add_zero]
      constructor
      · positivity
      · show (b.row_length : Int) < ((b.row_length + 1 : Nat) : Int)
        push_cast
        omega

theorem extendRows_new (b : Board) (r : Int) (hL : 0 < b.row_length)
    (hdvd : b.row_length ∣ b.tiles.length)
    (hr : r = -1 ∨ (0 ≤ r ∧ r < (b.num_rows : Int)) ∨ r = (b.num_rows : Int)) :
    ∀ c : Int × Int, (extendRows b r).1.coords_in_range c = true →
      b.coords_in_range (c.1 - (extendRows b r).2, c.2) = false →
      (extendRows b r).1.index c = Tile.NO_TILE := by
  obtain ⟨k, hk⟩ := hdvd
  have hnum : b.num_rows = k := by
    unfold num_rows
    rw [hk, Nat.mul_div_cancel_left k hL]
  rcases hr with hr | hr | hr
  · have hne : ¬(r = (b.num_rows : Int)) := by
      rw [hr, hnum]
      intro h
      omega
    have hre : extendRows b r =
        (⟨List.replicate b.row_length Tile.NO_TILE ++ b.tiles, b.row_length⟩, 1) := by
      unfold extendRows
      rw [if_neg hne, if_pos hr]
    rw [hre]
    simp only
    have hn1 : (⟨List.replicate b.row_length Tile.NO_TILE ++ b.tiles,
        b.row_length⟩ : Board).num_rows = k + 1 := by
      show (List.replicate b.row_length Tile.NO_TILE ++ b.tiles).length / b.row_length
          = k + 1
      rw [List.length_append, List.length_replicate, hk,
        show b.row_length + b.row_length * k = b.row_length * (k + 1) from by ring,
        Nat.mul_div_cancel_left _ hL]
    intro c hc hold
    have hcb := hc
    rw [coords_in_range_iff] at hcb
    have hrl : (⟨List.replicate b.row_length Tile.NO_TILE ++ b.tiles,
        b.row_length⟩ : Board).row_length = b.row_length := rfl
    have holdp : ¬(0 ≤ c.1 - 1 ∧ c.1 - 1 < (b.num_rows : Int) ∧ 0 ≤ c.2 ∧
        c.2 < (b.row_length : Int)) := by
      intro hcontra
      have hx := (coords_in_range_iff b (c.1 - 1, c.2)).mpr hcontra
      rw [hold] at hx
      simp at hx
    have hc1 : c.1 = 0 := by
      obtain ⟨h1, h2, h3, h4⟩ := hcb
      rw [hnum] at holdp
      omega
    rw [index, if_pos hc]
    show (List.replicate b.row_length Tile.NO_TILE ++ b.tiles).getD
        (b.row_length * c.1.toNat + c.2.toNat) Tile.NO_TILE = Tile.NO_TILE
    rw [hc1]
    rw [show b.row_length * (0 : Int).toNat + c.2.toNat = c.2.toNat from by simp]
    rw [List.getD_append _ _ _ _ (by
      rw [List.length_replicate]
      obtain ⟨h1, h2, h3, h4⟩ := hcb
      omega)]
    exact getD_replicate_self _ _ _
  · have hne1 : ¬(r = (b.num_rows : Int)) := by omega
    have hne2 : ¬(r = -1) := by omega
    have hre : extendRows b r = (b, 0) := by
      unfold extendRows
      rw [if_neg hne1, if_neg hne2]
    rw [hre]
    simp only
    intro c hc hold
    rw [Int.sub_zero] at hold
    rw [show ((c.1, c.2) : Int × Int) = c from rfl] at hold
    rw [hc] at hold
    simp at hold
  · have hre : extendRows b r =
        (⟨b.tiles ++ List.replicate b.row_length Tile.NO_TILE, b.row_length⟩, 0) := by
      unfold extendRows
      rw [if_pos hr]
    rw [hre]
    simp only
    have hn1 : (⟨b.tiles ++ List.replicate b.row_length Tile.NO_TILE,
        b.row_length⟩ : Board).num_rows = k + 1 := by
      show (b.tiles ++ List.replicate b.row_length Tile.NO_TILE).length / b.row_length
          = k + 1
      rw [List.length_append, List.length_replicate, hk,
        show b.row_length * k + b.row_length = b.row_length * (k + 1) from by ring,
        Nat.mul_div_cancel_left _ hL]
    intro c hc hold
    have hcb := hc
    rw [coords_in_range_iff] at hcb
    have hrl : (⟨b.tiles ++ List.replicate b.row_length Tile.NO_TILE,
        b.row_length⟩ : Board).row_length = b.row_length := rfl
    rw [Int.sub_zero] at hold
    rw [show ((c.1, c.2) : Int × Int) = c from rfl] at hold
    have holdp : ¬(0 ≤ c.1 ∧ c.1 < (b.num_rows : Int) ∧ 0 ≤ c.2 ∧
        c.2 < (b.row_length : Int)) := by
      intro hcontra
      have hx := (coords_in_range_iff b c).mpr hcontra
      rw [hold] at hx
      simp at hx
    have hc1 : c.1.toNat = k := by
      obtain ⟨h1, h2, h3, h4⟩ := hcb
      rw [hnum] at holdp
      omega
    rw [index, if_pos hc]
    show (b.tiles ++ List.replicate b.row_length Tile.NO_TILE).getD
        (b.row_length * c.1.toNat + c.2.toNat) Tile.NO_TILE = Tile.NO_TILE
    rw [hc1]
    rw [List.getD_append_right _ _ _ _ (by rw [hk]; omega)]
    rw [hk]
    rw [show b.row_length * k + c.2.toNat - b.row_length * k = c.2.toNat from by omega]
    exact getD_replicate_self _ _ _

theorem extendCols_new (b : Board) (q : Int) (hL : 0 < b.row_length)
    (hdvd : b.row_length ∣ b.tiles.length)
    (hq : q = -1 ∨ (0 ≤ q ∧ q < (b.row_length : Int)) ∨ q = (b.row_length : Int)) :
    ∀ c : Int × Int, (extendCols b q).1.coords_in_range c = true →
      b.coords_in_range (c.1, c.2 - (extendCols b q).2) = false →
      (extendCols b q).1.index c = Tile.NO_TILE := by
  obtain ⟨k, hk⟩ := hdvd
  have hnum : b.num_rows = k := by
    unfold num_rows
    rw [hk, Nat.mul_div_cancel_left k hL]
  have hkL : k * b.row_length ≤ b.tiles.length := by
    rw [hk, Nat.mul_comm]
  rcases hq with hq | hq | hq
  · have hne : ¬(q = (b.row_length : Int)) := by
      rw [hq]
      intro h
      omega
    have hre : extendCols b q =
        (⟨insertColBefore b.tiles (b.row_length + 1) b.num_rows, b.row_length + 1⟩, 1) := by
      unfold extendCols
      rw [if_neg hne, if_pos hq]
    rw [hre]
    simp only
    rw [insertColBefore_eq b k hL hk hnum]
    have hlen' : (rowsPrependNT b.row_length k b.tiles).length = b.tiles.length + k :=
      rowsPrependNT_length b.row_length k b.tiles hkL
    have hnum' : (⟨rowsPrependNT b.row_length k b.tiles,
        b.row_length + 1⟩ : Board).num_rows = k := by
      show (rowsPrependNT b.row_length k b.tiles).length / (b.row_length + 1) = k
      rw [hlen', hk, show b.row_length * k + k = (b.row_length + 1) * k from by ring,
        Nat.mul_div_cancel_left k (by omega)]
    intro c hc hold
    have hcb := hc
    rw [coords_in_range_iff] at hcb
    have hrl : (⟨rowsPrependNT b.row_length k b.tiles,
        b.row_length + 1⟩ : Board).row_length = b.row_length + 1 := rfl
    have holdp : ¬(0 ≤ c.1 ∧ c.1 < (b.num_rows : Int) ∧ 0 ≤ c.2 - 1 ∧
        c.2 - 1 < (b.row_length : Int)) := by
      intro hcontra
      have hx := (coords_in_range_iff b (c.1, c.2 - 1)).mpr hcontra
      rw [hold] at hx
      simp at hx
    have hc2 : c.2 = 0 := by
      obtain ⟨h1, h2, h3, h4⟩ := hcb
      rw [hnum] at holdp
      omega
    rw [index, if_pos hc]
    show (rowsPrependNT b.row_length k b.tiles).getD
        ((b.row_length + 1) * c.1.toNat + c.2.toNat) Tile.NO_TILE = Tile.NO_TILE
    rw [hc2]
    rw [show (b.row_length + 1) * c.1.toNat + (0 : Int).toNat =
        c.1.toNat * (b.row_length + 1) from by
      rw [show ((0 : Int)).toNat = 0 from rfl, Nat.add_zero, Nat.mul_comm]]
    exact rowsPrependNT_getD_new b.row_length k b.tiles hkL c.1.toNat (by
      obtain ⟨h1, h2, h3, h4⟩ := hcb
      omega)
  · have hne1 : ¬(q = (b.row_length : Int)) := by omega
    have hne2 : ¬(q = -1) := by omega
    have hre : extendCols b q = (b, 0) := by
      unfold extendCols
      rw [if_neg hne1, if_neg hne2]
    rw [hre]
    simp only
    intro c hc hold
    rw [Int.sub_zero] at hold
    rw [show ((c.1, c.2) : Int × Int) = c from rfl] at hold
    rw [hc] at hold
    simp at hold
  · have hne2 : ¬(q = -1) := by
      rw [hq]
      intro h
      omega
    have hre : extendCols b q =
        (⟨insertColAfter b.tiles (b.row_length + 1) b.num_rows, b.row_length + 1⟩, 0) := by
      unfold extendCols
      rw [if_pos hq]
    rw [hre]
    simp only
    rw [insertColAfter_eq b k hL hk hnum]
    have hlen' : (rowsAppendNT b.row_length k b.tiles).length = b.tiles.length + k :=
      rowsAppendNT_length b.row_length k b.tiles hkL
    have hnum' : (⟨rowsAppendNT b.row_length k b.tiles,
        b.row_length + 1⟩ : Board).num_rows = k := by
      show (rowsAppendNT b.row_length k b.tiles).length / (b.row_length + 1) = k
      rw [hlen', hk, show b.row_length * k + k = (b.row_length + 1) * k from by ring,
        Nat.mul_div_cancel_left k (by omega)]
    intro c hc hold
    have hcb := hc
    rw [coords_in_range_iff] at hcb
    have hrl : (⟨rowsAppendNT b.row_length k b.tiles,
        b.row_length + 1⟩ : Board).row_length = b.row_length + 1 := rfl
    rw [Int.sub_zero] at hold
    have holdp : ¬(0 ≤ c.1 ∧ c.1 < (b.num_rows : Int) ∧ 0 ≤ c.2 ∧
        c.2 < (b.row_length : Int)) := by
      intro hcontra
      have hx := (coords_in_range_iff b (c.1, c.2)).mpr hcontra
      rw [hold] at hx
      simp at hx
    have hc2 : c.2.toNat = b.row_length := by
      obtain ⟨h1, h2, h3, h4⟩ := hcb
      rw [hnum] at holdp
      omega
    rw [index, if_pos hc]
    show (rowsAppendNT b.row_length k b.tiles).getD
        ((b.row_length + 1) * c.1.toNat + c.2.toNat) Tile.NO_TILE = Tile.NO_TILE
    rw [hc2]
    rw [show (b.row_length + 1) * c.1.toNat + b.row_length =
        c.1.toNat * (b.row_length + 1) + b.row_length from by ring]
    exact rowsAppendNT_getD_new b.row_length k b.tiles hkL c.1.toNat (by
      obtain ⟨h1, h2, h3, h4⟩ := hcb
      omega)

end Board

/-- C8: for coordinates lying on or exactly one step past an edge of the
stored rectangle, `extend_to_contain` grows the before/after edges touched by
the coordinates by one row/column of `NO_TILE`, returns an offset of 1 on an
axis exactly when growth happened on the before side (-1 on that axis) and 0
otherwise, every previously stored tile reads unchanged at its old
coordinates shifted by the returned offset, the shifted target coordinates
lie inside the stored rectangle afterwards, and every cell of the extended
rectangle that does not come from a stored cell shifted by the offset — that
is, every newly inserted cell — reads `NO_TILE`. -/
theorem extend_to_contain_spec (b : Board) (r q : Int)
    (hL : 0 < b.row_length) (hdvd : b.row_length ∣ b.tiles.length)
    (hr : r = -1 ∨ (0 ≤ r ∧ r < (b.num_rows : Int)) ∨ r = (b.num_rows : Int))
    (hq : q = -1 ∨ (0 ≤ q ∧ q < (b.row_length : Int)) ∨ q = (b.row_length : Int)) :
    (b.extend_to_contain (r, q)).2 =
        ((if r = -1 then 1 else 0), (if q = -1 then 1 else 0)) ∧
    (b.extend_to_contain (r, q)).1.num_rows =
        (if r = -1 ∨ r = (b.num_rows : Int) then b.num_rows + 1 else b.num_rows) ∧
    (b.extend_to_contain (r, q)).1.row_length =
        (if q = -1 ∨ q = (b.row_length : Int) then b.row_length + 1 else b.row_length) ∧
    (∀ c : Int × Int, b.coords_in_range c = true →
      (b.extend_to_contain (r, q)).1.index
          (c.1 + (b.extend_to_contain (r, q)).2.1, c.2 + (b.extend_to_contain (r, q)).2.2) =
        b.index c) ∧
    (b.extend_to_contain (r, q)).1.coords_in_range
        (r + (b.extend_to_contain (r, q)).2.1, q + (b.extend_to_contain (r, q)).2.2) =
      true ∧
    (∀ c : Int × Int, (b.extend_to_contain (r, q)).1.coords_in_range c = true →
      b.coords_in_range (c.1 - (b.extend_to_contain (r, q)).2.1,
          c.2 - (b.extend_to_contain (r, q)).2.2) = false →
      (b.extend_to_contain (r, q)).1.index c = Tile.NO_TILE) := by
  obtain ⟨hL1, hdvd1, hnum1, hoff1, hpres1, hcont1⟩ :=
    Board.extendRows_spec b r hL hdvd hr
  have hq1 : q = -1 ∨ (0 ≤ q ∧ q < ((b.extendRows r).1.row_length : Int)) ∨
      q = ((b.extendRows r).1.row_length : Int) := by
    rw [hL1]
    exact hq
  obtain ⟨hnum2, hL2, hoff2, hpres2, hcont2⟩ :=
    Board.extendCols_spec (b.extendRows r).1 q (by rw [hL1]; exact hL)
      (by rw [hL1]; exact hdvd1) hq1
  have he1 : (b.extend_to_contain (r, q)).1 = ((b.extendRows r).1.extendCols q).1 := rfl
  have he2 : (b.extend_to_contain (r, q)).2 =
      ((b.extendRows r).2, ((b.extendRows r).1.extendCols q).2) := rfl
  rw [hL1] at hL2
  refine ⟨?_, ?_, ?_, ?_, ?_, ?_⟩
  · rw [he2, hoff1, hoff2]
  · rw [he1, hnum2, hnum1]
  · rw [he1, hL2]
  · intro c hc
    rw [he1, he2]
    obtain ⟨hrng1, hidx1⟩ := hpres1 c hc
    obtain ⟨hrng2, hidx2⟩ := hpres2 (c.1 + (b.extendRows r).2, c.2) hrng1
    show ((b.extendRows r).1.extendCols q).1.index
        (c.1 + (b.extendRows r).2, c.2 + ((b.extendRows r).1.extendCols q).2) = b.index c
    rw [hidx2, hidx1]
  · rw [he1, he2]
    show ((b.extendRows r).1.extendCols q).1.coords_in_range
        (r + (b.extendRows r).2, q + ((b.extendRows r).1.extendCols q).2) = true
    rw [Board.coords_in_range_iff]
    refine ⟨hcont1.1, ?_, hcont2.1, hcont2.2⟩
    rw [hnum2]
    exact hcont1.2
  · intro c hc hold
    rw [he1] at hc ⊢
    rw [he2] at hold
    dsimp only at hold
    by_cases h1 : (b.extendRows r).1.coords_in_range
        (c.1, c.2 - ((b.extendRows r).1.extendCols q).2) = true
    · obtain ⟨hrng2, hidx2⟩ :=
        hpres2 (c.1, c.2 - ((b.extendRows r).1.extendCols q).2) h1
      have hnew := Board.extendRows_new b r hL hdvd hr
        (c.1, c.2 - ((b.extendRows r).1.extendCols q).2) h1 hold
      have hc2 : ((c.1 : Int), c.2 - ((b.extendRows r).1.extendCols q).2 +
          ((b.extendRows r).1.extendCols q).2) = c := by
        rw [Int.sub_add_cancel]
      rw [← hc2]
      exact hidx2.trans hnew
    · have h1f : (b.extendRows r).1.coords_in_range
          (c.1, c.2 - ((b.extendRows r).1.extendCols q).2) = false :=
        Bool.eq_false_iff.mpr h1
      exact Board.extendCols_new (b.extendRows r).1 q (by rw [hL1]; exact hL)
        (by rw [hL1]; exact hdvd1) hq1 c hc h1f

/-- Closed instance of `extend_to_contain_spec` on a concrete board and
one-past-the-edge coordinates. -/
theorem extend_to_contain_spec_witness :
    (0 < bAsym.row_length ∧ bAsym.row_length ∣ bAsym.tiles.length ∧
        ((-1 : Int) = -1 ∨ ((0 : Int) ≤ -1 ∧ (-1 : Int) < (bAsym.num_rows : Int)) ∨
          (-1 : Int) = (bAsym.num_rows : Int)) ∧
        ((4 : Int) = -1 ∨ ((0 : Int) ≤ 4 ∧ (4 : Int) < (bAsym.row_length : Int)) ∨
          (4 : Int) = (bAsym.row_length : Int))) ∧
      ((bAsym.extend_to_contain (-1, 4)).2 =
          ((if (-1 : Int) = -1 then 1 else 0), (if (4 : Int) = -1 then 1 else 0)) ∧
        (bAsym.extend_to_contain (-1, 4)).1.num_rows =
          (if (-1 : Int) = -1 ∨ (-1 : Int) = (bAsym.num_rows : Int) then bAsym.num_rows + 1
           else bAsym.num_rows) ∧
        (bAsym.extend_to_contain (-1, 4)).1.row_length =
          (if (4 : Int) = -1 ∨ (4 : Int) = (bAsym.row_length : Int) then bAsym.row_length + 1
           else bAsym.row_length) ∧
        (∀ c : Int × Int, bAsym.coords_in_range c = true →
          (bAsym.extend_to_contain (-1, 4)).1.index
              (c.1 + (bAsym.extend_to_contain (-1, 4)).2.1,
                c.2 + (bAsym.extend_to_contain (-1, 4)).2.2) =
            bAsym.index c) ∧
        (bAsym.extend_to_contain (-1, 4)).1.coords_in_range
            (-1 + (bAsym.extend_to_contain (-1, 4)).2.1,
              4 + (bAsym.extend_to_contain (-1, 4)).2.2) = true ∧
        (∀ c : Int × Int, (bAsym.extend_to_contain (-1, 4)).1.coords_in_range c = true →
          bAsym.coords_in_range (c.1 - (bAsym.extend_to_contain (-1, 4)).2.1,
              c.2 - (bAsym.extend_to_contain (-1, 4)).2.2) = false →
          (bAsym.extend_to_contain (-1, 4)).1.index c = Tile.NO_TILE)) :=
  ⟨⟨by decide, by decide, by decide, by decide⟩,
    extend_to_contain_spec bAsym (-1) 4 (by decide) (by decide) (by decide) (by decide)⟩

/-! Text notation (board.rs `Board::parse` and `Board::write`).  Texts are
modelled as lists of characters; the byte-level chunking of the source
coincides with the character-level chunking on the ASCII texts the round-trip
theorem below quantifies over. -/

/-- Whitespace test matching the characters Rust's `char::is_whitespace`
accepts in the ASCII range. -/
def isWhitespaceChar (c : Char) : Bool :=
  c = ' ' || c = '\t' || c = '\n' || c = '\x0B' || c = '\x0C' || c = '\r'

/-- Splitting on newline characters (Rust `str::split` with a newline
pattern): always returns one piece more than the number of newlines. -/
def splitLines : List Char → List (List Char)
  | [] => [[]]
  | c :: rest =>
    match splitLines rest with
    | [] => [[]]
    | l :: ls => if c = '\n' then [] :: l :: ls else (c :: l) :: ls

/-- Removal of trailing whitespace (Rust `str::trim_end`). -/
def trimEnd (s : List Char) : List Char :=
  (s.reverse.dropWhile isWhitespaceChar).reverse

/-- Number of leading space characters of a row (board.rs
`chars().take_while(char == ' ').count()`). -/
def leadCount (row : List Char) : Nat := (row.takeWhile (fun c => c = ' ')).length

/-- Filtered and hex-indented rows of the input (board.rs `Board::parse`,
the `row_strings` construction). -/
def parseRows (input : List Char) : List (List Char) :=
  ((splitLines input).filter (fun row => !(row.all isWhitespaceChar))).enum.map
    (fun ir => List.replicate (ir.1 * 2) ' ' ++ trimEnd ir.2)

/-- Column index of the first board character in any row (board.rs
`string_begin_index`). -/
def beginIdx (rows : List (List Char)) : Nat :=
  (((rows.map leadCount).min?).getD 0) / 2 * 2

/-- Maximum number of tiles in any row (board.rs `row_length`). -/
def rowLenOf (rows : List (List Char)) : Nat :=
  ((((rows.map List.length).max?).getD 0) - beginIdx rows + 3) / 4

/-- Column index one past the last board character (board.rs
`string_end_index`). -/
def endIdx (rows : List (List Char)) : Nat := rowLenOf rows * 4 + beginIdx rows

/-- Slice of one row between the begin and end indices, padded with spaces
(board.rs, the `row_content` construction). -/
def rowSlice (rows : List (List Char)) (row : List Char) : List Char :=
  ((row ++ List.replicate (endIdx rows - row.length) ' ').take (endIdx rows)).drop
    (beginIdx rows)

/-- Four-character chunks of a row slice (board.rs `chunks(4)`): groups of
four with a shorter final group when the length is not a multiple of four. -/
def chunks4 : List Char → List (List Char)
  | c1 :: c2 :: c3 :: c4 :: rest => [c1, c2, c3, c4] :: chunks4 rest
  | [] => []
  | l => [l]

/-- Parse of the decimal size (Rust `str::parse::<u8>`, which accepts an
optional leading plus sign and plain decimal digits up to 255). -/
def parseU8 (s : List Char) : Option Nat :=
  let digits := if s.head? = some '+' then s.tail else s
  if digits = [] then none
  else if digits.all (fun c => c.isDigit) then
    let v := digits.foldl (fun acc c => acc * 10 + (c.toNat - 48)) 0
    if v ≤ 255 then some v else none
  else none

/-- Parse of one 4-character cell (board.rs `Board::parse`, loop body). -/
def parseTile (chunk : List Char) : Option Tile :=
  let tc := trimEnd chunk
  if tc = [] then some Tile.NO_TILE
  else if tc = [' ', '0'] then some Tile.EMPTY
  else
    match tc.head? with
    | some '-' =>
      match parseU8 tc.tail with
      | some size =>
        if size > Tile.MAX_STACK_SIZE then none
        else if size = 0 then none
        else some (Tile.new .Stack .Min size)
      | none => none
    | some '+' =>
      match parseU8 tc.tail with
      | some size =>
        if size > Tile.MAX_STACK_SIZE then none
        else if size = 0 then none
        else some (Tile.new .Stack .Max size)
      | none => none
    | _ => none

/-- Parse of a hexagonal grid text into a board (board.rs `Board::parse`;
errors are rendered as `none`). -/
def parse (input : List Char) : Option Board :=
  let rows := parseRows input
  if rows = [] then none
  else
    match (rows.flatMap (fun row => chunks4 (rowSlice rows row))).mapM parseTile with
    | none => none
    | some tiles => some ⟨tiles, rowLenOf rows⟩

namespace Board

/-- Full rows of the stored buffer (board.rs `iter_rows`:
`chunks_exact(row_length)`). -/
def iter_rows (b : Board) : List (List Tile) :=
  (List.range b.num_rows).map (fun r => (b.tiles.drop (r * b.row_length)).take b.row_length)

end Board

/-- Uncolored 4-character cell text (board.rs `Board::write`, the
`tile_string` construction with `colored = false`; sizes print left-justified
to width 3). -/
def tileString (t : Tile) : List Char :=
  match t.tile_type with
  | .NoTile => [' ', ' ', ' ', ' ']
  | .Empty => [' ', '0', ' ', ' ']
  | .Stack =>
    let symbol := match t.player with | .Min => '-' | .Max => '+'
    let digits := Nat.toDigits 10 t.stack_size
    symbol :: (digits ++ List.replicate (3 - digits.length) ' ')

/-- A cell text is canonical when it prints back exactly as itself: if it
parses to a tile, it equals that tile's uncolored cell text. -/
def canonicalChunk (chunk : List Char) : Bool :=
  match parseTile chunk with
  | some til => decide (chunk = tileString til)
  | none => true

/-- Hex-indented uncolored row texts of a board (board.rs `Board::write`,
the `row_strings` construction). -/
def writeRows (b : Board) : List (List Char) :=
  (b.iter_rows).enum.map (fun rrow =>
    List.replicate ((b.num_rows - 1 - rrow.1) * 2) ' ' ++ rrow.2.flatMap tileString)

/-- Uncolored board text (board.rs `Board::write` with `colored = false`):
rows joined by newlines after removing the shared even leading indentation
and trailing whitespace. -/
def write (b : Board) : List Char :=
  let rows := writeRows b
  List.intercalate ['\n'] (rows.map (fun row => trimEnd (row.drop (beginIdx rows))))

/-- Normalization named by the round-trip claim: strip trailing whitespace of
every row and remove the minimal shared even-column leading indentation. -/
def normalizeText (t : List Char) : List Char :=
  let rows := (splitLines t).map trimEnd
  List.intercalate ['\n'] (rows.map (fun row => row.drop (beginIdx rows)))

/-! Whitespace lemmas for the text notation. -/

theorem dropWhile_head?_not {α : Type} (p : α → Bool) (l : List α) :
    ∀ c, (l.dropWhile p).head? = some c → p c = false := by
  induction l with
  | nil => intro c h; simp [List.dropWhile] at h
  | cons a l ih =>
    intro c h
    rw [List.dropWhile_cons] at h
    by_cases hpa : p a = true
    · rw [if_pos hpa] at h; exact ih c h
    · rw [if_neg hpa] at h
      simp only [List.head?_cons, Option.some.injEq] at h
      subst h
      exact Bool.eq_false_iff.mpr hpa

theorem dropWhile_eq_self_of_head {α : Type} (p : α → Bool) (l : List α)
    (h : ∀ c, l.head? = some c → p c = false) : l.dropWhile p = l := by
  cases l with
  | nil => rfl
  | cons a l =>
    rw [List.dropWhile_cons, if_neg]
    rw [h a rfl]
    simp

theorem replicate_space_all (a : Nat) :
    (List.replicate a ' ').all isWhitespaceChar = true := by
  rw [List.all_eq_true]
  intro x hx
  rw [List.mem_replicate] at hx
  rw [hx.2]
  rfl

theorem trimEnd_append_white (l1 l2 : List Char)
    (h : l2.all isWhitespaceChar = true) : trimEnd (l1 ++ l2) = trimEnd l1 := by
  unfold trimEnd
  rw [List.reverse_append, List.dropWhile_append, if_pos]
  rw [List.isEmpty_iff, List.dropWhile_eq_nil_iff]
  intro x hx
  rw [List.all_eq_true] at h
  exact h x (List.mem_reverse.mp hx)

theorem trimEnd_eq_nil_iff (s : List Char) :
    trimEnd s = [] ↔ s.all isWhitespaceChar = true := by
  unfold trimEnd
  rw [List.reverse_eq_nil_iff, List.dropWhile_eq_nil_iff, List.all_eq_true]
  constructor
  · intro h x hx; exact h x (List.mem_reverse.mpr hx)
  · intro h x hx; exact h x (List.mem_reverse.mp hx)

theorem trimEnd_getLast_not_white (s : List Char) :
    ∀ c, (trimEnd s).getLast? = some c → isWhitespaceChar c = false := by
  intro c h
  rw [List.getLast?_eq_head?_reverse] at h
  unfold trimEnd at h
  rw [List.reverse_reverse] at h
  exact dropWhile_head?_not isWhitespaceChar s.reverse c h

theorem trimEnd_eq_self (s : List Char)
    (h : ∀ c, s.getLast? = some c → isWhitespaceChar c = false) : trimEnd s = s := by
  unfold trimEnd
  rw [dropWhile_eq_self_of_head]
  · exact s.reverse_reverse
  · intro c hc
    rw [List.head?_reverse] at hc
    exact h c hc

theorem trimEnd_trimEnd (s : List Char) : trimEnd (trimEnd s) = trimEnd s :=
  trimEnd_eq_self (trimEnd s) (trimEnd_getLast_not_white s)

theorem trimEnd_decomp (s : List Char) :
    ∃ w, s = trimEnd s ++ w ∧ w.all isWhitespaceChar = true := by
  refine ⟨(s.reverse.takeWhile isWhitespaceChar).reverse, ?_, ?_⟩
  · unfold trimEnd
    rw [← List.reverse_append, List.takeWhile_append_dropWhile, List.reverse_reverse]
  · rw [List.all_eq_true]
    intro x hx
    exact List.mem_takeWhile_imp (List.mem_reverse.mp hx)

theorem trimEnd_append_keep (l1 l2 : List Char) (h : trimEnd l2 ≠ []) :
    trimEnd (l1 ++ l2) = l1 ++ trimEnd l2 := by
  unfold trimEnd
  rw [List.reverse_append, List.dropWhile_append, if_neg, List.reverse_append,
    List.reverse_reverse]
  intro hc
  rw [List.isEmpty_iff] at hc
  exact h (by unfold trimEnd; rw [hc]; rfl)

theorem trimEnd_length_le (s : List Char) : (trimEnd s).length ≤ s.length := by
  obtain ⟨w, hs, _⟩ := trimEnd_decomp s
  conv_rhs => rw [hs]
  simp

theorem trimEnd_drop (s : List Char) (j : Nat) (hj : j ≤ (trimEnd s).length) :
    trimEnd (s.drop j) = (trimEnd s).drop j := by
  obtain ⟨w, hs, hw⟩ := trimEnd_decomp s
  have hdrop : s.drop j = (trimEnd s).drop j ++ w := by
    conv_lhs => rw [hs]
    exact List.drop_append_of_le_length hj
  rw [hdrop, trimEnd_append_white _ _ hw]
  by_cases hnil : (trimEnd s).drop j = []
  · rw [hnil]; rfl
  · apply trimEnd_eq_self
    intro c hc
    rw [List.getLast?_drop] at hc
    rw [if_neg (by
      intro hle
      exact hnil (List.drop_eq_nil_of_le hle))] at hc
    exact trimEnd_getLast_not_white s c hc

/-! Leading-space lemmas for the text notation. -/

theorem takeWhile_length_take {α : Type} (p : α → Bool) (l : List α) :
    l.take (l.takeWhile p).length = l.takeWhile p := by
  induction l with
  | nil => rfl
  | cons a l ih =>
    rw [List.takeWhile_cons]
    by_cases hpa : p a = true
    · rw [if_pos hpa]
      simp only [List.length_cons, List.take_succ_cons]
      rw [ih]
    · rw [if_neg hpa]
      rfl

theorem takeWhile_dropWhile_nil {α : Type} (p : α → Bool) (l : List α) :
    (l.dropWhile p).takeWhile p = [] := by
  induction l with
  | nil => rfl
  | cons a l ih =>
    rw [List.dropWhile_cons]
    by_cases hpa : p a = true
    · rw [if_pos hpa]; exact ih
    · rw [if_neg hpa, List.takeWhile_cons, if_neg hpa]

theorem leadCount_le_length (row : List Char) : leadCount row ≤ row.length :=
  (List.takeWhile_prefix _).length_le

theorem takeWhile_space_eq_replicate (row : List Char) :
    row.takeWhile (fun c => c = ' ') = List.replicate (leadCount row) ' ' := by
  rw [List.eq_replicate_iff]
  refine ⟨rfl, ?_⟩
  intro b hb
  have := List.mem_takeWhile_imp hb
  exact of_decide_eq_true this

theorem take_leadCount (row : List Char) :
    row.take (leadCount row) = List.replicate (leadCount row) ' ' := by
  conv_lhs => rw [show leadCount row = (row.takeWhile (fun c => c = ' ')).length from rfl]
  rw [takeWhile_length_take]
  exact takeWhile_space_eq_replicate row

theorem drop_leadCount_eq_dropWhile (row : List Char) :
    row.drop (leadCount row) = row.dropWhile (fun c => c = ' ') := by
  have h : row.take (leadCount row) ++ row.drop (leadCount row)
      = row.take (leadCount row) ++ row.dropWhile (fun c => c = ' ') := by
    rw [List.take_append_drop, take_leadCount, ← takeWhile_space_eq_replicate,
      List.takeWhile_append_dropWhile]
  exact List.append_cancel_left h

theorem leadCount_decomp (row : List Char) :
    row = List.replicate (leadCount row) ' ' ++ row.drop (leadCount row) := by
  conv_lhs => rw [← List.take_append_drop (leadCount row) row]
  rw [take_leadCount]

theorem leadCount_drop_self (row : List Char) :
    leadCount (row.drop (leadCount row)) = 0 := by
  rw [drop_leadCount_eq_dropWhile]
  unfold leadCount
  rw [takeWhile_dropWhile_nil]
  rfl

theorem takeWhile_space_replicate (a : Nat) :
    (List.replicate a ' ').takeWhile (fun c => c = ' ') = List.replicate a ' ' := by
  rw [List.takeWhile_replicate, if_pos]
  rfl

theorem leadCount_replicate_append (a : Nat) (x : List Char) :
    leadCount (List.replicate a ' ' ++ x) = a + leadCount x := by
  unfold leadCount
  rw [List.takeWhile_append, if_pos]
  · rw [List.length_append, List.length_replicate]
  · rw [takeWhile_space_replicate, List.length_replicate]

theorem leadCount_replicate (a : Nat) : leadCount (List.replicate a ' ') = a := by
  have := leadCount_replicate_append a ([] : List Char)
  rw [List.append_nil] at this
  rw [this]
  rfl

theorem leadCount_drop (row : List Char) (j : Nat) (hj : j ≤ leadCount row) :
    leadCount (row.drop j) = leadCount row - j := by
  conv_lhs => rw [leadCount_decomp row]
  rw [List.drop_append_of_le_length (by rw [List.length_replicate]; exact hj),
    List.drop_replicate, leadCount_replicate_append, leadCount_drop_self]
  omega

theorem take_of_le_leadCount (row : List Char) (j : Nat) (hj : j ≤ leadCount row) :
    row.take j = List.replicate j ' ' := by
  conv_lhs => rw [leadCount_decomp row]
  rw [List.take_append_of_le_length (by rw [List.length_replicate]; exact hj),
    List.take_replicate, Nat.min_eq_left hj]

theorem drop_of_le_leadCount (row : List Char) (j : Nat) (hj : j ≤ leadCount row) :
    row.drop j = List.replicate (leadCount row - j) ' ' ++ row.drop (leadCount row) := by
  conv_lhs => rw [leadCount_decomp row]
  rw [List.drop_append_of_le_length (by rw [List.length_replicate]; exact hj),
    List.drop_replicate]

theorem leadCount_trimEnd (s : List Char) (h : trimEnd s ≠ []) :
    leadCount (trimEnd s) = leadCount s := by
  obtain ⟨w, hs, hw⟩ := trimEnd_decomp s
  have hne : ((trimEnd s).takeWhile (fun c => c = ' ')).length ≠ (trimEnd s).length := by
    intro hlen
    apply h
    have hrep : trimEnd s = List.replicate (leadCount (trimEnd s)) ' ' := by
      conv_lhs => rw [leadCount_decomp (trimEnd s)]
      have : (trimEnd s).drop (leadCount (trimEnd s)) = [] :=
        List.drop_eq_nil_of_le (le_of_eq hlen.symm)
      rw [this, List.append_nil]
    have hall : (trimEnd s).all isWhitespaceChar = true := by
      rw [hrep]; exact replicate_space_all _
    rw [← trimEnd_trimEnd s, trimEnd_eq_nil_iff]
    exact hall
  conv_rhs => rw [hs]
  unfold leadCount
  rw [List.takeWhile_append, if_neg hne]

/-! Minimum, chunk and traversal lemmas for the text notation. -/

theorem min?_getD_le_mem (l : List Nat) (a : Nat) (ha : a ∈ l) (d : Nat) :
    (l.min?).getD d ≤ a := by
  cases hm : l.min? with
  | none =>
    rw [List.min?_eq_none_iff] at hm
    rw [hm] at ha
    cases ha
  | some m => exact (List.min?_eq_some_iff'.mp hm).2 a ha

theorem le_max?_getD_mem (l : List Nat) (a : Nat) (ha : a ∈ l) (d : Nat) :
    a ≤ (l.max?).getD d := by
  cases hm : l.max? with
  | none =>
    rw [List.max?_eq_none_iff] at hm
    rw [hm] at ha
    cases ha
  | some m => exact (List.max?_eq_some_iff'.mp hm).2 a ha

theorem min?_shift (as bs : List Nat) (c1 c2 : Nat) (hne : as ≠ [])
    (hlen : as.length = bs.length)
    (hpt : ∀ i (h1 : i < as.length) (h2 : i < bs.length), as[i] + c1 = bs[i] + c2) :
    (as.min?).getD 0 + c1 = (bs.min?).getD 0 + c2 := by
  obtain ⟨ma, hma⟩ : ∃ m, as.min? = some m := by
    cases hm : as.min? with
    | none => exact absurd (List.min?_eq_none_iff.mp hm) hne
    | some m => exact ⟨m, rfl⟩
  obtain ⟨mb, hmb⟩ : ∃ m, bs.min? = some m := by
    cases hm : bs.min? with
    | none =>
      rw [List.min?_eq_none_iff] at hm
      rw [hm] at hlen
      simp at hlen
      exact absurd hlen hne
    | some m => exact ⟨m, rfl⟩
  rw [hma, hmb]
  have ha := List.min?_eq_some_iff'.mp hma
  have hb := List.min?_eq_some_iff'.mp hmb
  obtain ⟨ia, hia, haeq⟩ := List.mem_iff_getElem.mp ha.1
  obtain ⟨ib, hib, hbeq⟩ := List.mem_iff_getElem.mp hb.1
  have hia2 : ia < bs.length := by omega
  have hib2 : ib < as.length := by omega
  have h1 : ma + c1 = bs[ia] + c2 := by rw [← haeq]; exact hpt ia hia hia2
  have h2 : as[ib] + c1 = mb + c2 := by rw [← hbeq]; exact hpt ib hib2 hib
  have h3 : mb ≤ bs[ia] := hb.2 _ (List.getElem_mem hia2)
  have h4 : ma ≤ as[ib] := ha.2 _ (List.getElem_mem hib2)
  simp only [Option.getD_some]
  omega

theorem chunks4_length : ∀ s : List Char, (chunks4 s).length = (s.length + 3) / 4
  | [] => rfl
  | [_] => by simp [chunks4]
  | [_, _] => by simp [chunks4]
  | [_, _, _] => by simp [chunks4]
  | a :: b :: c :: d :: rest => by
    show (([a, b, c, d] : List Char) :: chunks4 rest).length = _
    rw [List.length_cons, chunks4_length rest]
    simp only [List.length_cons]
    omega

theorem chunks4_flatten : ∀ s : List Char, (chunks4 s).flatten = s
  | [] => rfl
  | [_] => by simp [chunks4]
  | [_, _] => by simp [chunks4]
  | [_, _, _] => by simp [chunks4]
  | a :: b :: c :: d :: rest => by
    show (([a, b, c, d] : List Char) :: chunks4 rest).flatten = _
    rw [List.flatten_cons, chunks4_flatten rest]
    rfl

theorem mapM_option_eq_some {α β : Type} (f : α → Option β) :
    ∀ (l : List α) (out : List β),
      l.mapM f = some out ↔ List.Forall₂ (fun a b => f a = some b) l out := by
  intro l
  induction l with
  | nil =>
    intro out
    rw [List.mapM_nil]
    constructor
    · intro h
      have h2 : ([] : List β) = out := Option.some.inj h
      rw [← h2]
      exact List.Forall₂.nil
    · intro h
      cases h
      rfl
  | cons a l ih =>
    intro out
    rw [List.mapM_cons]
    constructor
    · intro h
      cases hfa : f a with
      | none => rw [hfa] at h; simp at h
      | some x =>
        rw [hfa] at h
        cases hml : l.mapM f with
        | none => rw [hml] at h; simp at h
        | some xs =>
          rw [hml] at h
          have h2 : x :: xs = out := by simpa using h
          rw [← h2]
          exact List.Forall₂.cons hfa ((ih xs).mp hml)
    · intro h
      cases h with
      | cons h1 h2 =>
        rw [h1, (ih _).mpr h2]
        rfl

theorem mapM_option_flatMap {α β γ : Type} (f : β → Option γ) (g : α → List β) :
    ∀ (l : List α) (out : List γ), (l.flatMap g).mapM f = some out →
      ∃ outs : List (List γ), List.Forall₂ (fun r o => (g r).mapM f = some o) l outs ∧
        out = outs.flatten := by
  intro l
  induction l with
  | nil =>
    intro out h
    rw [List.flatMap_nil, List.mapM_nil] at h
    exact ⟨[], List.Forall₂.nil, (Option.some.inj h).symm⟩
  | cons a l ih =>
    intro out h
    rw [List.flatMap_cons, List.mapM_append] at h
    cases h1 : (g a).mapM f with
    | none => rw [h1] at h; simp at h
    | some o1 =>
      rw [h1] at h
      cases h2 : (l.flatMap g).mapM f with
      | none => rw [h2] at h; simp at h
      | some o2 =>
        rw [h2] at h
        have hout : o1 ++ o2 = out := by simpa using h
        obtain ⟨outs, hf, hfl⟩ := ih o2 h2
        refine ⟨o1 :: outs, List.Forall₂.cons h1 hf, ?_⟩
        rw [← hout, hfl]
        rfl

theorem forall₂_eq_map {α β : Type} (g : β → α) :
    ∀ {l1 : List α} {l2 : List β},
      List.Forall₂ (fun a b => a = g b) l1 l2 → l1 = l2.map g := by
  intro l1 l2 h
  induction h with
  | nil => rfl
  | cons h1 _ ih => rw [List.map_cons, h1, ih]

theorem flatten_uniform_length {α : Type} (k : Nat) :
    ∀ ls : List (List α), (∀ x ∈ ls, x.length = k) →
      ls.flatten.length = ls.length * k := by
  intro ls
  induction ls with
  | nil => intro _; simp
  | cons x ls ih =>
    intro h
    rw [List.flatten_cons, List.length_append, h x (List.mem_cons_self x ls),
      ih (fun y hy => h y (List.mem_cons_of_mem x hy)), List.length_cons]
    ring

theorem flatten_uniform_drop_take {α : Type} (k : Nat) :
    ∀ (ls : List (List α)) (i : Nat) ( _h : ∀ x ∈ ls, x.length = k)
      (hi : i < ls.length), (ls.flatten.drop (i * k)).take k = ls[i] := by
  intro ls
  induction ls with
  | nil => intro i _ hi; simp at hi
  | cons x ls ih =>
    intro i h hi
    cases i with
    | zero =>
      rw [Nat.zero_mul, List.drop_zero, List.flatten_cons,
        ← h x (List.mem_cons_self x ls), List.take_left]
      rfl
    | succ i =>
      rw [List.flatten_cons]
      have hx : x.length = k := h x (List.mem_cons_self x ls)
      have hmul : (i + 1) * k = x.length + i * k := by rw [hx]; ring
      rw [hmul, List.drop_append]
      have hi2 : i < ls.length := by simp at hi; omega
      rw [ih i (fun y hy => h y (List.mem_cons_of_mem x hy)) hi2]
      simp

theorem iter_rows_flatten (trs : List (List Tile)) (RL : Nat) (hRL : 0 < RL)
    (h : ∀ tr ∈ trs, tr.length = RL) :
    Board.iter_rows ⟨trs.flatten, RL⟩ = trs := by
  have hlen : trs.flatten.length = trs.length * RL := flatten_uniform_length RL trs h
  have hn : Board.num_rows ⟨trs.flatten, RL⟩ = trs.length := by
    unfold Board.num_rows
    simp only
    rw [hlen]
    exact Nat.mul_div_cancel trs.length hRL
  unfold Board.iter_rows
  rw [hn]
  apply List.ext_getElem (by simp)
  intro i h1 h2
  simp only [List.getElem_map, List.getElem_range]
  exact flatten_uniform_drop_take RL trs i h h2

/-! Structure of accepted texts. -/

theorem splitLines_ne_nil : ∀ t : List Char, splitLines t ≠ [] := by
  intro t
  cases t with
  | nil => simp [splitLines]
  | cons c rest =>
    unfold splitLines
    cases h : splitLines rest with
    | nil => simp
    | cons l ls =>
      by_cases hc : c = '\n' <;> simp [hc]

theorem parseRows_of_no_blank (t : List Char)
    (hnb : ∀ l ∈ splitLines t, ¬(l.all isWhitespaceChar = true)) :
    parseRows t = (splitLines t).enum.map
      (fun ir => List.replicate (ir.1 * 2) ' ' ++ trimEnd ir.2) := by
  unfold parseRows
  rw [List.filter_eq_self.mpr]
  intro a ha
  rw [Bool.not_eq_true']
  exact Bool.eq_false_iff.mpr (hnb a ha)

theorem parseRows_length (t : List Char)
    (hnb : ∀ l ∈ splitLines t, ¬(l.all isWhitespaceChar = true)) :
    (parseRows t).length = (splitLines t).length := by
  rw [parseRows_of_no_blank t hnb, List.length_map, List.enum_length]

theorem parseRows_getElem (t : List Char)
    (hnb : ∀ l ∈ splitLines t, ¬(l.all isWhitespaceChar = true))
    (i : Nat) (hi : i < (parseRows t).length) (hi2 : i < (splitLines t).length) :
    (parseRows t)[i] = List.replicate (i * 2) ' ' ++ trimEnd (splitLines t)[i] := by
  have h := parseRows_of_no_blank t hnb
  rw [List.getElem_of_eq h, List.getElem_map, List.getElem_enum]

theorem parse_accepts (t : List Char) (b : Board) (hp : parse t = some b) :
    parseRows t ≠ [] ∧
      ∃ trs : List (List Tile),
        List.Forall₂
          (fun row tr => (chunks4 (rowSlice (parseRows t) row)).mapM parseTile = some tr)
          (parseRows t) trs ∧
        b.tiles = trs.flatten ∧ b.row_length = rowLenOf (parseRows t) := by
  unfold parse at hp
  dsimp only at hp
  by_cases hrows : parseRows t = []
  · rw [if_pos hrows] at hp
    cases hp
  · rw [if_neg hrows] at hp
    refine ⟨hrows, ?_⟩
    cases hmap : ((parseRows t).flatMap
        (fun row => chunks4 (rowSlice (parseRows t) row))).mapM parseTile with
    | none => rw [hmap] at hp; cases hp
    | some tiles =>
      rw [hmap] at hp
      obtain ⟨trs, hf, hfl⟩ := mapM_option_flatMap parseTile
        (fun row => chunks4 (rowSlice (parseRows t) row)) (parseRows t) tiles hmap
      refine ⟨trs, hf, ?_, ?_⟩
      · rw [← Option.some.inj hp, ← hfl]
      · rw [← Option.some.inj hp]

theorem row_reconstruct (rows : List (List Char)) (row : List Char) (tr : List Tile)
    (hmem : row ∈ rows)
    (hrowEnds : trimEnd row = row) (hrowne : row ≠ [])
    (htr : (chunks4 (rowSlice rows row)).mapM parseTile = some tr)
    (hcanon : ∀ chunk ∈ chunks4 (rowSlice rows row), canonicalChunk chunk = true) :
    rowSlice rows row = tr.flatMap tileString ∧
      row = List.replicate (beginIdx rows) ' ' ++ trimEnd (tr.flatMap tileString) ∧
      trimEnd (tr.flatMap tileString) ≠ [] ∧
      leadCount row = beginIdx rows + leadCount (tr.flatMap tileString) ∧
      tr.length = rowLenOf rows := by
  have hBle : beginIdx rows ≤ leadCount row := by
    have h1 : leadCount row ∈ rows.map leadCount := List.mem_map_of_mem leadCount hmem
    have h2 := min?_getD_le_mem (rows.map leadCount) (leadCount row) h1 0
    unfold beginIdx
    calc ((rows.map leadCount).min?).getD 0 / 2 * 2
        ≤ ((rows.map leadCount).min?).getD 0 := Nat.div_mul_le_self _ 2
      _ ≤ leadCount row := h2
  have hBlen : beginIdx rows ≤ row.length := le_trans hBle (leadCount_le_length row)
  have hlenle : row.length ≤ endIdx rows := by
    have h1 : row.length ∈ rows.map List.length := List.mem_map_of_mem List.length hmem
    have h2 := le_max?_getD_mem (rows.map List.length) row.length h1 0
    unfold endIdx rowLenOf
    omega
  have hslice : rowSlice rows row =
      row.drop (beginIdx rows) ++ List.replicate (endIdx rows - row.length) ' ' := by
    unfold rowSlice
    rw [List.take_of_length_le (by
      rw [List.length_append, List.length_replicate]
      omega)]
    exact List.drop_append_of_le_length hBlen
  have hforall := (mapM_option_eq_some parseTile _ tr).mp htr
  have hlen2 : (chunks4 (rowSlice rows row)).length = tr.length := hforall.length_eq
  have heq : chunks4 (rowSlice rows row) = tr.map tileString := by
    apply List.ext_getElem (by rw [hlen2, List.length_map])
    intro i h1 h2
    have hpt := (List.forall₂_iff_get.mp hforall).2 i h1 (by omega)
    rw [List.get_eq_getElem, List.get_eq_getElem] at hpt
    have hc := hcanon _ (List.getElem_mem h1)
    simp only [canonicalChunk, hpt] at hc
    rw [List.getElem_map]
    exact of_decide_eq_true hc
  have sliceEq : rowSlice rows row = tr.flatMap tileString := by
    conv_lhs => rw [← chunks4_flatten (rowSlice rows row)]
    rw [heq, ← List.flatMap_def]
  have hslice2 : row.drop (beginIdx rows) ++
      List.replicate (endIdx rows - row.length) ' ' = tr.flatMap tileString := by
    rw [← hslice, sliceEq]
  have htrimslice : trimEnd (tr.flatMap tileString) = row.drop (beginIdx rows) := by
    rw [← hslice2, trimEnd_append_white _ _ (replicate_space_all _),
      trimEnd_drop row (beginIdx rows) (by rw [hrowEnds]; exact hBlen), hrowEnds]
  have hBlt : beginIdx rows < row.length := by
    rcases Nat.lt_or_ge (beginIdx rows) row.length with h | h
    · exact h
    · exfalso
      have hBeq : beginIdx rows = row.length := le_antisymm hBlen h
      have hleadeq : leadCount row = row.length :=
        le_antisymm (leadCount_le_length row) (hBeq ▸ hBle)
      have hrep : row = List.replicate row.length ' ' := by
        conv_lhs => rw [leadCount_decomp row]
        rw [hleadeq, List.drop_length, List.append_nil]
      have hallw : row.all isWhitespaceChar = true := by
        rw [hrep]; exact replicate_space_all _
      have : trimEnd row = [] := (trimEnd_eq_nil_iff row).mpr hallw
      rw [hrowEnds] at this
      exact hrowne this
  have htne : trimEnd (tr.flatMap tileString) ≠ [] := by
    rw [htrimslice]
    intro hnil
    rw [List.drop_eq_nil_iff] at hnil
    omega
  have hrowdec : row =
      List.replicate (beginIdx rows) ' ' ++ trimEnd (tr.flatMap tileString) := by
    rw [htrimslice]
    conv_lhs => rw [← List.take_append_drop (beginIdx rows) row]
    rw [take_of_le_leadCount row _ hBle]
  have hleadrow : leadCount row =
      beginIdx rows + leadCount (tr.flatMap tileString) := by
    conv_lhs => rw [hrowdec]
    rw [leadCount_replicate_append, leadCount_trimEnd _ htne]
  have htrlen : tr.length = rowLenOf rows := by
    have hclen := chunks4_length (rowSlice rows row)
    rw [hlen2] at hclen
    have hslen : (rowSlice rows row).length = endIdx rows - beginIdx rows := by
      rw [hslice, List.length_append, List.length_replicate, List.length_drop]
      omega
    rw [hslen] at hclen
    have hEB : endIdx rows - beginIdx rows = rowLenOf rows * 4 := by
      unfold endIdx
      omega
    rw [hEB] at hclen
    rw [hclen]
    omega
  exact ⟨sliceEq, hrowdec, htne, hleadrow, htrlen⟩

theorem trimEnd_lead_lt (s : List Char) (h : trimEnd s ≠ []) :
    leadCount (trimEnd s) < (trimEnd s).length := by
  rcases Nat.lt_or_ge (leadCount (trimEnd s)) (trimEnd s).length with hlt | hge
  · exact hlt
  · exfalso
    have heq : leadCount (trimEnd s) = (trimEnd s).length :=
      le_antisymm (leadCount_le_length _) hge
    have hrep : trimEnd s = List.replicate (trimEnd s).length ' ' := by
      conv_lhs => rw [leadCount_decomp (trimEnd s)]
      rw [heq, List.drop_length, List.append_nil]
    have hallw : (trimEnd s).all isWhitespaceChar = true := by
      rw [hrep]; exact replicate_space_all _
    have hnil : trimEnd (trimEnd s) = [] := (trimEnd_eq_nil_iff _).mpr hallw
    rw [trimEnd_trimEnd] at hnil
    exact h hnil

theorem num_rows_flatten (trs : List (List Tile)) (RL : Nat) (hRL : 0 < RL)
    (h : ∀ tr ∈ trs, tr.length = RL) :
    Board.num_rows ⟨trs.flatten, RL⟩ = trs.length := by
  unfold Board.num_rows
  simp only
  rw [flatten_uniform_length RL trs h]
  exact Nat.mul_div_cancel trs.length hRL

theorem rt_row_facts (t : List Char) (trs : List (List Tile))
    (hnb : ∀ l ∈ splitLines t, ¬(l.all isWhitespaceChar = true))
    (hcanon : ∀ row ∈ parseRows t, ∀ chunk ∈ chunks4 (rowSlice (parseRows t) row),
      canonicalChunk chunk = true)
    (hf : List.Forall₂
      (fun row tr => (chunks4 (rowSlice (parseRows t) row)).mapM parseTile = some tr)
      (parseRows t) trs)
    (i : Nat) (hi : i < (parseRows t).length) (hit : i < trs.length)
    (hil : i < (splitLines t).length) :
    (parseRows t)[i] = List.replicate (beginIdx (parseRows t)) ' ' ++
        trimEnd (trs[i].flatMap tileString) ∧
      trimEnd (trs[i].flatMap tileString) ≠ [] ∧
      leadCount (parseRows t)[i] =
        beginIdx (parseRows t) + leadCount (trs[i].flatMap tileString) ∧
      trs[i].length = rowLenOf (parseRows t) ∧
      trimEnd (splitLines t)[i] = (parseRows t)[i].drop (i * 2) ∧
      leadCount (parseRows t)[i] = i * 2 + leadCount (trimEnd (splitLines t)[i]) := by
  have hrowi := parseRows_getElem t hnb i hi hil
  have htl : trimEnd (splitLines t)[i] ≠ [] := by
    intro hnil
    exact hnb _ (List.getElem_mem hil) ((trimEnd_eq_nil_iff _).mp hnil)
  have hrowEnds : trimEnd (parseRows t)[i] = (parseRows t)[i] := by
    rw [hrowi, trimEnd_append_keep _ _ (by rw [trimEnd_trimEnd]; exact htl),
      trimEnd_trimEnd]
  have hrowne : (parseRows t)[i] ≠ [] := by
    rw [hrowi]
    intro h
    rw [List.append_eq_nil] at h
    exact htl h.2
  have hfi : (chunks4 (rowSlice (parseRows t) (parseRows t)[i])).mapM parseTile
      = some trs[i] := by
    have h := (List.forall₂_iff_get.mp hf).2 i hi hit
    rw [List.get_eq_getElem, List.get_eq_getElem] at h
    exact h
  obtain ⟨hsliceEq, hrowdec, htne, hleadrow, htrlen⟩ :=
    row_reconstruct (parseRows t) (parseRows t)[i] trs[i] (List.getElem_mem hi)
      hrowEnds hrowne hfi (hcanon _ (List.getElem_mem hi))
  refine ⟨hrowdec, htne, hleadrow, htrlen, ?_, ?_⟩
  · rw [hrowi, List.drop_append_of_le_length (by simp), List.drop_replicate]
    simp
  · rw [hrowi, leadCount_replicate_append]

theorem strip_spaces_core (a w : Nat) (core : List Char) (hwle : w ≤ a) :
    (List.replicate a ' ' ++ core).drop w = List.replicate (a - w) ' ' ++ core := by
  rw [List.drop_append_of_le_length (by rw [List.length_replicate]; exact hwle),
    List.drop_replicate]

set_option maxHeartbeats 1000000 in
/-- C6 (amended): for every text that `parse` accepts in which no line is
whitespace-only and every four-character cell is written in the printer's
canonical form, writing the parsed board uncolored reproduces the text after
stripping the trailing whitespace of every row and the minimal shared
even-column leading indentation. -/
theorem parse_write_round_trip_canonical (t : List Char) (b : Board)
    (hp : parse t = some b)
    (hnb : ∀ l ∈ splitLines t, ¬(l.all isWhitespaceChar = true))
    (hcanon : ∀ row ∈ parseRows t, ∀ chunk ∈ chunks4 (rowSlice (parseRows t) row),
      canonicalChunk chunk = true) :
    write b = normalizeText t := by
  obtain ⟨hrne, trs, hf, htiles, hRL⟩ := parse_accepts t b hp
  have hlenR : (parseRows t).length = (splitLines t).length := parseRows_length t hnb
  have hlenT : (parseRows t).length = trs.length := hf.length_eq
  have hnpos : 0 < (parseRows t).length := List.length_pos.mpr hrne
  have h0 := rt_row_facts t trs hnb hcanon hf 0 hnpos (by omega) (by omega)
  have hRLpos : 0 < rowLenOf (parseRows t) := by
    have hmem : (parseRows t)[0].length ∈ (parseRows t).map List.length :=
      List.mem_map_of_mem List.length (List.getElem_mem hnpos)
    have hmax := le_max?_getD_mem _ _ hmem 0
    have hlen0 : (parseRows t)[0].length =
        beginIdx (parseRows t) + (trimEnd (trs[0].flatMap tileString)).length := by
      rw [h0.1, List.length_append, List.length_replicate]
    have hpos0 : 0 < (trimEnd (trs[0].flatMap tileString)).length :=
      List.length_pos.mpr h0.2.1
    unfold rowLenOf
    omega
  have htrAll : ∀ tr ∈ trs, tr.length = rowLenOf (parseRows t) := by
    intro tr htr
    obtain ⟨j, hj, hjeq⟩ := List.mem_iff_getElem.mp htr
    have hfact := (rt_row_facts t trs hnb hcanon hf j (by omega) hj (by omega)).2.2.2.1
    rw [← hjeq]
    exact hfact
  have hb : b = ⟨trs.flatten, rowLenOf (parseRows t)⟩ := by
    cases b with
    | mk tiles RL =>
      simp only at htiles hRL
      rw [htiles, hRL]
  have hiter : b.iter_rows = trs := by
    rw [hb]; exact iter_rows_flatten trs _ hRLpos htrAll
  have hnum : b.num_rows = trs.length := by
    rw [hb]; exact num_rows_flatten trs _ hRLpos htrAll
  have hws : writeRows b = trs.enum.map
      (fun rrow => List.replicate ((trs.length - 1 - rrow.1) * 2) ' ' ++
        rrow.2.flatMap tileString) := by
    unfold writeRows
    rw [hiter, hnum]
  have hwslen : (writeRows b).length = trs.length := by
    rw [hws, List.length_map, List.enum_length]
  have hwsel : ∀ i (hi : i < (writeRows b).length) (hi2 : i < trs.length),
      (writeRows b)[i] = List.replicate ((trs.length - 1 - i) * 2) ' ' ++
        trs[i].flatMap tileString := by
    intro i hi hi2
    rw [List.getElem_of_eq hws]
    simp only [List.getElem_map, List.getElem_enum]
  have hnlead : ∀ i (hiR : i < (parseRows t).length) (hit : i < trs.length)
      (hil : i < (splitLines t).length),
      i * 2 + leadCount (trimEnd (splitLines t)[i]) =
        beginIdx (parseRows t) + leadCount (trs[i].flatMap tileString) := by
    intro i hiR hit hil
    have rt := rt_row_facts t trs hnb hcanon hf i hiR hit hil
    rw [← rt.2.2.2.2.2, rt.2.2.1]
  have hmin : ((((splitLines t).map trimEnd).map leadCount).min?).getD 0 +
        (trs.length - 1) * 2
      = (((writeRows b).map leadCount).min?).getD 0 + beginIdx (parseRows t) := by
    apply min?_shift
    · apply List.ne_nil_of_length_pos
      rw [List.length_map, List.length_map]
      omega
    · rw [List.length_map, List.length_map, List.length_map, hwslen]
      omega
    · intro i h1 h2
      rw [List.length_map, List.length_map] at h1
      rw [List.length_map, hwslen] at h2
      simp only [List.getElem_map]
      rw [hwsel i (by rw [hwslen]; exact h2) h2, leadCount_replicate_append]
      have hn := hnlead i (by omega) h2 h1
      omega
  unfold write normalizeText
  dsimp only
  have hlists : (writeRows b).map
        (fun row => trimEnd (row.drop (beginIdx (writeRows b))))
      = ((splitLines t).map trimEnd).map
          (fun row => row.drop (beginIdx ((splitLines t).map trimEnd))) := by
    apply List.ext_getElem
    · rw [List.length_map, List.length_map, List.length_map, hwslen]
      omega
    intro i h1 h2
    rw [List.length_map, hwslen] at h1
    rw [List.length_map, List.length_map] at h2
    have hiR : i < (parseRows t).length := by omega
    have rt := rt_row_facts t trs hnb hcanon hf i hiR h1 h2
    have htneI : trimEnd (trs[i].flatMap tileString) ≠ [] := rt.2.1
    have hlcT : leadCount (trimEnd (trs[i].flatMap tileString)) =
        leadCount (trs[i].flatMap tileString) := leadCount_trimEnd _ htneI
    have hlcle : leadCount (trs[i].flatMap tileString) ≤
        (trimEnd (trs[i].flatMap tileString)).length := by
      rw [← hlcT]; exact leadCount_le_length _
    have hcore_ne : (trimEnd (trs[i].flatMap tileString)).drop
        (leadCount (trs[i].flatMap tileString)) ≠ [] := by
      intro hdn
      rw [List.drop_eq_nil_iff] at hdn
      have hlt := trimEnd_lead_lt _ htneI
      omega
    have htrimrest : trimEnd ((trs[i].flatMap tileString).drop
          (leadCount (trs[i].flatMap tileString)))
        = (trimEnd (trs[i].flatMap tileString)).drop
            (leadCount (trs[i].flatMap tileString)) := by
      have h := trimEnd_drop (trs[i].flatMap tileString)
        (leadCount (trs[i].flatMap tileString)) hlcle
      exact h
    have hiw : i < (writeRows b).length := by rw [hwslen]; exact h1
    have hbwle : beginIdx (writeRows b) ≤
        (trs.length - 1 - i) * 2 + leadCount (trs[i].flatMap tileString) := by
      have hmem : leadCount ((writeRows b)[i]) ∈ (writeRows b).map leadCount :=
        List.mem_map_of_mem leadCount (List.getElem_mem hiw)
      have hle := min?_getD_le_mem _ _ hmem 0
      rw [hwsel i (by rw [hwslen]; exact h1) h1, leadCount_replicate_append] at hle
      unfold beginIdx
      calc ((((writeRows b).map leadCount).min?).getD 0) / 2 * 2
          ≤ (((writeRows b).map leadCount).min?).getD 0 := Nat.div_mul_le_self _ 2
        _ ≤ _ := hle
    have him : i < ((splitLines t).map trimEnd).length := by
      rw [List.length_map]; exact h2
    have hkle : beginIdx ((splitLines t).map trimEnd) ≤
        leadCount (trimEnd (splitLines t)[i]) := by
      have hmem : leadCount (((splitLines t).map trimEnd)[i]) ∈
          ((splitLines t).map trimEnd).map leadCount :=
        List.mem_map_of_mem leadCount (List.getElem_mem him)
      have hle := min?_getD_le_mem _ _ hmem 0
      rw [List.getElem_map] at hle
      unfold beginIdx
      calc ((((splitLines t).map trimEnd).map leadCount).min?).getD 0 / 2 * 2
          ≤ ((((splitLines t).map trimEnd).map leadCount).min?).getD 0 :=
            Nat.div_mul_le_self _ 2
        _ ≤ _ := hle
    have hn := hnlead i hiR h1 h2
    have hkdef : beginIdx ((splitLines t).map trimEnd) =
        ((((splitLines t).map trimEnd).map leadCount).min?).getD 0 / 2 * 2 := rfl
    have hbwdef : beginIdx (writeRows b) =
        (((writeRows b).map leadCount).min?).getD 0 / 2 * 2 := rfl
    have hBdef : beginIdx (parseRows t) =
        (((parseRows t).map leadCount).min?).getD 0 / 2 * 2 := rfl
    have hik : i * 2 + beginIdx ((splitLines t).map trimEnd) ≤
        beginIdx (parseRows t) + leadCount (trs[i].flatMap tileString) := by
      omega
    have hTdec : trimEnd (trs[i].flatMap tileString) =
        List.replicate (leadCount (trs[i].flatMap tileString)) ' ' ++
          (trimEnd (trs[i].flatMap tileString)).drop
            (leadCount (trs[i].flatMap tileString)) := by
      conv_lhs => rw [leadCount_decomp (trimEnd (trs[i].flatMap tileString))]
      rw [hlcT]
    have hrestne : trimEnd ((trs[i].flatMap tileString).drop
        (leadCount (trs[i].flatMap tileString))) ≠ [] := by
      rw [htrimrest]
      exact hcore_ne
    simp only [List.getElem_map]
    conv_rhs =>
      rw [rt.2.2.2.2.1, List.drop_drop, rt.1, hTdec, ← List.append_assoc,
        ← List.replicate_add, strip_spaces_core _ _ _ hik]
    conv_lhs =>
      rw [hwsel i (by rw [hwslen]; exact h1) h1,
        show trs[i].flatMap tileString =
            List.replicate (leadCount (trs[i].flatMap tileString)) ' ' ++
              (trs[i].flatMap tileString).drop (leadCount (trs[i].flatMap tileString))
          from leadCount_decomp _,
        ← List.append_assoc, ← List.replicate_add,
        strip_spaces_core _ _ _ hbwle, trimEnd_append_keep _ _ hrestne, htrimrest]
    rw [show (trs.length - 1 - i) * 2 + leadCount (trs[i].flatMap tileString) -
          beginIdx (writeRows b)
        = beginIdx (parseRows t) + leadCount (trs[i].flatMap tileString) -
            (i * 2 + beginIdx ((splitLines t).map trimEnd)) from by omega]
  rw [hlists]

/-- C6 counterexample: two accepted texts the write of whose parse differs
from the text normalized as the claim states.  In the first the stack size
is written with a leading zero, which the parser accepts but the printer
canonicalizes; in the second a whitespace-only first line is removed by the
parser but kept by the claimed normalization. -/
theorem parse_write_round_trip_counterexample :
    ((parse ['+', '0', '2']).isSome = true ∧
        (parse ['+', '0', '2']).map write ≠ some (normalizeText ['+', '0', '2'])) ∧
      ((parse ['\n', ' ', '0']).isSome = true ∧
        (parse ['\n', ' ', '0']).map write ≠ some (normalizeText ['\n', ' ', '0'])) := by
  decide

/-- Witness for the amended C6 round trip at the single-cell text "+1". -/
theorem parse_write_round_trip_canonical_witness :
    parse ['+', '1'] = some ⟨[Tile.new .Stack .Max 1], 1⟩ ∧
      (∀ l ∈ splitLines ['+', '1'], ¬(l.all isWhitespaceChar = true)) ∧
      (∀ row ∈ parseRows ['+', '1'],
        ∀ chunk ∈ chunks4 (rowSlice (parseRows ['+', '1']) row),
          canonicalChunk chunk = true) ∧
      write ⟨[Tile.new .Stack .Max 1], 1⟩ = normalizeText ['+', '1'] :=
  ⟨by decide, by decide, by decide,
    parse_write_round_trip_canonical ['+', '1'] ⟨[Tile.new .Stack .Max 1], 1⟩
      (by decide) (by decide) (by decide)⟩
